import Mathlib

/-!
# IMPMAL item importer: the line parsing pipeline of `src/scripts/main.js`

A shallow embedding of the parsing functions of the importer (`parseLine`, the
item grammars, the scalar field parsers and the trait extractor) together with
theorems about them.

Modelling conventions.

* A JavaScript string is a `List Char` (`Str`).  The operations used by the
  program (`split`, `trim`, `includes`, the regular expressions) look at one
  character at a time and treat the two halves of a surrogate pair like any
  other non-ASCII character, so a list of Unicode scalar values behaves as the
  list of UTF-16 code units does.
* `undefined` field reads (`parts[i]` past the end) are read as the empty
  string: every consumer starts with `if (!s)`, which treats both alike.
* A JavaScript number produced by `parseInt` is an integer-valued double or an
  infinity (`Num`); `toNumber` rounds a natural number to the nearest double.
* Regular expressions are values of `Re`, run by a backtracking matcher.
-/

namespace ImpMal

/-- A JavaScript string. -/
abbrev Str := List Char

/-! ## String primitives -/

/-- The characters removed by `String.prototype.trim` and matched by `\s`:
the ECMAScript WhiteSpace and LineTerminator code points. -/
def isWhiteSpace (c : Char) : Bool :=
  let n := c.toNat
  (9 ≤ n && n ≤ 13) || n == 32 || n == 0xA0 || n == 0x1680 ||
  (0x2000 ≤ n && n ≤ 0x200A) || n == 0x2028 || n == 0x2029 || n == 0x202F ||
  n == 0x205F || n == 0x3000 || n == 0xFEFF

/-- The class `\d`. -/
def isDigit (c : Char) : Bool :=
  48 ≤ c.toNat && c.toNat ≤ 57

/-- The class `\w` (without the `u` flag): `[A-Za-z0-9_]`. -/
def isWordChar (c : Char) : Bool :=
  let n := c.toNat
  (65 ≤ n && n ≤ 90) || (97 ≤ n && n ≤ 122) || (48 ≤ n && n ≤ 57) || n == 95

/-- Lower-case form of an ASCII capital; every other character unchanged. -/
def lowerAscii (c : Char) : Char :=
  if 65 ≤ c.toNat ∧ c.toNat ≤ 90 then Char.ofNat (c.toNat + 32) else c

/-- Lower-casing of one character by `String.prototype.toLowerCase`, for the
characters whose lower-case form contains an ASCII character: `A`..`Z`, the
Kelvin sign U+212A (`k`) and U+0130 (`i` followed by U+0307).  The other
characters are kept as they are: their lower-case forms are non-ASCII, and
the program only ever tests lower-cased text against ASCII keywords. -/
def lowerChar (c : Char) : List Char :=
  if c.toNat = 0x212A then ['k']
  else if c.toNat = 0x0130 then ['i', Char.ofNat 0x0307]
  else [lowerAscii c]

/-- The method `String.prototype.toLowerCase`. -/
def toLowerCase : Str → Str
  | [] => []
  | c :: cs => lowerChar c ++ toLowerCase cs

/-- The method `String.prototype.trimStart`. -/
def trimStart : Str → Str
  | [] => []
  | c :: cs => if isWhiteSpace c then trimStart cs else c :: cs

/-- The method `String.prototype.trimEnd`. -/
def trimEnd (s : Str) : Str :=
  (trimStart s.reverse).reverse

/-- The method `String.prototype.trim`. -/
def trim (s : Str) : Str :=
  trimEnd (trimStart s)

/-- Whether `s` begins with `p`. -/
def startsWith : Str → Str → Bool
  | _, [] => true
  | [], _ :: _ => false
  | c :: cs, p :: ps => c == p && startsWith cs ps

/-- The method `String.prototype.includes`: `sub` occurs somewhere in `s`. -/
def includes : Str → Str → Bool
  | [], sub => startsWith [] sub
  | c :: cs, sub => startsWith (c :: cs) sub || includes cs sub

/-- The call `s.split(sep)` for a one-character separator: always at least
one piece. -/
def splitOn (sep : Char) : Str → List Str
  | [] => [[]]
  | c :: cs =>
    match splitOn sep cs with
    | [] => [[]]
    | p :: ps => if c = sep then [] :: p :: ps else (c :: p) :: ps

/-- The call `parts.join(sep)`. -/
def join (sep : Str) : List Str → Str
  | [] => []
  | [p] => p
  | p :: q :: ps => p ++ sep ++ join sep (q :: ps)

/-- The read `parts[i]`, an absent field being read as the empty string. -/
def field (parts : List Str) (i : Nat) : Str :=
  parts.getD i []

/-! ## Numbers -/

/-- The values `parseInt` can produce besides `NaN`: an integer-valued double
(the two zeros are not told apart) or an infinity. -/
inductive Num where
  | fin (v : Int)
  | posInf
  | negInf
  deriving DecidableEq, Repr

/-- Number of binary digits of `n`, with `fuel` at least that number. -/
def bitLenAux : Nat → Nat → Nat
  | 0, _ => 0
  | fuel + 1, n => if n = 0 then 0 else bitLenAux fuel (n / 2) + 1

/-- Number of binary digits of `n`. -/
def bitLen (n : Nat) : Nat :=
  bitLenAux n n

/-- The double nearest to the natural number `n` (ties to even), as the
Number value of a mathematical integer: exact below `2^53`, rounded to 53
significant bits above, and infinite once the rounded value needs more than
1024 binary digits (from `2^1024` on).  ECMAScript allows `parseInt` to
approximate after the 20th significant digit; the engines round correctly. -/
def toNumber (n : Nat) : Num :=
  if n < 2 ^ 53 then Num.fin n
  else
    let e := bitLen n - 53
    let q := n / 2 ^ e
    let r := n % 2 ^ e
    let half := 2 ^ (e - 1)
    let q1 := if half < r ∨ (r = half ∧ q % 2 = 1) then q + 1 else q
    if 1024 < bitLen (q1 * 2 ^ e) then Num.posInf else Num.fin (q1 * 2 ^ e)

/-- Unary minus on numbers. -/
def Num.neg : Num → Num
  | Num.fin v => Num.fin (-v)
  | Num.posInf => Num.negInf
  | Num.negInf => Num.posInf

/-- The comparison `num < 0`. -/
def Num.isNegative : Num → Bool
  | Num.fin v => decide (v < 0)
  | Num.posInf => false
  | Num.negInf => true

/-- The mathematical integer denoted by a run of decimal digits. -/
def digitsValue (ds : Str) : Nat :=
  ds.foldl (fun acc c => 10 * acc + (c.toNat - 48)) 0

/-- The longest prefix of decimal digits. -/
def takeDigits : Str → Str
  | [] => []
  | c :: cs => if isDigit c then c :: takeDigits cs else []

/-- The call `parseInt(s, 10)`: leading white space is skipped, an optional
sign is read, then the longest run of decimal digits; `none` is `NaN`. -/
def parseInt (s : Str) : Option Num :=
  match trimStart s with
  | '-' :: r =>
    if (takeDigits r).isEmpty then none else some (toNumber (digitsValue (takeDigits r))).neg
  | '+' :: r =>
    if (takeDigits r).isEmpty then none else some (toNumber (digitsValue (takeDigits r)))
  | r =>
    if (takeDigits r).isEmpty then none else some (toNumber (digitsValue (takeDigits r)))

/-! ## Regular expressions -/

/-- The regular expressions of the program: one character from a class, a
greedy repetition of a class (`*`, `+`, `{n,}`), an optional character (`?`),
the assertions `\b`, `^` and `$`, sequence, alternation and the (single)
capture group. -/
inductive Re where
  | chr (p : Char → Bool)
  | many (p : Char → Bool) (min : Nat)
  | opt (p : Char → Bool)
  | wordB
  | bol
  | eol
  | eps
  | seq (a b : Re)
  | alt (a b : Re)
  | group (a : Re)

/-- Greedy repetition with backtracking: take as many characters of the class
as possible, and give one back at a time while the rest of the pattern (`k`)
fails; at least `min` characters are taken. -/
def manyRun {α : Type} (p : Char → Bool) (k : Option Char → Str → Option α) :
    Nat → Option Char → Str → Option α
  | min, prev, [] => if min = 0 then k prev [] else none
  | min, prev, c :: cs =>
    if p c then
      match manyRun p k (min - 1) (some c) cs with
      | some r => some r
      | none => if min = 0 then k prev (c :: cs) else none
    else if min = 0 then k prev (c :: cs) else none

/-- The assertion `\b` between the character before the position (`prev`) and
the text after it. -/
def atWordBoundary (prev : Option Char) (rest : Str) : Bool :=
  (match prev with | some c => isWordChar c | none => false) !=
  (match rest with | c :: _ => isWordChar c | [] => false)

/-- Backtracking matcher, in continuation-passing style: `k` is the rest of
the pattern; the state is the capture so far, the character before the
position and the text from the position on. -/
def Re.run {α : Type} : Re → (Option Str → Option Char → Str → Option α) →
    Option Str → Option Char → Str → Option α
  | Re.chr p, k, cap, _, rest =>
    match rest with
    | c :: cs => if p c then k cap (some c) cs else none
    | [] => none
  | Re.many p min, k, cap, prev, rest => manyRun p (k cap) min prev rest
  | Re.opt p, k, cap, prev, rest =>
    match rest with
    | c :: cs =>
      if p c then
        match k cap (some c) cs with
        | some r => some r
        | none => k cap prev rest
      else k cap prev rest
    | [] => k cap prev rest
  | Re.wordB, k, cap, prev, rest => if atWordBoundary prev rest then k cap prev rest else none
  | Re.bol, k, cap, prev, rest => if prev.isNone then k cap prev rest else none
  | Re.eol, k, cap, prev, rest => if rest.isEmpty then k cap prev rest else none
  | Re.eps, k, cap, prev, rest => k cap prev rest
  | Re.seq a b, k, cap, prev, rest => a.run (fun cap1 p1 r1 => b.run k cap1 p1 r1) cap prev rest
  | Re.alt a b, k, cap, prev, rest =>
    match a.run k cap prev rest with
    | some r => some r
    | none => b.run k cap prev rest
  | Re.group a, k, cap, prev, rest =>
    a.run (fun _ p1 r1 => k (some (rest.take (rest.length - r1.length))) p1 r1) cap prev rest

/-- A match: the number of characters before it (from where the search
started), the text of capture group 1 if it took part, the last character
before the end of the match, and the text after the match. -/
structure Match where
  index : Nat
  cap : Option Str
  prev : Option Char
  after : Str
  deriving DecidableEq, Repr

/-- A match of `re` starting exactly at the current position. -/
def Re.matchHere (re : Re) (i : Nat) (prev : Option Char) (rest : Str) : Option Match :=
  re.run (fun cap p r => some (Match.mk i cap p r)) none prev rest

/-- The leftmost match of `re` at or after the current position. -/
def Re.search (re : Re) : Nat → Option Char → Str → Option Match
  | i, prev, [] => re.matchHere i prev []
  | i, prev, c :: cs =>
    match re.matchHere i prev (c :: cs) with
    | some m => some m
    | none => Re.search re (i + 1) (some c) cs

/-- The call `re.exec(s)` (or `re.test(s)`, `s.match(re)`) of a fresh
expression: the leftmost match in `s`. -/
def Re.exec (re : Re) (s : Str) : Option Match :=
  re.search 0 none s

/-- The successive matches of the loop `while ((m = re.exec(s)) !== null)` of
an expression with the `g` flag, each search resuming where the previous match
ended (`pos` is `lastIndex`).  Every pass consumes at least one character, so `fuel` one more than
the length of the text is never used up; the loop is cut after an empty
match, which no pattern of the program has. -/
def Re.execLoop (re : Re) : Nat → Nat → Option Char → Str → List Match
  | 0, _, _, _ => []
  | fuel + 1, pos, prev, rest =>
    match re.search pos prev rest with
    | none => []
    | some m =>
      if m.after.length < rest.length then
        m :: Re.execLoop re fuel (pos + (rest.length - m.after.length)) m.prev m.after
      else [m]

/-- All matches of a `g` expression in `s`, in the order `exec` returns them;
`index` is the position of the match in `s`. -/
def Re.execAll (re : Re) (s : Str) : List Match :=
  re.execLoop (s.length + 1) 0 none s

/-- The call `s.replace(re, repl)` for a `g` expression and a constant
replacement, from the current position. -/
def Re.replaceLoop (re : Re) (repl : Str) : Nat → Option Char → Str → Str
  | 0, _, rest => rest
  | fuel + 1, prev, rest =>
    match re.search 0 prev rest with
    | none => rest
    | some m =>
      rest.take m.index ++ repl ++
        (if m.after.length < rest.length then Re.replaceLoop re repl fuel m.prev m.after
         else m.after)

/-- The call `s.replace(re, repl)` for a `g` expression. -/
def Re.replaceAll (re : Re) (repl : Str) (s : Str) : Str :=
  re.replaceLoop repl (s.length + 1) none s

/-- One given character. -/
def Re.char (c : Char) : Re :=
  Re.chr (fun x => x == c)

/-- One character compared under the `i` flag.  Without the `u` flag a
non-ASCII character never equals an ASCII one under case folding, so the
comparison is equality of ASCII lower-case forms. -/
def Re.ci (c : Char) : Re :=
  Re.chr (fun x => lowerAscii x == lowerAscii c)

/-- The sequence of the given expressions. -/
def Re.cat : List Re → Re
  | [] => Re.eps
  | [r] => r
  | r :: rs => Re.seq r (Re.cat rs)

/-- The literal text `w` under the `i` flag. -/
def Re.word (w : String) : Re :=
  Re.cat (w.toList.map Re.ci)

/-- The class `\s*`. -/
def Re.spaces : Re :=
  Re.many isWhiteSpace 0

/-- The group `(\d+)`. -/
def Re.digitsGroup : Re :=
  Re.group (Re.many isDigit 1)

/-! ## Helper functions (`normalizeText` and the scalar parsers) -/

/-- The function `normalizeText`; in the source the two quote classes hold
the straight quote characters. -/
def normalizeText (t : Str) : Str :=
  let t1 := (Re.cat [Re.char '\r', Re.char '\n']).replaceAll ['\n'] t
  let t2 := (Re.char '\r').replaceAll ['\n'] t1
  let t3 := (Re.chr (fun c => c == '"' || c == '"')).replaceAll ['"'] t2
  let t4 := (Re.chr (fun c => c == '\'')).replaceAll ['\''] t3
  let t5 := (Re.char (Char.ofNat 0xA0)).replaceAll [' '] t4
  let t6 := (Re.cat [Re.many (fun c => c == ' ' || c == '\t') 1, Re.char '\n']).replaceAll ['\n'] t5
  trim t6

/-- The pipe-delimited fields of a line: `normalizeText(line).split("|")`
with every piece trimmed (the first statement of `parseLine`). -/
def tokenize (line : Str) : List Str :=
  (splitOn '|' (normalizeText line)).map trim

/-- The function `parseNumber`. -/
def parseNumber (s : Str) : Num :=
  if s.isEmpty then Num.fin 0
  else
    let cleaned := (s.filter (fun c => !(c == ',' || isWhiteSpace c))).map
      (fun c => if c == Char.ofNat 0x2212 then '-' else c)
    match parseInt cleaned with
    | none => Num.fin 0
    | some num => num

/-- The function `parseAvailability`. -/
def parseAvailability (s : Str) : Str :=
  if s.isEmpty then "common".toList
  else
    let lower := trim (toLowerCase s)
    if includes lower "ubiquitous".toList then "ubiquitous".toList
    else if includes lower "abundant".toList then "abundant".toList
    else if includes lower "plentiful".toList then "plentiful".toList
    else if includes lower "common".toList then "common".toList
    else if includes lower "scarce".toList then "scarce".toList
    else if includes lower "rare".toList then "rare".toList
    else if includes lower "exotic".toList then "exotic".toList
    else "common".toList

/-- The function `parseSpec`; `type` is `"melee"` or `"ranged"`. -/
def parseSpec (s : Str) (type : Str) : Str :=
  let dflt := if type = "melee".toList then "oneHanded".toList else "pistol".toList
  if s.isEmpty then dflt
  else
    let lower := trim (toLowerCase s)
    if includes lower "one-handed".toList || includes lower "one handed".toList then
      "oneHanded".toList
    else if includes lower "two-handed".toList || includes lower "two handed".toList then
      "twoHanded".toList
    else if includes lower "brawling".toList then "brawling".toList
    else if includes lower "pistol".toList then "pistol".toList
    else if includes lower "long gun".toList || includes lower "longgun".toList then
      "longGun".toList
    else if includes lower "ordnance".toList then "ordnance".toList
    else if includes lower "engineering".toList then "engineering".toList
    else if includes lower "thrown".toList then "thrown".toList
    else dflt

/-- The result of `parseDamage`. -/
structure DamageSpec where
  base : Num
  characteristic : Str
  deriving DecidableEq, Repr

/-- A pattern `(\d+)\+w` of `parseDamage` (flag `i`). -/
def damageForward (w : String) : Re :=
  Re.cat [Re.digitsGroup, Re.char '+', Re.word w]

/-- A pattern `w\+(\d+)` of `parseDamage` (flag `i`). -/
def damageReversed (w : String) : Re :=
  Re.cat [Re.word w, Re.char '+', Re.digitsGroup]

/-- The table `patterns` of `parseDamage`, in source order. -/
def damagePatterns : List (Re × Str) :=
  [ (damageForward "str", "str".toList),
    (damageForward "ag", "ag".toList),
    (damageForward "int", "int".toList),
    (damageForward "wil", "wil".toList),
    (damageForward "fel", "fel".toList),
    (damageForward "per", "per".toList),
    (damageForward "t", "tgh".toList),
    (damageReversed "str", "str".toList),
    (damageReversed "ag", "ag".toList) ]

/-- The value `parseInt(match[1], 10)` of a match; `NaN` cannot arise from a
capture `(\d+)` and is read as 0. -/
def capturedInt (m : Match) : Num :=
  match parseInt (m.cap.getD []) with
  | some n => n
  | none => Num.fin 0

/-- The loop over `patterns` in `parseDamage`: the modifier and the
characteristic of the first pattern that matches, or `(0, "")`. -/
def damageScan (cleaned : Str) : List (Re × Str) → Num × Str
  | [] => (Num.fin 0, [])
  | (regex, char) :: rest =>
    match regex.exec cleaned with
    | some m => (capturedInt m, char)
    | none => damageScan cleaned rest

/-- The function `parseDamage`. -/
def parseDamage (s : Str) : DamageSpec :=
  if s.isEmpty then { base := Num.fin 0, characteristic := "str".toList }
  else
    let cleaned := toLowerCase (s.filter (fun c => !isWhiteSpace c))
    let found := damageScan cleaned damagePatterns
    if found.2.isEmpty then
      match (Re.cat [Re.bol, Re.digitsGroup]).exec cleaned with
      | some numMatch => { base := capturedInt numMatch, characteristic := [] }
      | none => { base := found.1, characteristic := found.2 }
    else { base := found.1, characteristic := found.2 }

/-- The function `parseRange`. -/
def parseRange (s : Str) : Str :=
  if s.isEmpty then []
  else
    let lower := trim (toLowerCase s)
    if includes lower "short".toList then "short".toList
    else if includes lower "medium".toList then "medium".toList
    else if includes lower "long".toList then "long".toList
    else if includes lower "extreme".toList then "extreme".toList
    else []

/-- The function `parseMagazine`: the pair `(magValue, magCurrent)`. -/
def parseMagazine (s : Str) : Num × Num :=
  if s.isEmpty then (Num.fin 0, Num.fin 0)
  else
    let cleaned := s.filter isDigit
    match parseInt cleaned with
    | none => (Num.fin 0, Num.fin 0)
    | some num => if num.isNegative then (Num.fin 0, Num.fin 0) else (num, num)

/-- The function `parseArmourCategory`. -/
def parseArmourCategory (s : Str) : Str :=
  if s.isEmpty then "mundane".toList
  else
    let lower := trim (toLowerCase s)
    if includes lower "flak".toList then "flak".toList
    else if includes lower "mesh".toList then "mesh".toList
    else if includes lower "carapace".toList then "carapace".toList
    else if includes lower "power".toList then "power".toList
    else if includes lower "shield".toList then "shield".toList
    else "mundane".toList

/-- The value of `locations` in an armour record. -/
structure Locations where
  label : Str
  list : List Str
  deriving DecidableEq, Repr

/-- The six hit locations. -/
def allLocations : List Str :=
  ["head".toList, "body".toList, "leftArm".toList, "rightArm".toList, "leftLeg".toList,
   "rightLeg".toList]

/-- The function `parseLocations`. -/
def parseLocations (s : Str) : Locations :=
  if s.isEmpty then { label := "All".toList, list := allLocations }
  else
    let lower := toLowerCase s
    if includes lower "all".toList then { label := "All".toList, list := allLocations }
    else
      let l1 : List Str := if includes lower "head".toList then ["head".toList] else []
      let l2 := if includes lower "body".toList || includes lower "torso".toList then
        l1 ++ ["body".toList] else l1
      let l3 := if includes lower "arm".toList then l2 ++ ["leftArm".toList, "rightArm".toList]
        else l2
      let l4 := if includes lower "leg".toList then l3 ++ ["leftLeg".toList, "rightLeg".toList]
        else l3
      { label := s, list := if l4.isEmpty then allLocations else l4 }

/-! ## Trait parsing -/

/-- A structured trait `{ key, value? }`. -/
structure Trait where
  key : Str
  value : Option Str
  deriving DecidableEq, Repr

/-- One entry `{ pattern, key, hasValue }` of the table `traitPatterns`. -/
structure TraitPattern where
  pattern : Re
  key : Str
  hasValue : Bool

/-- The pattern `\bWord\b`. -/
def plainTrait (w : String) : Re :=
  Re.cat [Re.wordB, Re.word w, Re.wordB]

/-- The pattern `\bWord\s*\((\d+)\)`. -/
def ratedTrait (w : String) : Re :=
  Re.cat [Re.wordB, Re.word w, Re.spaces, Re.char '(', Re.digitsGroup, Re.char ')']

/-- The pattern `\bWord\s*\(([^)]+)\)`. -/
def textTrait (w : String) : Re :=
  Re.cat [Re.wordB, Re.word w, Re.spaces, Re.char '(',
    Re.group (Re.many (fun c => !(c == ')')) 1), Re.char ')']

/-- The table `traitPatterns` of `parseTraits`, in source order. -/
def traitPatterns : List TraitPattern :=
  [ ⟨ratedTrait "Blast", "blast".toList, true⟩,
    ⟨ratedTrait "Burst", "burst".toList, true⟩,
    ⟨plainTrait "Close", "close".toList, false⟩,
    ⟨plainTrait "Defensive", "defensive".toList, false⟩,
    ⟨plainTrait "Flamer", "flamer".toList, false⟩,
    ⟨ratedTrait "Heavy", "heavy".toList, true⟩,
    ⟨plainTrait "Ineffective", "ineffective".toList, false⟩,
    ⟨textTrait "Inflict", "inflict".toList, true⟩,
    ⟨plainTrait "Loud", "loud".toList, false⟩,
    ⟨ratedTrait "Penetrating", "penetrating".toList, true⟩,
    ⟨Re.cat [Re.wordB, Re.word "Rapid", Re.spaces, Re.word "Fire", Re.spaces, Re.char '(',
        Re.digitsGroup, Re.char ')'], "rapidfire".toList, true⟩,
    ⟨ratedTrait "RapidFire", "rapidfire".toList, true⟩,
    ⟨textTrait "Reach", "reach".toList, true⟩,
    ⟨plainTrait "Reliable", "reliable".toList, false⟩,
    ⟨ratedTrait "Rend", "rend".toList, true⟩,
    ⟨ratedTrait "Shield", "shield".toList, true⟩,
    ⟨plainTrait "Shield", "shield".toList, false⟩,
    ⟨plainTrait "Spread", "spread".toList, false⟩,
    ⟨plainTrait "Subtle", "subtle".toList, false⟩,
    ⟨plainTrait "Supercharge", "supercharge".toList, false⟩,
    ⟨textTrait "Thrown", "thrown".toList, true⟩,
    ⟨plainTrait "Thrown", "thrown".toList, false⟩,
    ⟨Re.cat [Re.wordB, Re.word "Two", Re.opt (fun c => c == '-'), Re.word "Handed", Re.wordB],
      "twohanded".toList, false⟩,
    ⟨plainTrait "Unstable", "unstable".toList, false⟩,
    ⟨plainTrait "Bulky", "bulky".toList, false⟩,
    ⟨plainTrait "Shoddy", "shoddy".toList, false⟩,
    ⟨plainTrait "Ugly", "ugly".toList, false⟩,
    ⟨plainTrait "Unreliable", "unreliable".toList, false⟩,
    ⟨plainTrait "Lightweight", "lightweight".toList, false⟩,
    ⟨plainTrait "Mastercrafted", "mastercrafted".toList, false⟩,
    ⟨Re.cat [Re.wordB, Re.word "Master", Re.opt (fun c => c == '-'), Re.word "crafted",
        Re.wordB], "mastercrafted".toList, false⟩,
    ⟨plainTrait "Ornamental", "ornamental".toList, false⟩,
    ⟨plainTrait "Durable", "durable".toList, false⟩,
    ⟨plainTrait "Haywire", "haywire".toList, false⟩ ]

/-- The trait built from a match of a pattern: the value is `match[1]` when
the pattern has a value and the capture is a non-empty string. -/
def traitOfMatch (tp : TraitPattern) (m : Match) : Trait :=
  { key := tp.key
    value := if tp.hasValue then
        (match m.cap with
         | some v => if v.isEmpty then none else some v
         | none => none)
      else none }

/-- The state of the loops of `parseTraits`: `foundKeys` and `traits`. -/
structure TraitAcc where
  foundKeys : List Str
  traits : List Trait

/-- The body of the `while` loop of `parseTraits` for one match: a key already
found is skipped (`continue`), otherwise it is recorded and a trait pushed. -/
def traitStep (tp : TraitPattern) (acc : TraitAcc) (m : Match) : TraitAcc :=
  if acc.foundKeys.contains tp.key then acc
  else { foundKeys := tp.key :: acc.foundKeys, traits := acc.traits ++ [traitOfMatch tp m] }

/-- The `for` loop of `parseTraits` over a table of patterns: for each pattern
the `while` loop over all its matches in `s`. -/
def collectTraits (s : Str) (table : List TraitPattern) (acc : TraitAcc) : TraitAcc :=
  table.foldl (fun a tp => (tp.pattern.execAll s).foldl (traitStep tp) a) acc

/-- The function `parseTraits`. -/
def parseTraits (s : Str) : List Trait :=
  if (trim s).isEmpty then []
  else (collectTraits s traitPatterns { foundKeys := [], traits := [] }).traits

/-- The set `SYSTEM_TRAIT_KEYS`. -/
def SYSTEM_TRAIT_KEYS : List Str :=
  [ "blast".toList, "burst".toList, "close".toList, "defensive".toList, "flamer".toList,
    "heavy".toList, "ineffective".toList, "inflict".toList, "loud".toList,
    "penetrating".toList, "rapidfire".toList, "reach".toList, "reliable".toList,
    "rend".toList, "shield".toList, "spread".toList, "subtle".toList, "supercharge".toList,
    "thrown".toList, "twohanded".toList, "unstable".toList, "bulky".toList, "shoddy".toList,
    "ugly".toList, "unreliable".toList, "lightweight".toList, "mastercrafted".toList,
    "ornamental".toList, "durable".toList, "haywire".toList ]

/-- A value of the custom-trait dictionary. -/
structure CustomDef where
  displayName : Str
  description : Str
  deriving DecidableEq, Repr

/-- The custom-trait dictionary: a plain object keyed by base name.  The
entries whose key is not `__proto__` are its own properties, in insertion
order.  No assignment `defs[key] = value` creates an own property `__proto__`:
with that key it replaces the prototype of the object, which the entry with
the key `__proto__` records; without such an entry the prototype is
`Object.prototype`.  A read takes the first entry with the key. -/
abbrev CustomTraitDefs := List (Str × CustomDef)

/-- The own keys of the dictionary, `Object.keys(customTraitDefs)`, of which
the program reads the length only. -/
def ownKeys (defs : CustomTraitDefs) : List Str :=
  (defs.filter (fun e => !(e.1 == "__proto__".toList))).map (fun e => e.1)

/-- The assignment `defs[key] = value`. -/
def setProperty (defs : CustomTraitDefs) (key : Str) (value : CustomDef) : CustomTraitDefs :=
  if defs.any (fun e => e.1 == key) then
    defs.map (fun e => if e.1 == key then (key, value) else e)
  else defs ++ [(key, value)]

/-- The text `${def.description}` for `def = customTraitDefs[baseName]` when
that value is truthy.  An own property wins, and the read of `__proto__` gives
the prototype; otherwise the read falls through the prototype chain.  The only
properties of `Object.prototype` with a lower-case name are `constructor` and
`__proto__`: both are truthy and have no `description`, which the template
renders as `undefined`.  A prototype set by assignment adds its own
`description`, a text, truthy unless empty and without a `description` of its
own (its `displayName` is no lower-case name). -/
def lookupDescription (defs : CustomTraitDefs) (baseName : Str) : Option Str :=
  match defs.find? (fun e => e.1 == baseName) with
  | some e => some e.2.description
  | none =>
    if baseName = "constructor".toList ∨ baseName = "__proto__".toList then
      some "undefined".toList
    else
      match defs.find? (fun e => e.1 == "__proto__".toList) with
      | some p =>
        if baseName = "description".toList ∧ p.2.description ≠ [] then some "undefined".toList
        else none
      | none => none

/-- The call `s.split(re)` for an expression that matches no empty text. -/
def Re.splitLoop (re : Re) : Nat → Option Char → Str → List Str
  | 0, _, rest => [rest]
  | fuel + 1, prev, rest =>
    match re.search 0 prev rest with
    | none => [rest]
    | some m =>
      rest.take m.index ::
        (if m.after.length < rest.length then Re.splitLoop re fuel m.prev m.after
         else [m.after])

/-- The call `s.split(re)`. -/
def Re.split (re : Re) (s : Str) : List Str :=
  re.splitLoop (s.length + 1) none s

/-- The call `s.replace(re, "")` for an expression without the `g` flag: the
leftmost match is removed. -/
def Re.removeFirst (re : Re) (s : Str) : Str :=
  match re.exec s with
  | none => s
  | some m => s.take m.index ++ m.after

/-- The expression `\s*\([^)]*\)\s*$` that strips a trailing parenthetical. -/
def trailingParenthetical : Re :=
  Re.cat [Re.spaces, Re.char '(', Re.many (fun c => !(c == ')')) 0, Re.char ')', Re.spaces,
    Re.eol]

/-- The base name of a trait segment: trailing parenthetical stripped,
trimmed, lower-cased. -/
def baseNameOf (trimmed : Str) : Str :=
  toLowerCase (trim (trailingParenthetical.removeFirst trimmed))

/-- The note pushed by `parseTraitsWithCustom` for one comma-separated
segment, if any. -/
def customNote (defs : CustomTraitDefs) (part : Str) : Option Str :=
  let trimmed := trim part
  if trimmed.isEmpty then none
  else
    let baseName := baseNameOf trimmed
    let isSystemTrait := SYSTEM_TRAIT_KEYS.contains (baseName.filter (fun c => !isWhiteSpace c))
    if isSystemTrait then none
    else
      match lookupDescription defs baseName with
      | some description =>
        some ("<p><strong>".toList ++ trimmed ++ ":</strong> ".toList ++ description ++
          "</p>".toList)
      | none => none

/-- The function `parseTraitsWithCustom`: the pair `(traits, customTraitNotes)`. -/
def parseTraitsWithCustom (traitsStr : Str) (customTraitDefs : CustomTraitDefs) :
    List Trait × Str :=
  let traits := parseTraits traitsStr
  if (trim traitsStr).isEmpty || (ownKeys customTraitDefs).length == 0 then (traits, [])
  else
    let traitParts := (Re.cat [Re.char ',', Re.spaces]).split traitsStr
    (traits, join ['\n'] (traitParts.filterMap (customNote customTraitDefs)))

/-! ## Item records and grammars -/

/-- What the parsing functions read from the host application: the module
settings (`game.settings.get(MODULE_ID, key)`) and the clock (`Date.now()`). -/
structure Host where
  setting : Str → Str
  now : Nat

/-- The value of `system.damage` in a weapon record. -/
structure WeaponDamage where
  base : Num
  characteristic : Str
  SL : Bool
  deriving DecidableEq, Repr

/-- The value of `system.mag` in a weapon record. -/
structure Magazine where
  value : Num
  current : Num
  deriving DecidableEq, Repr

/-- The value of `system` in a weapon record. -/
structure WeaponSystem where
  attackType : Str
  spec : Str
  category : Str
  damage : WeaponDamage
  range : Str
  mag : Magazine
  encumbrance : Num
  cost : Num
  availability : Str
  traits : List Trait
  notesPlayer : Str
  notesGm : Str
  deriving DecidableEq, Repr

/-- The value of `system` in an armour or shield record. -/
structure ProtectionSystem where
  category : Str
  armour : Num
  encumbrance : Num
  cost : Num
  availability : Str
  locations : Locations
  traits : List Trait
  notesPlayer : Str
  notesGm : Str
  deriving DecidableEq, Repr

/-- The value of `system` in a force field record. -/
structure ForceFieldSystem where
  protection : Str
  overloadValue : Num
  overloadCollapsed : Bool
  encumbrance : Num
  cost : Num
  availability : Str
  traits : List Trait
  notesPlayer : Str
  notesGm : Str
  deriving DecidableEq, Repr

/-- The value of `system`, by record type. -/
inductive ItemSystem where
  | weapon (w : WeaponSystem)
  | protection (p : ProtectionSystem)
  | forceField (f : ForceFieldSystem)
  deriving DecidableEq, Repr

/-- An item record as returned by `parseLine`; `importedAt` is the value of
`flags[MODULE_ID].importedAt`. -/
structure Item where
  name : Str
  type : Str
  img : Str
  system : ItemSystem
  importedAt : Nat
  deriving DecidableEq, Repr

/-- The trait list of a record (`system.traits.list`). -/
def Item.traits (it : Item) : List Trait :=
  match it.system with
  | ItemSystem.weapon w => w.traits
  | ItemSystem.protection p => p.traits
  | ItemSystem.forceField f => f.traits

/-- The expression `category || "mundane"`. -/
def categoryOrMundane (category : Str) : Str :=
  if category.isEmpty then "mundane".toList else category

/-- The function `parseMelee`. -/
def parseMelee (host : Host) (name : Str) (parts : List Str) (category : Str)
    (customTraitDefs : CustomTraitDefs) : Option Item :=
  if parts.length < 6 then none
  else
    let spec := parseSpec (field parts 1) "melee".toList
    let dmg := parseDamage (field parts 2)
    let enc := parseNumber (field parts 3)
    let cost := parseNumber (field parts 4)
    let avail := parseAvailability (field parts 5)
    let traitsStr := join [' '] (parts.drop 6)
    let tc := parseTraitsWithCustom traitsStr customTraitDefs
    some
      { name := name
        type := "weapon".toList
        img := host.setting "meleeIcon".toList
        system := ItemSystem.weapon
          { attackType := "melee".toList
            spec := spec
            category := categoryOrMundane category
            damage := { base := dmg.base, characteristic := dmg.characteristic, SL := true }
            range := []
            mag := { value := Num.fin 0, current := Num.fin 0 }
            encumbrance := enc
            cost := cost
            availability := avail
            traits := tc.1
            notesPlayer := tc.2
            notesGm := [] }
        importedAt := host.now }

/-- The function `parseRanged`. -/
def parseRanged (host : Host) (name : Str) (parts : List Str) (category : Str)
    (customTraitDefs : CustomTraitDefs) : Option Item :=
  if parts.length < 8 then none
  else
    let spec := parseSpec (field parts 1) "ranged".toList
    let dmg := parseDamage (field parts 2)
    let range := parseRange (field parts 3)
    let mag := parseMagazine (field parts 4)
    let enc := parseNumber (field parts 5)
    let cost := parseNumber (field parts 6)
    let avail := parseAvailability (field parts 7)
    let traitsStr := join [' '] (parts.drop 8)
    let tc := parseTraitsWithCustom traitsStr customTraitDefs
    some
      { name := name
        type := "weapon".toList
        img := host.setting "rangedIcon".toList
        system := ItemSystem.weapon
          { attackType := "ranged".toList
            spec := spec
            category := categoryOrMundane category
            damage := { base := dmg.base, characteristic := dmg.characteristic, SL := true }
            range := range
            mag := { value := mag.1, current := mag.2 }
            encumbrance := enc
            cost := cost
            availability := avail
            traits := tc.1
            notesPlayer := tc.2
            notesGm := [] }
        importedAt := host.now }

/-- The statement of `parseGrenade` that adds the Thrown trait with the range
unless the trait text already gave one. -/
def addThrown (traits : List Trait) (thrownRange : Str) : List Trait :=
  if traits.any (fun t => t.key == "thrown".toList) then traits
  else traits ++ [{ key := "thrown".toList, value := some thrownRange }]

/-- The function `parseGrenade`. -/
def parseGrenade (host : Host) (name : Str) (parts : List Str)
    (customTraitDefs : CustomTraitDefs) : Option Item :=
  if parts.length < 8 then none
  else
    let specStr := toLowerCase (field parts 1)
    let spec0 := "thrown".toList
    let spec1 := if includes specStr "ordnance".toList then "ordnance".toList else spec0
    let spec := if includes specStr "engineering".toList then "engineering".toList else spec1
    let dmg := parseDamage (field parts 2)
    let thrownRange := trim (field parts 3)
    let enc := parseNumber (field parts 5)
    let cost := parseNumber (field parts 6)
    let avail := parseAvailability (field parts 7)
    let traitsStr := join [' '] (parts.drop 8)
    let tc := parseTraitsWithCustom traitsStr customTraitDefs
    some
      { name := name
        type := "weapon".toList
        img := host.setting "grenadeIcon".toList
        system := ItemSystem.weapon
          { attackType := "ranged".toList
            spec := spec
            category := "explosive".toList
            damage := { base := dmg.base, characteristic := dmg.characteristic, SL := false }
            range := []
            mag := { value := Num.fin 1, current := Num.fin 1 }
            encumbrance := enc
            cost := cost
            availability := avail
            traits := addThrown tc.1 thrownRange
            notesPlayer := tc.2
            notesGm := [] }
        importedAt := host.now }

/-- The function `parseGrenadeSimple`. -/
def parseGrenadeSimple (host : Host) (name : Str) (parts : List Str)
    (customTraitDefs : CustomTraitDefs) : Option Item :=
  if parts.length < 6 then none
  else
    let dmg := parseDamage (field parts 2)
    let enc := parseNumber (field parts 3)
    let cost := parseNumber (field parts 4)
    let avail := parseAvailability (field parts 5)
    let traitsStr := join [' '] (parts.drop 6)
    let tc := parseTraitsWithCustom traitsStr customTraitDefs
    some
      { name := name
        type := "weapon".toList
        img := host.setting "grenadeIcon".toList
        system := ItemSystem.weapon
          { attackType := "ranged".toList
            spec := "thrown".toList
            category := "explosive".toList
            damage := { base := dmg.base, characteristic := dmg.characteristic, SL := false }
            range := []
            mag := { value := Num.fin 1, current := Num.fin 1 }
            encumbrance := enc
            cost := cost
            availability := avail
            traits := tc.1
            notesPlayer := tc.2
            notesGm := [] }
        importedAt := host.now }

/-- The function `parseArmour`. -/
def parseArmour (host : Host) (parts : List Str) (customTraitDefs : CustomTraitDefs) :
    Option Item :=
  if parts.length < 6 then none
  else
    let name := field parts 0
    let category := parseArmourCategory (field parts 1)
    let armour := parseNumber (field parts 2)
    let enc := parseNumber (field parts 3)
    let cost := parseNumber (field parts 4)
    let avail := parseAvailability (field parts 5)
    let locations := if (field parts 6).isEmpty then
        { label := "All".toList, list := allLocations }
      else parseLocations (field parts 6)
    let traitsStr := join [' '] (parts.drop 7)
    let tc := parseTraitsWithCustom traitsStr customTraitDefs
    some
      { name := name
        type := "protection".toList
        img := host.setting "armourIcon".toList
        system := ItemSystem.protection
          { category := category
            armour := armour
            encumbrance := enc
            cost := cost
            availability := avail
            locations := locations
            traits := tc.1
            notesPlayer := tc.2
            notesGm := [] }
        importedAt := host.now }

/-- The function `parseShield`. -/
def parseShield (host : Host) (parts : List Str) (customTraitDefs : CustomTraitDefs) :
    Option Item :=
  if parts.length < 6 then none
  else
    let name := field parts 0
    let enc := parseNumber (field parts 3)
    let cost := parseNumber (field parts 4)
    let avail := parseAvailability (field parts 5)
    let traitsStr := join [' '] (parts.drop 6)
    let tc := parseTraitsWithCustom traitsStr customTraitDefs
    some
      { name := name
        type := "protection".toList
        img := host.setting "shieldIcon".toList
        system := ItemSystem.protection
          { category := "shield".toList
            armour := Num.fin 0
            encumbrance := enc
            cost := cost
            availability := avail
            locations := { label := [], list := [] }
            traits := tc.1
            notesPlayer := tc.2
            notesGm := [] }
        importedAt := host.now }

/-- The function `parseForceField`. -/
def parseForceField (host : Host) (parts : List Str) : Option Item :=
  if parts.length < 6 then none
  else
    let name := field parts 0
    let protection := if (trim (field parts 1)).isEmpty then "0".toList else trim (field parts 1)
    let overload := parseNumber (field parts 2)
    let enc := parseNumber (field parts 3)
    let cost := parseNumber (field parts 4)
    let avail := parseAvailability (field parts 5)
    some
      { name := name
        type := "forceField".toList
        img := host.setting "forceFieldIcon".toList
        system := ItemSystem.forceField
          { protection := protection
            overloadValue := overload
            overloadCollapsed := false
            encumbrance := enc
            cost := cost
            availability := avail
            traits := []
            notesPlayer := []
            notesGm := [] }
        importedAt := host.now }

/-- The expression `^(Short|Medium|Long|Extreme)$` with the `i` flag. -/
def rangeBand : Re :=
  Re.cat [Re.bol,
    Re.group (Re.alt (Re.word "Short") (Re.alt (Re.word "Medium")
      (Re.alt (Re.word "Long") (Re.word "Extreme")))),
    Re.eol]

/-- The test `isMelee` of `parseWeapon`. -/
def isMelee (parts : List Str) : Bool :=
  let spec := toLowerCase (field parts 1)
  includes spec "one-handed".toList || includes spec "two-handed".toList ||
    includes spec "brawling".toList

/-- The test `isGrenade` of `parseWeapon`. -/
def isGrenade (parts : List Str) : Bool :=
  includes (toLowerCase (field parts 1)) "thrown".toList

/-- The test `hasRangedFormat` of `parseWeapon`. -/
def hasRangedFormat (parts : List Str) : Bool :=
  decide (8 ≤ parts.length) && (rangeBand.exec (trim (field parts 3))).isSome

/-- The function `parseWeapon`. -/
def parseWeapon (host : Host) (parts : List Str) (category : Str)
    (customTraitDefs : CustomTraitDefs) : Option Item :=
  let name := field parts 0
  if isMelee parts then parseMelee host name parts category customTraitDefs
  else if hasRangedFormat parts && isGrenade parts then
    parseGrenade host name parts customTraitDefs
  else if hasRangedFormat parts then parseRanged host name parts category customTraitDefs
  else if isGrenade parts then parseGrenadeSimple host name parts customTraitDefs
  else parseMelee host name parts category customTraitDefs

/-- The function `parseLine`; `none` is the result `null`. -/
def parseLine (host : Host) (line : Str) (itemType : Str) (weaponCategory : Str)
    (customTraitDefs : CustomTraitDefs) : Option Item :=
  let parts := tokenize line
  if parts.length < 2 then none
  else if itemType = "weapon".toList then parseWeapon host parts weaponCategory customTraitDefs
  else if itemType = "protection".toList then parseArmour host parts customTraitDefs
  else if itemType = "shield".toList then parseShield host parts customTraitDefs
  else if itemType = "forceField".toList then parseForceField host parts
  else none

/-- The registered defaults of the icon settings, and a fixed clock. -/
def defaultHost : Host where
  setting := fun key =>
    if key = "meleeIcon".toList then
      "modules/impmal-core/assets/icons/weapons/melee-weapon.webp".toList
    else if key = "rangedIcon".toList then
      "modules/impmal-core/assets/icons/weapons/ranged-weapon.webp".toList
    else if key = "grenadeIcon".toList then
      "modules/impmal-core/assets/icons/weapons/frag-missile.webp".toList
    else if key = "armourIcon".toList then
      "modules/impmal-core/assets/icons/protection/armour.webp".toList
    else if key = "shieldIcon".toList then
      "modules/impmal-core/assets/icons/protection/shield.webp".toList
    else if key = "forceFieldIcon".toList then
      "modules/impmal-core/assets/icons/protection/field.webp".toList
    else []
  now := 0

/-! ## Definitions used by the statements -/

/-- The invariant of the loops of `parseTraits`: the keys of the traits pushed
so far are pairwise different and all recorded in `foundKeys`. -/
def TraitAcc.Good (acc : TraitAcc) : Prop :=
  List.Pairwise (fun a b : Trait => a.key ≠ b.key) acc.traits ∧
    ∀ t ∈ acc.traits, t.key ∈ acc.foundKeys

/-- The line of the first end-to-end scenario (a melee weapon). -/
def combatKnifeLine : Str :=
  "Combat Knife | One-Handed | 3+STR | 1 | 50 | Common | Subtle".toList

/-- The record of the first end-to-end scenario, for category `"mundane"`. -/
def combatKnifeItem : Item :=
  { name := "Combat Knife".toList
    type := "weapon".toList
    img := "modules/impmal-core/assets/icons/weapons/melee-weapon.webp".toList
    system := ItemSystem.weapon
      { attackType := "melee".toList
        spec := "oneHanded".toList
        category := "mundane".toList
        damage := { base := Num.fin 3, characteristic := "str".toList, SL := true }
        range := []
        mag := { value := Num.fin 0, current := Num.fin 0 }
        encumbrance := Num.fin 1
        cost := Num.fin 50
        availability := "common".toList
        traits := [{ key := "subtle".toList, value := none }]
        notesPlayer := []
        notesGm := [] }
    importedAt := 0 }

/-- The line of the second end-to-end scenario (a ranged weapon). -/
def autogunLine : Str :=
  "Autogun | Long Gun | 7 | Medium | 30 | 3 | 250 | Common | RapidFire(3)".toList

/-- The record of the second end-to-end scenario, for category `"mundane"`. -/
def autogunItem : Item :=
  { name := "Autogun".toList
    type := "weapon".toList
    img := "modules/impmal-core/assets/icons/weapons/ranged-weapon.webp".toList
    system := ItemSystem.weapon
      { attackType := "ranged".toList
        spec := "longGun".toList
        category := "mundane".toList
        damage := { base := Num.fin 7, characteristic := [], SL := true }
        range := "medium".toList
        mag := { value := Num.fin 30, current := Num.fin 30 }
        encumbrance := Num.fin 3
        cost := Num.fin 250
        availability := "common".toList
        traits := [{ key := "rapidfire".toList, value := some "3".toList }]
        notesPlayer := []
        notesGm := [] }
    importedAt := 0 }

/-- The line of the third end-to-end scenario (a grenade with a range table). -/
def fragGrenadeLine : Str :=
  "Frag Grenade | Thrown | 8 | Short | - | 1 | 40 | Scarce".toList

/-- The record of the third end-to-end scenario. -/
def fragGrenadeItem : Item :=
  { name := "Frag Grenade".toList
    type := "weapon".toList
    img := "modules/impmal-core/assets/icons/weapons/frag-missile.webp".toList
    system := ItemSystem.weapon
      { attackType := "ranged".toList
        spec := "thrown".toList
        category := "explosive".toList
        damage := { base := Num.fin 8, characteristic := [], SL := false }
        range := []
        mag := { value := Num.fin 1, current := Num.fin 1 }
        encumbrance := Num.fin 1
        cost := Num.fin 40
        availability := "scarce".toList
        traits := [{ key := "thrown".toList, value := some "Short".toList }]
        notesPlayer := []
        notesGm := [] }
    importedAt := 0 }

/-- The four grammars a weapon line can be parsed with. -/
inductive WeaponGrammar where
  | melee
  | grenadeRangeTable
  | ranged
  | grenadeSimple
  deriving DecidableEq, Repr

/-- The range band words. -/
def rangeBandWords : List Str :=
  ["short".toList, "medium".toList, "long".toList, "extreme".toList]

/-- The 8-field shape in the words of the specification: the line has at least
8 fields and its 4th field is, letter case apart, exactly a range band word. -/
def hasEightFieldShape (parts : List Str) : Bool :=
  decide (8 ≤ parts.length) && decide ((field parts 3).map lowerAscii ∈ rangeBandWords)

/-- Whether the lower-cased 2nd field contains a melee keyword, in the words
of the specification. -/
def hasMeleeKeyword (parts : List Str) : Bool :=
  includes (toLowerCase (field parts 1)) "one-handed".toList ||
  includes (toLowerCase (field parts 1)) "two-handed".toList ||
  includes (toLowerCase (field parts 1)) "brawling".toList

/-- Whether the lower-cased 2nd field contains `thrown`. -/
def hasThrownKeyword (parts : List Str) : Bool :=
  includes (toLowerCase (field parts 1)) "thrown".toList

/-- The grammar chosen by the dispatch priority of the specification. -/
def specGrammar (parts : List Str) : WeaponGrammar :=
  if hasMeleeKeyword parts then WeaponGrammar.melee
  else if hasEightFieldShape parts && hasThrownKeyword parts then
    WeaponGrammar.grenadeRangeTable
  else if hasEightFieldShape parts then WeaponGrammar.ranged
  else if hasThrownKeyword parts then WeaponGrammar.grenadeSimple
  else WeaponGrammar.melee

/-- The grammar functions of the source, by name of the grammar. -/
def applyGrammar (g : WeaponGrammar) (host : Host) (parts : List Str) (category : Str)
    (customTraitDefs : CustomTraitDefs) : Option Item :=
  match g with
  | WeaponGrammar.melee => parseMelee host (field parts 0) parts category customTraitDefs
  | WeaponGrammar.grenadeRangeTable => parseGrenade host (field parts 0) parts customTraitDefs
  | WeaponGrammar.ranged => parseRanged host (field parts 0) parts category customTraitDefs
  | WeaponGrammar.grenadeSimple =>
    parseGrenadeSimple host (field parts 0) parts customTraitDefs

/-- The occurrences of the keyword of the catalog key `k` in `s`: the matches
of the catalog patterns with that key, each with its position in `s` and the
trait it denotes, pattern by pattern in catalog order. -/
def keywordOccurrences (s : Str) (k : Str) : List (Nat × Trait) :=
  (traitPatterns.filter (fun tp => tp.key == k)).flatMap
    (fun tp => (tp.pattern.execAll s).map (fun m => (m.index, traitOfMatch tp m)))

/-- The leftmost of a list of occurrences (the first listed among those at
the smallest position). -/
def leftmostOccurrence : List (Nat × Trait) → Option (Nat × Trait)
  | [] => none
  | o :: os =>
    match leftmostOccurrence os with
    | none => some o
    | some b => if b.1 < o.1 then some b else some o

/-- Whether an expression begins with the assertion `\b`. -/
def Re.beginsWithWordB : Re → Bool
  | Re.seq Re.wordB _ => true
  | _ => false

/-- A trait text in which the keyword Shield occurs twice, first without and
then with a rating. -/
def shieldTwice : Str :=
  "Shield, Shield (2)".toList

/-- The character before the position after reading `ds` from a position
whose previous character is `prev`. -/
def lastOr : Option Char → Str → Option Char
  | prev, [] => prev
  | _, d :: ds => lastOr (some d) ds

/-- An expression that can only match at a character of the class `p`: it
fails at the end of the text and at every character outside `p`. -/
def Re.NeedsFirst (re : Re) (p : Char → Bool) : Prop :=
  ∀ (α : Type) (k : Option Str → Option Char → Str → Option α) (cap : Option Str)
    (prev : Option Char),
    re.run k cap prev [] = none ∧ ∀ c t, p c = false → re.run k cap prev (c :: t) = none

/-- The seven characteristic tags. -/
def characteristicTags : List Str :=
  ["str".toList, "ag".toList, "int".toList, "wil".toList, "fel".toList, "per".toList,
   "tgh".toList]

/-- The characteristic tags whose reversed form `<tag>+<digits>` has a pattern
in `parseDamage`. -/
def reversedTags : List Str :=
  ["str".toList, "ag".toList]

/-- The characteristic tags without a reversed pattern in `parseDamage`. -/
def forwardOnlyTags : List Str :=
  ["int".toList, "wil".toList, "fel".toList, "per".toList, "tgh".toList]

/-- Whether a text begins with a decimal digit. -/
def beginsWithDigit : Str → Bool
  | c :: _ => isDigit c
  | [] => false

/-- The text `parseDamage` matches its patterns against: white space removed,
then lower-cased (the value `cleaned`). -/
def cleanedDamage (s : Str) : Str :=
  toLowerCase (s.filter (fun c => !isWhiteSpace c))

/-- The integer denoted by an optional sign and the longest run of decimal
digits after it at the head of a text; 0 when there is no digit there. -/
def signedInteger : Str → Int
  | '-' :: r => if (takeDigits r).isEmpty then 0 else -(digitsValue (takeDigits r) : Int)
  | '+' :: r => if (takeDigits r).isEmpty then 0 else (digitsValue (takeDigits r) : Int)
  | r => if (takeDigits r).isEmpty then 0 else (digitsValue (takeDigits r) : Int)

/-- The reference for `parseNumber` in the words of the specification: commas
and white space deleted, the Unicode minus sign replaced by `-`; then the
integer denoted by an optional sign and the longest run of digits, or 0. -/
def parseNumberRef (s : Str) : Int :=
  signedInteger ((s.filter (fun c => !(c == ',' || isWhiteSpace c))).map
    (fun c => if c == Char.ofNat 0x2212 then '-' else c))

/-- The JavaScript number nearest to an integer. -/
def Num.ofInt (z : Int) : Num :=
  if z < 0 then (toNumber z.natAbs).neg else toNumber z.natAbs

/-- The seven availability tiers. -/
def availabilityTiers : List Str :=
  ["ubiquitous".toList, "abundant".toList, "plentiful".toList, "common".toList,
   "scarce".toList, "rare".toList, "exotic".toList]

/-- The melee spec values. -/
def meleeSpecs : List Str :=
  ["oneHanded".toList, "twoHanded".toList, "brawling".toList]

/-- The ranged spec values. -/
def rangedSpecs : List Str :=
  ["pistol".toList, "longGun".toList, "ordnance".toList, "engineering".toList,
   "thrown".toList]

/-- The melee keywords named by the specification. -/
def meleeKeywords : List Str :=
  ["one-handed".toList, "two-handed".toList, "brawling".toList]

/-- The ranged keywords named by the specification. -/
def rangedKeywords : List Str :=
  ["pistol".toList, "long gun".toList, "ordnance".toList, "engineering".toList,
   "thrown".toList]

/-- All the keywords `parseSpec` looks for, in source order. -/
def specKeywords : List Str :=
  ["one-handed".toList, "one handed".toList, "two-handed".toList, "two handed".toList,
   "brawling".toList, "pistol".toList, "long gun".toList, "longgun".toList,
   "ordnance".toList, "engineering".toList, "thrown".toList]

/-- The default of `parseSpec` for a context. -/
def specDefault (type : Str) : Str :=
  if type = "melee".toList then "oneHanded".toList else "pistol".toList

/-- The location list in the words of the specification, for the lower-case
form `l` of the location text. -/
def locationsRef (l : Str) : List Str :=
  if includes l "all".toList ∨
      (includes l "head".toList = false ∧ includes l "body".toList = false ∧
        includes l "torso".toList = false ∧ includes l "arm".toList = false ∧
        includes l "leg".toList = false) then allLocations
  else
    (if includes l "head".toList then ["head".toList] else []) ++
    (if includes l "body".toList ∨ includes l "torso".toList then ["body".toList] else []) ++
    (if includes l "arm".toList then ["leftArm".toList, "rightArm".toList] else []) ++
    (if includes l "leg".toList then ["leftLeg".toList, "rightLeg".toList] else [])

/-- A record without its import timestamp. -/
def Item.withoutTimestamp (it : Item) : Str × Str × Str × ItemSystem :=
  (it.name, it.type, it.img, it.system)

/-- The keywords of `parseSpec` that give a melee spec. -/
def meleeSpecKeywords : List Str :=
  ["one-handed".toList, "one handed".toList, "two-handed".toList, "two handed".toList,
   "brawling".toList]

/-- The keywords of `parseSpec` that give a ranged spec. -/
def rangedSpecKeywords : List Str :=
  ["pistol".toList, "long gun".toList, "longgun".toList, "ordnance".toList,
   "engineering".toList, "thrown".toList]

/-- A custom-trait dictionary with the single entry `foo`. -/
def fooDefs : CustomTraitDefs :=
  [("foo".toList, { displayName := "Foo".toList, description := "Does foo.".toList })]

/-- The value `{ label: "All", list: [...] }` of the six locations. -/
def allLocationsLabelled : Locations :=
  { label := "All".toList, list := allLocations }

/-! ## Format paste -/

/-- The expression `^(Name|Weapon|Armour|Protection|Force Field)` with the `i`
flag, which recognizes header lines. -/
def headerLine : Re :=
  Re.cat [Re.bol,
    Re.group (Re.alt (Re.word "Name") (Re.alt (Re.word "Weapon") (Re.alt (Re.word "Armour")
      (Re.alt (Re.word "Protection") (Re.word "Force Field")))))]

/-- The expression `\t+`. -/
def tabRun : Re :=
  Re.many (fun c => c == '\t') 1

/-- The expression `\s{2,}`. -/
def spaceRun : Re :=
  Re.many isWhiteSpace 2

/-- The expression `\|\s*\|`. -/
def pipePair : Re :=
  Re.cat [Re.char '|', Re.spaces, Re.char '|']

/-- The expression `^\||\|$`. -/
def edgePipe : Re :=
  Re.alt (Re.seq Re.bol (Re.char '|')) (Re.seq (Re.char '|') Re.eol)

/-- The body of the loop of `formatPastedText` for one line: `none` when the
line is skipped (`continue`), otherwise the line that is pushed. -/
def formatLine (line0 : Str) : Option Str :=
  let line := trim line0
  if line.isEmpty then none
  else if (headerLine.exec line).isSome then none
  else
    let f1 := tabRun.replaceAll " | ".toList line
    let f2 := spaceRun.replaceAll " | ".toList f1
    let f3 := pipePair.replaceAll "|".toList f2
    let formatted_line := trim f3
    some (trim (edgePipe.replaceAll [] formatted_line))

/-- The function `formatPastedText`. -/
def formatPastedText (text : Str) : Str :=
  join ['\n'] ((splitOn '\n' text).filterMap formatLine)

/-- Whether a line has an adjacent-pipe artifact: two `|` separated only by
zero or more white space characters. -/
def hasAdjacentPipes : Str → Bool
  | [] => false
  | c :: t => (c == '|' && startsWith (trimStart t) ['|']) || hasAdjacentPipes t

/-- Whether a line begins or ends with `|`. -/
def hasEdgePipe (l : Str) : Bool :=
  startsWith l ['|'] || startsWith l.reverse ['|']

/-- A text with the four curly quote characters U+201C, U+201D, U+2018 and
U+2019. -/
def curlyText : Str :=
  [Char.ofNat 0x201C, 'a', Char.ofNat 0x201D, ' ', Char.ofNat 0x2018, 'b', Char.ofNat 0x2019]

/-- An expression all of whose character classes lie within `P`: every
character a match consumes satisfies `P`. -/
def Re.Within (P : Char → Prop) : Re → Prop
  | Re.chr p => ∀ c, p c = true → P c
  | Re.many p _ => ∀ c, p c = true → P c
  | Re.opt p => ∀ c, p c = true → P c
  | Re.wordB => True
  | Re.bol => True
  | Re.eol => True
  | Re.eps => True
  | Re.seq a b => Re.Within P a ∧ Re.Within P b
  | Re.alt a b => Re.Within P a ∧ Re.Within P b
  | Re.group a => Re.Within P a

/-! ## Custom-trait configuration -/

/-- An entry of the persisted custom-trait configuration, a JSON array of
`{name: string, description: string}` objects. -/
structure RawTrait where
  name : Str
  description : Str
  deriving DecidableEq, Repr

/-- The function `getCustomTraitDefinitions`.  The library call `JSON.parse`
is the parameter `jsonParse`, giving the entries of a text in the persisted
format and `none` where `JSON.parse` throws a `SyntaxError`; the `catch`
block logs a warning to the console and the function goes on to return
`defs`. -/
def getCustomTraitDefinitions (jsonParse : Str → Option (List RawTrait)) (host : Host) :
    CustomTraitDefs :=
  let setting := host.setting "customTraits".toList
  let traitsJson := if setting.isEmpty then "[]".toList else setting
  match jsonParse traitsJson with
  | none => []
  | some traits =>
    traits.foldl
      (fun defs trait =>
        if !trait.name.isEmpty && !trait.description.isEmpty then
          setProperty defs (toLowerCase (trim (trailingParenthetical.removeFirst trait.name)))
            { displayName := trait.name, description := trait.description }
        else defs)
      []

/-- A stand-in for `JSON.parse` that knows the text `[]` and one more text. -/
def jsonParseOnly (text : Str) (value : List RawTrait) : Str → Option (List RawTrait) :=
  fun s => if s = "[]".toList then some [] else if s = text then some value else none

/-- The host whose persisted custom-trait configuration is `text`. -/
def hostWithTraits (text : Str) : Host where
  setting := fun key => if key = "customTraits".toList then text else defaultHost.setting key
  now := defaultHost.now

/-! ## The import handler -/

/-- The fields of the import form (`formData.object`); a field left empty
holds the empty text. -/
structure FormData where
  itemType : Str
  weaponCategory : Str
  folder : Str
  rawInput : Str

/-- The argument of a call `Item.create(itemData)`: the parsed record and the
`folder` added to it when a folder was chosen. -/
structure Submission where
  item : Item
  folder : Option Str
  deriving DecidableEq, Repr

/-- A call of `ui.notifications`. -/
inductive Notification where
  | warn (message : Str)
  | error (message : Str)
  | info (message : Str)
  deriving DecidableEq, Repr

/-- Whether a notification is an error. -/
def Notification.isError : Notification → Bool
  | Notification.error _ => true
  | _ => false

/-- What the import handler has done: the calls of `Item.create` in order,
the array `created`, and the notifications shown. -/
structure ImportLog where
  submitted : List Submission
  created : List Submission
  notifications : List Notification
  deriving DecidableEq, Repr

/-- The surroundings of the import handler: the host settings, the clock
reading at the parse of each line, `JSON.parse`, and `Item.create`, which for
the records submitted so far and a record either resolves (`none`) or rejects
with an error of the given message. -/
structure ImportEnv where
  host : Host
  clock : Nat → Nat
  jsonParse : Str → Option (List RawTrait)
  create : List Submission → Submission → Option Str

/-- The parse loop of `onImport`: the array `parsed`, the `i`th line read at
clock `clock i`. -/
def parseLines (env : ImportEnv) (itemType weaponCategory : Str)
    (customTraitDefs : CustomTraitDefs) : Nat → List Str → List Item
  | _, [] => []
  | i, line :: rest =>
    match parseLine { setting := env.host.setting, now := env.clock i } line itemType
        weaponCategory customTraitDefs with
    | some item => item :: parseLines env itemType weaponCategory customTraitDefs (i + 1) rest
    | none => parseLines env itemType weaponCategory customTraitDefs (i + 1) rest

/-- The array `parsed` of `onImport` for the form data. -/
def parsedRecords (env : ImportEnv) (data : FormData) : List Item :=
  let rawInput := trim data.rawInput
  let customTraitDefs := getCustomTraitDefinitions env.jsonParse env.host
  let lines := (splitOn '\n' rawInput).filter (fun l => !(trim l).isEmpty)
  parseLines env data.itemType data.weaponCategory customTraitDefs 0 lines

/-- The creation loop of `onImport`, with its `try` and `catch`. -/
def createAll (env : ImportEnv) (folderId : Option Str) : List Item → ImportLog → ImportLog
  | [], log => log
  | itemData :: rest, log =>
    let submission : Submission := { item := itemData, folder := folderId }
    match env.create log.submitted submission with
    | none =>
      createAll env folderId rest
        { submitted := log.submitted ++ [submission]
          created := log.created ++ [submission]
          notifications := log.notifications }
    | some message =>
      createAll env folderId rest
        { submitted := log.submitted ++ [submission]
          created := log.created
          notifications := log.notifications ++
            [Notification.error ("Failed to create \"".toList ++ itemData.name ++
              "\": ".toList ++ message)] }

/-- The handler `onImport`. -/
def onImport (env : ImportEnv) (data : FormData) : ImportLog :=
  let folderId := if data.folder.isEmpty then none else some data.folder
  let rawInput := trim data.rawInput
  if rawInput.isEmpty then
    { submitted := [], created := [],
      notifications := [Notification.warn "Please enter item data to import.".toList] }
  else
    let parsed := parsedRecords env data
    if parsed.isEmpty then
      { submitted := [], created := [],
        notifications := [Notification.warn "No valid items could be parsed.".toList] }
    else
      let log := createAll env folderId parsed
        { submitted := [], created := [], notifications := [] }
      if log.created.length = 0 then log
      else
        { submitted := log.submitted
          created := log.created
          notifications := log.notifications ++
            [Notification.info ("Successfully imported ".toList ++
              (Nat.repr log.created.length).toList ++ " item(s).".toList)] }

/-- An environment whose `Item.create` rejects every record named `name`. -/
def rejecting (name : Str) : ImportEnv where
  host := defaultHost
  clock := fun _ => defaultHost.now
  jsonParse := jsonParseOnly [] []
  create := fun _ submission =>
    if submission.item.name = name then some "Validation failed".toList else none

/-- The three sample lines as one pasted text, with a blank line. -/
def sampleInput : Str :=
  combatKnifeLine ++ ['\n'] ++ autogunLine ++ ['\n', '\n'] ++ fragGrenadeLine ++ ['\n']

/-- The persisted configuration with the single definition `__proto__`. -/
def protoJson : Str :=
  "[\x7b\"name\":\"__proto__\",\"description\":\"D\"\x7d]".toList

/-- The entries of `protoJson`. -/
def protoTraits : List RawTrait :=
  [{ name := "__proto__".toList, description := "D".toList }]

/-- The persisted configuration with the two definitions `Foo (X)` and
`__proto__`. -/
def fooProtoJson : Str :=
  ("[\x7b\"name\":\"Foo (X)\",\"description\":\"Does foo.\"\x7d," ++
    "\x7b\"name\":\"__proto__\",\"description\":\"D\"\x7d]").toList

/-- The entries of `fooProtoJson`. -/
def fooProtoTraits : List RawTrait :=
  [{ name := "Foo (X)".toList, description := "Does foo.".toList },
   { name := "__proto__".toList, description := "D".toList }]

/-! ## Formatted lines -/

/-- Whether two whitespace characters are adjacent in the text. -/
def hasSpaceRun : Str → Bool
  | [] => false
  | c :: t => (isWhiteSpace c && (match t with | d :: _ => isWhiteSpace d | [] => false)) ||
      hasSpaceRun t

/-- The words that mark a header line. -/
def headerWords : List String :=
  ["Name", "Weapon", "Armour", "Protection", "Force Field"]

/-- Whether the line begins, letter case apart, with one of the header
words. -/
def beginsWithHeaderWord (l : Str) : Bool :=
  headerWords.any (fun w => startsWith (l.map lowerAscii) (w.toList.map lowerAscii))

/-- Whether the text begins with a whitespace character. -/
def beginsWithSpace : Str → Bool
  | [] => false
  | c :: _ => isWhiteSpace c

/-- An already pipe-delimited line that is no header: not empty, without
leading or trailing whitespace, without a tab or a run of two or more
whitespace characters, without two `|` separated only by whitespace, without
a `|` at either end, and not beginning with a header word. -/
def isFormattedLine (l : Str) : Bool :=
  !l.isEmpty && !beginsWithSpace l && !beginsWithSpace l.reverse && !l.contains '\t' &&
    !hasSpaceRun l && !hasAdjacentPipes l && !hasEdgePipe l && !beginsWithHeaderWord l

/-- Two formatted lines. -/
def formattedSample : Str :=
  "Combat Knife | One-Handed | 3+STR | 1 | 50 | Common | Subtle\nLasgun | Long Gun | 8".toList

/-! ## Properties of the matcher -/

theorem manyRun_factor {α : Type} (p : Char → Bool) (k : Option Char → Str → Option α) (x : α) :
    ∀ (rest : Str) (min : Nat) (prev : Option Char), manyRun p k min prev rest = some x →
      ∃ p1 r1, r1 <:+ rest ∧ k p1 r1 = some x := by
  intro rest
  induction rest with
  | nil =>
    intro min prev h
    simp only [manyRun] at h
    split at h
    · exact ⟨prev, [], List.suffix_refl _, h⟩
    · cases h
  | cons c cs ih =>
    intro min prev h
    simp only [manyRun] at h
    split at h
    · split at h
      · rename_i r hr
        cases h
        obtain ⟨p1, r1, hs, hk⟩ := ih _ _ hr
        exact ⟨p1, r1, hs.trans (List.suffix_cons c cs), hk⟩
      · split at h
        · exact ⟨prev, c :: cs, List.suffix_refl _, h⟩
        · cases h
    · split at h
      · exact ⟨prev, c :: cs, List.suffix_refl _, h⟩
      · cases h

theorem Re.run_factor {α : Type} (re : Re) :
    ∀ (k : Option Str → Option Char → Str → Option α) (cap : Option Str) (prev : Option Char)
      (rest : Str) (x : α), re.run k cap prev rest = some x →
      ∃ cap1 p1 r1, r1 <:+ rest ∧ k cap1 p1 r1 = some x := by
  induction re with
  | chr p =>
    intro k cap prev rest x h
    cases rest with
    | nil => simp [Re.run] at h
    | cons c cs =>
      simp only [Re.run] at h
      split at h
      · exact ⟨cap, some c, cs, List.suffix_cons c cs, h⟩
      · cases h
  | many p min =>
    intro k cap prev rest x h
    simp only [Re.run] at h
    obtain ⟨p1, r1, hs, hk⟩ := manyRun_factor p (k cap) x rest min prev h
    exact ⟨cap, p1, r1, hs, hk⟩
  | opt p =>
    intro k cap prev rest x h
    cases rest with
    | nil => exact ⟨cap, prev, [], List.suffix_refl _, by simpa [Re.run] using h⟩
    | cons c cs =>
      simp only [Re.run] at h
      split at h
      · split at h
        · rename_i r hr
          cases h
          exact ⟨cap, some c, cs, List.suffix_cons c cs, hr⟩
        · exact ⟨cap, prev, c :: cs, List.suffix_refl _, h⟩
      · exact ⟨cap, prev, c :: cs, List.suffix_refl _, h⟩
  | wordB =>
    intro k cap prev rest x h
    simp only [Re.run] at h
    split at h
    · exact ⟨cap, prev, rest, List.suffix_refl _, h⟩
    · cases h
  | bol =>
    intro k cap prev rest x h
    simp only [Re.run] at h
    split at h
    · exact ⟨cap, prev, rest, List.suffix_refl _, h⟩
    · cases h
  | eol =>
    intro k cap prev rest x h
    simp only [Re.run] at h
    split at h
    · exact ⟨cap, prev, rest, List.suffix_refl _, h⟩
    · cases h
  | eps =>
    intro k cap prev rest x h
    exact ⟨cap, prev, rest, List.suffix_refl _, by simpa [Re.run] using h⟩
  | seq a b iha ihb =>
    intro k cap prev rest x h
    simp only [Re.run] at h
    obtain ⟨cap1, p1, r1, hs1, h1⟩ := iha _ cap prev rest x h
    obtain ⟨cap2, p2, r2, hs2, h2⟩ := ihb k cap1 p1 r1 x h1
    exact ⟨cap2, p2, r2, hs2.trans hs1, h2⟩
  | alt a b iha ihb =>
    intro k cap prev rest x h
    simp only [Re.run] at h
    split at h
    · rename_i r hr
      cases h
      exact iha k cap prev rest _ hr
    · exact ihb k cap prev rest x h
  | group a iha =>
    intro k cap prev rest x h
    simp only [Re.run] at h
    obtain ⟨_, p1, r1, hs1, h1⟩ := iha _ cap prev rest x h
    exact ⟨_, p1, r1, hs1, h1⟩

theorem Re.matchHere_after (re : Re) (i : Nat) (prev : Option Char) (rest : Str) (m : Match)
    (h : re.matchHere i prev rest = some m) : m.after <:+ rest ∧ m.index = i := by
  obtain ⟨cap1, p1, r1, hs, hk⟩ := Re.run_factor re _ none prev rest m h
  cases hk
  exact ⟨hs, rfl⟩

theorem Re.search_after (re : Re) :
    ∀ (rest : Str) (i : Nat) (prev : Option Char) (m : Match), re.search i prev rest = some m →
      m.after <:+ rest ∧ i ≤ m.index ∧ m.index ≤ i + rest.length := by
  intro rest
  induction rest with
  | nil =>
    intro i prev m h
    simp only [Re.search] at h
    obtain ⟨h1, h2⟩ := Re.matchHere_after re i prev [] m h
    exact ⟨h1, by omega, by omega⟩
  | cons c cs ih =>
    intro i prev m h
    simp only [Re.search] at h
    split at h
    · rename_i m1 hm1
      cases h
      obtain ⟨h1, h2⟩ := Re.matchHere_after re i prev (c :: cs) _ hm1
      exact ⟨h1, by omega, by omega⟩
    · obtain ⟨h1, h2, h3⟩ := ih _ _ _ h
      refine ⟨h1.trans (List.suffix_cons c cs), by omega, ?_⟩
      simp only [List.length_cons]
      omega


/-! ## Properties of the string primitives -/

theorem trimStart_suffix (s : Str) : trimStart s <:+ s := by
  induction s with
  | nil => exact List.suffix_refl _
  | cons c cs ih =>
    simp only [trimStart]
    split
    · exact ih.trans (List.suffix_cons c cs)
    · exact List.suffix_refl _

theorem trimStart_head (s : Str) (c : Char) (t : Str) (h : trimStart s = c :: t) :
    isWhiteSpace c = false := by
  induction s with
  | nil => simp [trimStart] at h
  | cons d ds ih =>
    simp only [trimStart] at h
    split at h
    · exact ih h
    · rename_i hd
      cases h
      simpa using hd

theorem trimStart_of_head (c : Char) (t : Str) (h : isWhiteSpace c = false) :
    trimStart (c :: t) = c :: t := by
  simp [trimStart, h]

theorem trimStart_mem (s : Str) (c : Char) (h : c ∈ trimStart s) : c ∈ s :=
  (trimStart_suffix s).subset h

theorem trim_mem (s : Str) (c : Char) (h : c ∈ trim s) : c ∈ s := by
  unfold trim trimEnd at h
  have h1 := trimStart_mem _ _ (List.mem_reverse.mp h)
  exact trimStart_mem _ _ (List.mem_reverse.mp h1)

/-- A text without leading and trailing white space is left as it is by `trim`. -/
theorem trim_of_clean (s : Str)
    (hh : ∀ c t, s = c :: t → isWhiteSpace c = false)
    (hl : ∀ c t, s.reverse = c :: t → isWhiteSpace c = false) : trim s = s := by
  have h1 : trimStart s = s := by
    cases s with
    | nil => rfl
    | cons c t => exact trimStart_of_head c t (hh c t rfl)
  have h2 : trimStart s.reverse = s.reverse := by
    cases hr : s.reverse with
    | nil => rfl
    | cons c t => exact trimStart_of_head c t (hl c t hr)
  unfold trim trimEnd
  rw [h1, h2, List.reverse_reverse]

theorem trim_head (s : Str) (c : Char) (t : Str) (h : trim s = c :: t) :
    isWhiteSpace c = false := by
  unfold trim trimEnd at h
  cases hu : trimStart s with
  | nil => rw [hu] at h; simp [trimStart] at h
  | cons d u =>
    have hd := trimStart_head s d u hu
    rw [hu] at h
    -- the reversed text ends with `d`, which is kept by `trimStart`
    have hsuf := trimStart_suffix (d :: u).reverse
    obtain ⟨pre, hpre⟩ := hsuf
    have hne : trimStart (d :: u).reverse ≠ [] := by
      intro hnil
      have : ∀ (l : Str), (∀ x ∈ l, isWhiteSpace x = true) ∨ trimStart l ≠ [] := by
        intro l
        induction l with
        | nil => left; simp
        | cons a l ih =>
          simp only [trimStart]
          by_cases ha : isWhiteSpace a = true
          · simp only [ha, if_true]
            rcases ih with ih | ih
            · left
              intro x hx
              rcases List.mem_cons.mp hx with rfl | hx
              · exact ha
              · exact ih x hx
            · right; exact ih
          · right; simp [ha]
      rcases this (d :: u).reverse with hall | hnn
      · have := hall d (by simp)
        rw [hd] at this
        cases this
      · exact hnn hnil
    have hrev : (trimStart (d :: u).reverse).reverse ++ pre.reverse = d :: u := by
      have := congrArg List.reverse hpre
      simpa using this
    rw [h] at hrev
    simp only [List.cons_append, List.cons.injEq] at hrev
    rw [hrev.1]
    exact hd

theorem trim_last (s : Str) (c : Char) (t : Str) (h : (trim s).reverse = c :: t) :
    isWhiteSpace c = false := by
  unfold trim trimEnd at h
  rw [List.reverse_reverse] at h
  exact trimStart_head _ c t h

theorem trim_trim (s : Str) : trim (trim s) = trim s :=
  trim_of_clean (trim s) (trim_head s) (trim_last s)

theorem splitOn_of_not_mem (sep : Char) (s : Str) (h : sep ∉ s) : splitOn sep s = [s] := by
  induction s with
  | nil => rfl
  | cons c cs ih =>
    have hc : c ≠ sep := fun e => h (by simp [e])
    have hcs : sep ∉ cs := fun e => h (List.mem_cons_of_mem _ e)
    simp [splitOn, ih hcs, hc]

theorem Re.replaceLoop_not_mem (re : Re) (repl : Str) (x : Char) (hx : x ∉ repl) :
    ∀ (fuel : Nat) (prev : Option Char) (rest : Str), x ∉ rest →
      x ∉ re.replaceLoop repl fuel prev rest := by
  intro fuel
  induction fuel with
  | zero => intro prev rest h; simpa [Re.replaceLoop] using h
  | succ n ih =>
    intro prev rest h
    simp only [Re.replaceLoop]
    split
    · exact h
    · rename_i m hm
      obtain ⟨hs, _, _⟩ := Re.search_after re rest 0 prev m hm
      have hafter : x ∉ m.after := fun e => h (hs.subset e)
      have htake : x ∉ rest.take m.index := fun e => h (List.mem_of_mem_take e)
      simp only [List.mem_append, not_or]
      refine ⟨⟨htake, hx⟩, ?_⟩
      split
      · exact ih _ _ hafter
      · exact hafter

theorem Re.replaceAll_not_mem (re : Re) (repl : Str) (x : Char) (s : Str) (hx : x ∉ repl)
    (h : x ∉ s) : x ∉ re.replaceAll repl s :=
  Re.replaceLoop_not_mem re repl x hx _ _ _ h

theorem normalizeText_no_pipe (t : Str) (h : '|' ∉ t) : '|' ∉ normalizeText t := by
  unfold normalizeText
  intro hmem
  have h6 := trim_mem _ _ hmem
  revert h6
  apply Re.replaceAll_not_mem _ _ _ _ (by decide)
  apply Re.replaceAll_not_mem _ _ _ _ (by decide)
  apply Re.replaceAll_not_mem _ _ _ _ (by decide)
  apply Re.replaceAll_not_mem _ _ _ _ (by decide)
  apply Re.replaceAll_not_mem _ _ _ _ (by decide)
  apply Re.replaceAll_not_mem _ _ _ _ (by decide)
  exact h

theorem tokenize_no_pipe (line : Str) (h : '|' ∉ line) : (tokenize line).length = 1 := by
  unfold tokenize
  rw [splitOn_of_not_mem _ _ (normalizeText_no_pipe line h)]
  rfl

/-- Every field of a tokenized line is trimmed. -/
theorem tokenize_field_trim (line : Str) (i : Nat) :
    trim (field (tokenize line) i) = field (tokenize line) i := by
  unfold field tokenize
  rw [List.getD_eq_getElem?_getD, List.getElem?_map]
  cases (splitOn '|' (normalizeText line))[i]? with
  | none => rfl
  | some x => exact trim_trim x

/-! ## Lines with fewer than two fields -/

/-- C5: a line with fewer than two pipe-delimited fields, which is the same
as a line without a `|` character, is unparsable: `parseLine` returns `null`
for every item type, weapon category and custom-trait dictionary. -/
theorem parseLine_too_few_fields (host : Host) (line itemType weaponCategory : Str)
    (customTraitDefs : CustomTraitDefs)
    (h : (tokenize line).length < 2 ∨ '|' ∉ line) :
    parseLine host line itemType weaponCategory customTraitDefs = none := by
  have hlen : (tokenize line).length < 2 := by
    rcases h with h | h
    · exact h
    · rw [tokenize_no_pipe line h]; decide
  simp [parseLine, hlen]

theorem parseLine_too_few_fields_witness :
    ((tokenize "Combat Knife One-Handed".toList).length < 2 ∨
        '|' ∉ "Combat Knife One-Handed".toList) ∧
      parseLine defaultHost "Combat Knife One-Handed".toList "weapon".toList
        "mundane".toList [] = none :=
  ⟨Or.inr (by decide),
   parseLine_too_few_fields defaultHost "Combat Knife One-Handed".toList "weapon".toList
     "mundane".toList [] (Or.inr (by decide))⟩

/-! ## Uniqueness of trait keys -/

theorem traitStep_good (tp : TraitPattern) (acc : TraitAcc) (m : Match) (h : acc.Good) :
    (traitStep tp acc m).Good := by
  unfold traitStep
  split
  · exact h
  · rename_i hc
    have hnot : tp.key ∉ acc.foundKeys := by simpa using hc
    refine ⟨?_, ?_⟩
    · simp only
      rw [List.pairwise_append]
      refine ⟨h.1, List.pairwise_singleton _ _, ?_⟩
      intro a ha b hb
      rcases List.mem_singleton.mp hb with rfl
      intro e
      apply hnot
      have := h.2 a ha
      rw [e] at this
      exact this
    · intro t ht
      simp only [List.mem_append, List.mem_singleton] at ht
      rcases ht with ht | rfl
      · exact List.mem_cons_of_mem _ (h.2 t ht)
      · exact List.mem_cons_self _ _

theorem foldl_traitStep_good (tp : TraitPattern) (ms : List Match) :
    ∀ acc : TraitAcc, acc.Good → (ms.foldl (traitStep tp) acc).Good := by
  induction ms with
  | nil => intro acc h; exact h
  | cons m ms ih => intro acc h; exact ih _ (traitStep_good tp acc m h)

theorem collectTraits_good (s : Str) (table : List TraitPattern) :
    ∀ acc : TraitAcc, acc.Good → (collectTraits s table acc).Good := by
  induction table with
  | nil => intro acc h; exact h
  | cons tp tps ih =>
    intro acc h
    exact ih _ (foldl_traitStep_good tp _ acc h)

theorem parseTraits_pairwise (s : Str) :
    List.Pairwise (fun a b : Trait => a.key ≠ b.key) (parseTraits s) := by
  unfold parseTraits
  split
  · exact List.Pairwise.nil
  · exact (collectTraits_good s traitPatterns _ ⟨List.Pairwise.nil, by simp⟩).1

theorem addThrown_pairwise (traits : List Trait) (thrownRange : Str)
    (h : List.Pairwise (fun a b : Trait => a.key ≠ b.key) traits) :
    List.Pairwise (fun a b : Trait => a.key ≠ b.key) (addThrown traits thrownRange) := by
  unfold addThrown
  split
  · exact h
  · rename_i hany
    rw [List.pairwise_append]
    refine ⟨h, List.pairwise_singleton _ _, ?_⟩
    intro a ha b hb
    rcases List.mem_singleton.mp hb with rfl
    intro e
    apply hany
    simp only [List.any_eq_true, beq_iff_eq]
    exact ⟨a, ha, e⟩

theorem parseTraitsWithCustom_fst (traitsStr : Str) (defs : CustomTraitDefs) :
    (parseTraitsWithCustom traitsStr defs).1 = parseTraits traitsStr := by
  unfold parseTraitsWithCustom
  simp only
  split <;> rfl

theorem parseWeapon_pairwise (host : Host) (parts : List Str) (category : Str)
    (defs : CustomTraitDefs) (it : Item) (h : parseWeapon host parts category defs = some it) :
    List.Pairwise (fun a b : Trait => a.key ≠ b.key) it.traits := by
  have hm : ∀ name, parseMelee host name parts category defs = some it →
      List.Pairwise (fun a b : Trait => a.key ≠ b.key) it.traits := by
    intro name h
    unfold parseMelee at h
    split at h
    · cases h
    · cases h
      simp only [Item.traits, parseTraitsWithCustom_fst]
      exact parseTraits_pairwise _
  unfold parseWeapon at h
  simp only at h
  split at h
  · exact hm _ h
  · split at h
    · unfold parseGrenade at h
      split at h
      · cases h
      · cases h
        simp only [Item.traits, parseTraitsWithCustom_fst]
        exact addThrown_pairwise _ _ (parseTraits_pairwise _)
    · split at h
      · unfold parseRanged at h
        split at h
        · cases h
        · cases h
          simp only [Item.traits, parseTraitsWithCustom_fst]
          exact parseTraits_pairwise _
      · split at h
        · unfold parseGrenadeSimple at h
          split at h
          · cases h
          · cases h
            simp only [Item.traits, parseTraitsWithCustom_fst]
            exact parseTraits_pairwise _
        · exact hm _ h

theorem parseOther_pairwise (host : Host) (parts : List Str) (defs : CustomTraitDefs)
    (it : Item)
    (h : parseArmour host parts defs = some it ∨ parseShield host parts defs = some it ∨
      parseForceField host parts = some it) :
    List.Pairwise (fun a b : Trait => a.key ≠ b.key) it.traits := by
  rcases h with h | h | h
  · unfold parseArmour at h
    split at h
    · cases h
    · cases h
      simp only [Item.traits, parseTraitsWithCustom_fst]
      exact parseTraits_pairwise _
  · unfold parseShield at h
    split at h
    · cases h
    · cases h
      simp only [Item.traits, parseTraitsWithCustom_fst]
      exact parseTraits_pairwise _
  · unfold parseForceField at h
    split at h
    · cases h
    · cases h
      exact List.Pairwise.nil

/-- C6: no two entries of the result of `parseTraits` have the same key, and
no two entries of the trait list of a record returned by `parseLine` have the
same key (the Thrown trait added by the grenade grammar included). -/
theorem trait_keys_unique :
    (∀ s : Str, List.Pairwise (fun a b : Trait => a.key ≠ b.key) (parseTraits s)) ∧
    (∀ (host : Host) (line itemType weaponCategory : Str) (customTraitDefs : CustomTraitDefs)
      (it : Item), parseLine host line itemType weaponCategory customTraitDefs = some it →
      List.Pairwise (fun a b : Trait => a.key ≠ b.key) it.traits) := by
  refine ⟨parseTraits_pairwise, ?_⟩
  intro host line itemType weaponCategory defs it h
  unfold parseLine at h
  generalize tokenize line = parts at h
  simp only at h
  split at h
  · exact absurd h (by simp)
  · split at h
    · exact parseWeapon_pairwise host _ _ _ it h
    · split at h
      · exact parseOther_pairwise host parts defs it (Or.inl h)
      · split at h
        · exact parseOther_pairwise host parts defs it (Or.inr (Or.inl h))
        · split at h
          · exact parseOther_pairwise host parts defs it (Or.inr (Or.inr h))
          · exact absurd h (by simp)

/-! ## The dispatch of `parseWeapon` -/

theorem rangeBand_matchHere_some (s : Str) (i : Nat) (c : Char) :
    rangeBand.matchHere i (some c) s = none := by
  simp [Re.matchHere, rangeBand, Re.cat, Re.run]

theorem rangeBand_search_some (s : Str) :
    ∀ (i : Nat) (c : Char), rangeBand.search i (some c) s = none := by
  induction s with
  | nil => intro i c; simp [Re.search, rangeBand_matchHere_some]
  | cons d ds ih => intro i c; simp [Re.search, rangeBand_matchHere_some, ih]

theorem rangeBand_exec (s : Str) : rangeBand.exec s = rangeBand.matchHere 0 none s := by
  cases s with
  | nil => rfl
  | cons d ds =>
    simp only [Re.exec, Re.search, rangeBand_search_some]
    cases rangeBand.matchHere 0 none (d :: ds) <;> rfl

theorem lowerAscii_consts :
    lowerAscii 'S' = 's' ∧ lowerAscii 'h' = 'h' ∧ lowerAscii 'o' = 'o' ∧ lowerAscii 'r' = 'r' ∧
    lowerAscii 't' = 't' ∧ lowerAscii 'M' = 'm' ∧ lowerAscii 'e' = 'e' ∧ lowerAscii 'd' = 'd' ∧
    lowerAscii 'i' = 'i' ∧ lowerAscii 'u' = 'u' ∧ lowerAscii 'm' = 'm' ∧ lowerAscii 'L' = 'l' ∧
    lowerAscii 'n' = 'n' ∧ lowerAscii 'g' = 'g' ∧ lowerAscii 'E' = 'e' ∧ lowerAscii 'x' = 'x' := by
  decide

set_option maxHeartbeats 1000000 in
theorem rangeBand_test (x : Str) :
    (rangeBand.exec x).isSome = true ↔
      x.map lowerAscii ∈ rangeBandWords := by
  unfold rangeBandWords
  rw [rangeBand_exec]
  obtain ⟨h1, h2, h3, h4, h5, h6, h7, h8, h9, h10, h11, h12, h13, h14, h15, h16⟩ :=
    lowerAscii_consts
  rcases x with _ | ⟨a, _ | ⟨b, _ | ⟨c, _ | ⟨d, _ | ⟨e, _ | ⟨f, _ | ⟨g, _ | ⟨h, t⟩⟩⟩⟩⟩⟩⟩⟩ <;>
    simp [Re.matchHere, rangeBand, Re.cat, Re.run, Re.word, Re.ci, h1, h2, h3, h4, h5, h6, h7,
      h8, h9, h10, h11, h12, h13, h14, h15, h16]
  all_goals (split_ifs <;> simp_all)

theorem lowerChar_of_ascii (c l : Char) (h : lowerAscii c = l) (hl : l.toNat < 128) :
    lowerChar c = [l] := by
  have key : ∀ n : Nat, 128 ≤ n → c.toNat = n → False := by
    intro n hn hc
    have : lowerAscii c = c := by
      unfold lowerAscii
      rw [if_neg]
      omega
    rw [this] at h
    rw [h] at hc
    omega
  unfold lowerChar
  rw [if_neg (fun e => key _ (by decide) e), if_neg (fun e => key _ (by decide) e), h]

theorem toLowerCase_of_map (x : Str) :
    ∀ w : Str, x.map lowerAscii = w → (∀ c ∈ w, c.toNat < 128) → toLowerCase x = w := by
  induction x with
  | nil => intro w h _; simpa [toLowerCase] using h
  | cons a x ih =>
    intro w h hw
    cases w with
    | nil => simp at h
    | cons b w =>
      simp only [List.map_cons, List.cons.injEq] at h
      simp only [toLowerCase]
      rw [lowerChar_of_ascii a b h.1 (hw b (List.mem_cons_self _ _)),
        ih w h.2 (fun c hc => hw c (List.mem_cons_of_mem _ hc))]
      rfl

/-- On a range band word in any letter case, `parseRange` returns the word
in lower case. -/
theorem parseRange_of_band (x : Str) (h : x.map lowerAscii ∈ rangeBandWords) :
    parseRange x = toLowerCase x ∧ toLowerCase x = x.map lowerAscii ∧ parseRange x ≠ [] := by
  have hne : x.isEmpty = false := by
    cases x with
    | nil => revert h; decide
    | cons a x => rfl
  have hascii : ∀ w ∈ rangeBandWords, ∀ c ∈ w, c.toNat < 128 := by decide
  have hlow := toLowerCase_of_map x _ rfl (hascii _ h)
  have hall : ∀ w ∈ rangeBandWords,
      (if includes (trim w) "short".toList = true then "short".toList
        else if includes (trim w) "medium".toList = true then "medium".toList
        else if includes (trim w) "long".toList = true then "long".toList
        else if includes (trim w) "extreme".toList = true then "extreme".toList
        else []) = w ∧ w ≠ [] := by decide
  have hp : parseRange x = x.map lowerAscii := by
    unfold parseRange
    rw [hne]
    simp only [Bool.false_eq_true, if_false]
    rw [hlow]
    exact (hall _ h).1
  refine ⟨by rw [hp, hlow], hlow, ?_⟩
  rw [hp]
  exact (hall _ h).2

theorem rangeBand_test_decide (x : Str) :
    (rangeBand.exec x).isSome = decide (x.map lowerAscii ∈ rangeBandWords) := by
  rw [Bool.eq_iff_iff, rangeBand_test]
  simp

theorem hasRangedFormat_of_trimmed (parts : List Str)
    (h : trim (field parts 3) = field parts 3) :
    hasRangedFormat parts = hasEightFieldShape parts := by
  unfold hasRangedFormat hasEightFieldShape
  rw [h, rangeBand_test_decide]

/-- The dispatch of `parseWeapon` on fields whose 4th is trimmed. -/
theorem parseWeapon_of_trimmed (host : Host) (parts : List Str) (category : Str)
    (defs : CustomTraitDefs) (h : trim (field parts 3) = field parts 3) :
    parseWeapon host parts category defs =
      applyGrammar (specGrammar parts) host parts category defs := by
  unfold parseWeapon specGrammar
  rw [hasRangedFormat_of_trimmed parts h]
  have h1 : isMelee parts = hasMeleeKeyword parts := rfl
  have h2 : isGrenade parts = hasThrownKeyword parts := rfl
  rw [h1, h2]
  simp only
  split
  · rfl
  · split
    · rfl
    · split
      · rfl
      · split <;> rfl

/-- C1: `parseWeapon` applies to every tokenized weapon line exactly the
grammar chosen by the fixed priority: a melee keyword in the lower-cased 2nd
field gives the melee grammar; otherwise the 8-field shape with `thrown` gives
the grenade range-table grammar; otherwise the 8-field shape gives the ranged
grammar; otherwise `thrown` gives the simple grenade grammar; otherwise the
melee grammar. -/
theorem parseWeapon_dispatch (host : Host) (line category : Str)
    (customTraitDefs : CustomTraitDefs) :
    parseWeapon host (tokenize line) category customTraitDefs =
      applyGrammar (specGrammar (tokenize line)) host (tokenize line) category
        customTraitDefs := by
  have htrim : trim (field (tokenize line) 3) = field (tokenize line) 3 :=
    tokenize_field_trim line 3
  exact parseWeapon_of_trimmed host (tokenize line) category customTraitDefs htrim

/-! ## The weapon grammars through `parseLine` -/

theorem parseLine_weapon (host : Host) (line category : Str) (defs : CustomTraitDefs)
    (hlen : 2 ≤ (tokenize line).length) :
    parseLine host line "weapon".toList category defs =
      applyGrammar (specGrammar (tokenize line)) host (tokenize line) category defs := by
  rw [← parseWeapon_of_trimmed host (tokenize line) category defs (tokenize_field_trim line 3)]
  unfold parseLine
  simp only
  rw [if_neg (by omega)]
  exact if_pos trivial

/-- C2: a line with at least 6 fields whose 2nd field contains a melee
keyword is parsed, as a weapon, into a melee record: name the 1st field, spec,
damage, encumbrance, cost and availability parsed from the 2nd to 6th fields,
empty range, magazine 0/0, traits parsed from the remaining fields joined by a
space.  In particular the Combat Knife line yields spec `oneHanded`, damage
3 + `str`, encumbrance 1, cost 50, availability `common` and the single trait
`subtle`, whatever the host settings and the custom-trait dictionary. -/
theorem parseLine_melee :
    (∀ (host : Host) (line category : Str) (defs : CustomTraitDefs),
      6 ≤ (tokenize line).length → hasMeleeKeyword (tokenize line) = true →
      parseLine host line "weapon".toList category defs = some
        { name := field (tokenize line) 0
          type := "weapon".toList
          img := host.setting "meleeIcon".toList
          system := ItemSystem.weapon
            { attackType := "melee".toList
              spec := parseSpec (field (tokenize line) 1) "melee".toList
              category := categoryOrMundane category
              damage :=
                { base := (parseDamage (field (tokenize line) 2)).base
                  characteristic := (parseDamage (field (tokenize line) 2)).characteristic
                  SL := true }
              range := []
              mag := { value := Num.fin 0, current := Num.fin 0 }
              encumbrance := parseNumber (field (tokenize line) 3)
              cost := parseNumber (field (tokenize line) 4)
              availability := parseAvailability (field (tokenize line) 5)
              traits := parseTraits (join [' '] ((tokenize line).drop 6))
              notesPlayer :=
                (parseTraitsWithCustom (join [' '] ((tokenize line).drop 6)) defs).2
              notesGm := [] }
          importedAt := host.now }) ∧
    (∀ (host : Host) (defs : CustomTraitDefs), ∃ w : WeaponSystem,
      (parseLine host combatKnifeLine "weapon".toList "mundane".toList defs).map
          (fun it => (it.name, it.type, it.system)) =
        some ("Combat Knife".toList, "weapon".toList, ItemSystem.weapon w) ∧
      w.attackType = "melee".toList ∧ w.spec = "oneHanded".toList ∧
      w.damage.base = Num.fin 3 ∧ w.damage.characteristic = "str".toList ∧
      w.encumbrance = Num.fin 1 ∧ w.cost = Num.fin 50 ∧
      w.availability = "common".toList ∧
      w.traits = [{ key := "subtle".toList, value := none }]) := by
  have main : ∀ (host : Host) (line category : Str) (defs : CustomTraitDefs),
      6 ≤ (tokenize line).length → hasMeleeKeyword (tokenize line) = true →
      parseLine host line "weapon".toList category defs =
        parseMelee host (field (tokenize line) 0) (tokenize line) category defs := by
    intro host line category defs hlen hkw
    rw [parseLine_weapon host line category defs (by omega)]
    unfold specGrammar
    rw [if_pos hkw]
    rfl
  constructor
  · intro host line category defs hlen hkw
    rw [main host line category defs hlen hkw]
    generalize tokenize line = parts at hlen ⊢
    unfold parseMelee
    rw [if_neg (by omega)]
    simp only [parseTraitsWithCustom_fst]
  · intro host defs
    rw [main host combatKnifeLine "mundane".toList defs (by decide) (by decide)]
    have hp : tokenize combatKnifeLine =
        ["Combat Knife".toList, "One-Handed".toList, "3+STR".toList, "1".toList, "50".toList,
          "Common".toList, "Subtle".toList] := by decide
    rw [hp]
    unfold parseMelee
    rw [if_neg (by decide)]
    simp only [parseTraitsWithCustom_fst]
    refine ⟨_, rfl, ?_⟩
    dsimp only
    decide

theorem parseLine_melee_witness :
    6 ≤ (tokenize combatKnifeLine).length ∧ hasMeleeKeyword (tokenize combatKnifeLine) = true ∧
      parseLine defaultHost combatKnifeLine "weapon".toList "mundane".toList [] =
        some combatKnifeItem :=
  ⟨by decide, by decide,
    (parseLine_melee.1 defaultHost combatKnifeLine "mundane".toList [] (by decide)
      (by decide)).trans (by decide)⟩

theorem parseMagazine_snd (s : Str) : (parseMagazine s).2 = (parseMagazine s).1 := by
  unfold parseMagazine
  split
  · rfl
  · simp only
    split
    · rfl
    · split <;> rfl

/-- C3: a line with at least 8 fields whose 2nd field contains neither a melee
keyword nor `thrown` and whose 4th field is a range band word is parsed, as a
weapon, into a ranged record: spec parsed in ranged context, damage from the
3rd field, range the 4th field in lower case (never empty), magazine value and
current both the capacity parsed from the 5th field, encumbrance, cost and
availability from the 6th to 8th fields, traits from the fields after the 8th.
In particular the Autogun line yields spec `longGun`, damage 7 without
characteristic, range `medium`, magazine 30/30 and the single trait
`rapidfire` with value 3. -/
theorem parseLine_ranged :
    (∀ (host : Host) (line category : Str) (defs : CustomTraitDefs),
      8 ≤ (tokenize line).length → hasMeleeKeyword (tokenize line) = false →
      hasThrownKeyword (tokenize line) = false →
      (field (tokenize line) 3).map lowerAscii ∈ rangeBandWords →
      toLowerCase (field (tokenize line) 3) ≠ [] ∧
      parseLine host line "weapon".toList category defs = some
        { name := field (tokenize line) 0
          type := "weapon".toList
          img := host.setting "rangedIcon".toList
          system := ItemSystem.weapon
            { attackType := "ranged".toList
              spec := parseSpec (field (tokenize line) 1) "ranged".toList
              category := categoryOrMundane category
              damage :=
                { base := (parseDamage (field (tokenize line) 2)).base
                  characteristic := (parseDamage (field (tokenize line) 2)).characteristic
                  SL := true }
              range := toLowerCase (field (tokenize line) 3)
              mag :=
                { value := (parseMagazine (field (tokenize line) 4)).1
                  current := (parseMagazine (field (tokenize line) 4)).1 }
              encumbrance := parseNumber (field (tokenize line) 5)
              cost := parseNumber (field (tokenize line) 6)
              availability := parseAvailability (field (tokenize line) 7)
              traits := parseTraits (join [' '] ((tokenize line).drop 8))
              notesPlayer :=
                (parseTraitsWithCustom (join [' '] ((tokenize line).drop 8)) defs).2
              notesGm := [] }
          importedAt := host.now }) ∧
    (∀ (host : Host) (defs : CustomTraitDefs), ∃ w : WeaponSystem,
      (parseLine host autogunLine "weapon".toList "mundane".toList defs).map
          (fun it => (it.name, it.type, it.system)) =
        some ("Autogun".toList, "weapon".toList, ItemSystem.weapon w) ∧
      w.attackType = "ranged".toList ∧ w.spec = "longGun".toList ∧
      w.damage.base = Num.fin 7 ∧ w.damage.characteristic = [] ∧
      w.range = "medium".toList ∧ w.mag = { value := Num.fin 30, current := Num.fin 30 } ∧
      w.traits = [{ key := "rapidfire".toList, value := some "3".toList }]) := by
  have main : ∀ (host : Host) (line category : Str) (defs : CustomTraitDefs),
      8 ≤ (tokenize line).length → hasMeleeKeyword (tokenize line) = false →
      hasThrownKeyword (tokenize line) = false →
      (field (tokenize line) 3).map lowerAscii ∈ rangeBandWords →
      parseLine host line "weapon".toList category defs =
        parseRanged host (field (tokenize line) 0) (tokenize line) category defs := by
    intro host line category defs hlen hkw hth hband
    rw [parseLine_weapon host line category defs (by omega)]
    have hshape : hasEightFieldShape (tokenize line) = true := by
      unfold hasEightFieldShape
      simp [hlen, hband]
    unfold specGrammar
    rw [hkw, hshape, hth]
    rfl
  constructor
  · intro host line category defs hlen hkw hth hband
    obtain ⟨hr1, _, hr3⟩ := parseRange_of_band _ hband
    refine ⟨by rw [← hr1]; exact hr3, ?_⟩
    rw [main host line category defs hlen hkw hth hband]
    generalize tokenize line = parts at hlen hr1 ⊢
    unfold parseRanged
    rw [if_neg (by omega)]
    simp only [parseTraitsWithCustom_fst, parseMagazine_snd, hr1]
  · intro host defs
    rw [main host autogunLine "mundane".toList defs (by decide) (by decide) (by decide)
      (by decide)]
    have hp : tokenize autogunLine =
        ["Autogun".toList, "Long Gun".toList, "7".toList, "Medium".toList, "30".toList,
          "3".toList, "250".toList, "Common".toList, "RapidFire(3)".toList] := by decide
    rw [hp]
    unfold parseRanged
    rw [if_neg (by decide)]
    simp only [parseTraitsWithCustom_fst]
    refine ⟨_, rfl, ?_⟩
    dsimp only
    decide

theorem parseLine_ranged_witness :
    8 ≤ (tokenize autogunLine).length ∧ hasMeleeKeyword (tokenize autogunLine) = false ∧
      hasThrownKeyword (tokenize autogunLine) = false ∧
      (field (tokenize autogunLine) 3).map lowerAscii ∈ rangeBandWords ∧
      parseLine defaultHost autogunLine "weapon".toList "mundane".toList [] =
        some autogunItem :=
  ⟨by decide, by decide, by decide, by decide,
    (parseLine_ranged.1 defaultHost autogunLine "mundane".toList [] (by decide) (by decide)
      (by decide) (by decide)).2.trans (by decide)⟩

theorem filter_key_length_le (k : Str) (l : List Trait)
    (h : List.Pairwise (fun a b : Trait => a.key ≠ b.key) l) :
    (l.filter (fun t => t.key == k)).length ≤ 1 := by
  induction l with
  | nil => simp
  | cons a l ih =>
    rw [List.pairwise_cons] at h
    by_cases ha : a.key = k
    · have hnone : l.filter (fun t => t.key == k) = [] := by
        rw [List.filter_eq_nil_iff]
        intro b hb
        have := h.1 b hb
        simp only [beq_iff_eq]
        intro e
        exact this (ha.trans e.symm)
      simp [List.filter_cons, ha, hnone]
    · have := ih h.2
      simpa [List.filter_cons, ha] using this

theorem addThrown_filter (traits : List Trait) (thrownRange : Str)
    (h : List.Pairwise (fun a b : Trait => a.key ≠ b.key) traits) :
    ((addThrown traits thrownRange).filter (fun t => t.key == "thrown".toList)).length = 1 := by
  have hle := filter_key_length_le "thrown".toList _ (addThrown_pairwise traits thrownRange h)
  have hpos : 0 < ((addThrown traits thrownRange).filter
      (fun t => t.key == "thrown".toList)).length := by
    rw [List.length_pos]
    unfold addThrown
    split
    · rename_i hany
      intro hnil
      rw [List.filter_eq_nil_iff] at hnil
      rw [List.any_eq_true] at hany
      obtain ⟨t, ht, hk⟩ := hany
      exact hnil t ht hk
    · intro hnil
      rw [List.filter_eq_nil_iff] at hnil
      exact hnil ⟨"thrown".toList, some thrownRange⟩ (by simp) (by simp)
  omega

/-- C4: a line with at least 8 fields whose 4th field is a range band word
and whose 2nd field contains `thrown` and no melee keyword is parsed, as a
weapon, into a record of category `explosive` with magazine 1/1 whatever the
5th field holds; its trait list is the one parsed from the trait text when
that has a `thrown` trait, and otherwise that list followed by a `thrown`
trait whose value is the 4th field as written; either way exactly one trait
has the key `thrown`.  In particular the Frag Grenade line yields category
`explosive`, magazine 1/1, availability `scarce` and the trait `thrown` with
value `Short`. -/
theorem parseLine_grenade :
    (∀ (host : Host) (line category : Str) (defs : CustomTraitDefs),
      8 ≤ (tokenize line).length → hasMeleeKeyword (tokenize line) = false →
      hasThrownKeyword (tokenize line) = true →
      (field (tokenize line) 3).map lowerAscii ∈ rangeBandWords →
      ∃ (it : Item) (w : WeaponSystem),
        parseLine host line "weapon".toList category defs = some it ∧
        it.system = ItemSystem.weapon w ∧
        w.category = "explosive".toList ∧
        w.mag = { value := Num.fin 1, current := Num.fin 1 } ∧
        (w.traits.filter (fun t => t.key == "thrown".toList)).length = 1 ∧
        w.traits =
          (if (parseTraits (join [' '] ((tokenize line).drop 8))).any
              (fun t => t.key == "thrown".toList) then
            parseTraits (join [' '] ((tokenize line).drop 8))
          else
            parseTraits (join [' '] ((tokenize line).drop 8)) ++
              [{ key := "thrown".toList, value := some (field (tokenize line) 3) }])) ∧
    (∀ (host : Host) (defs : CustomTraitDefs), ∃ w : WeaponSystem,
      (parseLine host fragGrenadeLine "weapon".toList "mundane".toList defs).map
          (fun it => (it.name, it.type, it.system)) =
        some ("Frag Grenade".toList, "weapon".toList, ItemSystem.weapon w) ∧
      w.category = "explosive".toList ∧
      w.mag = { value := Num.fin 1, current := Num.fin 1 } ∧
      w.availability = "scarce".toList ∧
      w.traits = [{ key := "thrown".toList, value := some "Short".toList }]) := by
  have main : ∀ (host : Host) (line category : Str) (defs : CustomTraitDefs),
      8 ≤ (tokenize line).length → hasMeleeKeyword (tokenize line) = false →
      hasThrownKeyword (tokenize line) = true →
      (field (tokenize line) 3).map lowerAscii ∈ rangeBandWords →
      parseLine host line "weapon".toList category defs =
        parseGrenade host (field (tokenize line) 0) (tokenize line) defs := by
    intro host line category defs hlen hkw hth hband
    rw [parseLine_weapon host line category defs (by omega)]
    have hshape : hasEightFieldShape (tokenize line) = true := by
      unfold hasEightFieldShape
      simp [hlen, hband]
    unfold specGrammar
    rw [hkw, hshape, hth]
    rfl
  constructor
  · intro host line category defs hlen hkw hth hband
    rw [main host line category defs hlen hkw hth hband]
    have htrim := tokenize_field_trim line 3
    generalize tokenize line = parts at hlen htrim ⊢
    unfold parseGrenade
    rw [if_neg (by omega)]
    simp only [parseTraitsWithCustom_fst, htrim]
    refine ⟨_, _, rfl, rfl, rfl, rfl, ?_, ?_⟩
    · exact addThrown_filter _ _ (parseTraits_pairwise _)
    · rfl
  · intro host defs
    rw [main host fragGrenadeLine "mundane".toList defs (by decide) (by decide) (by decide)
      (by decide)]
    have hp : tokenize fragGrenadeLine =
        ["Frag Grenade".toList, "Thrown".toList, "8".toList, "Short".toList, "-".toList,
          "1".toList, "40".toList, "Scarce".toList] := by decide
    rw [hp]
    unfold parseGrenade
    rw [if_neg (by decide)]
    simp only [parseTraitsWithCustom_fst]
    refine ⟨_, rfl, ?_⟩
    dsimp only
    decide

theorem parseLine_grenade_witness :
    8 ≤ (tokenize fragGrenadeLine).length ∧
      hasMeleeKeyword (tokenize fragGrenadeLine) = false ∧
      hasThrownKeyword (tokenize fragGrenadeLine) = true ∧
      (field (tokenize fragGrenadeLine) 3).map lowerAscii ∈ rangeBandWords ∧
      ∃ (it : Item) (w : WeaponSystem),
        parseLine defaultHost fragGrenadeLine "weapon".toList "mundane".toList [] = some it ∧
        it.system = ItemSystem.weapon w ∧
        w.category = "explosive".toList ∧
        w.mag = { value := Num.fin 1, current := Num.fin 1 } ∧
        (w.traits.filter (fun t => t.key == "thrown".toList)).length = 1 ∧
        w.traits =
          (if (parseTraits (join [' '] ((tokenize fragGrenadeLine).drop 8))).any
              (fun t => t.key == "thrown".toList) then
            parseTraits (join [' '] ((tokenize fragGrenadeLine).drop 8))
          else
            parseTraits (join [' '] ((tokenize fragGrenadeLine).drop 8)) ++
              [{ key := "thrown".toList,
                 value := some (field (tokenize fragGrenadeLine) 3) }]) :=
  ⟨by decide, by decide, by decide, by decide,
    parseLine_grenade.1 defaultHost fragGrenadeLine "mundane".toList [] (by decide) (by decide)
      (by decide) (by decide)⟩

/-- The trait list of the Frag Grenade record has pairwise different keys
(an instance of the uniqueness of trait keys). -/
theorem trait_keys_unique_witness :
    parseLine defaultHost fragGrenadeLine "weapon".toList "mundane".toList [] =
        some fragGrenadeItem ∧
      List.Pairwise (fun a b : Trait => a.key ≠ b.key) fragGrenadeItem.traits :=
  ⟨by decide,
    trait_keys_unique.2 defaultHost fragGrenadeLine "weapon".toList "mundane".toList []
      fragGrenadeItem (by decide)⟩

/-! ## First match wins -/

theorem Re.execAll_eq (re : Re) (s : Str) :
    (re.exec s = none → re.execAll s = []) ∧
    (∀ m, re.exec s = some m → ∃ ms, re.execAll s = m :: ms) := by
  unfold Re.execAll Re.exec
  simp only [Re.execLoop]
  constructor
  · intro h; rw [h]
  · intro m h
    rw [h]
    simp only
    split
    · exact ⟨_, rfl⟩
    · exact ⟨_, rfl⟩

theorem traitStep_found (tp : TraitPattern) (acc : TraitAcc) (m : Match)
    (h : tp.key ∈ acc.foundKeys) : traitStep tp acc m = acc := by
  unfold traitStep
  rw [if_pos (by simpa using h)]

theorem foldl_traitStep_found (tp : TraitPattern) (ms : List Match) :
    ∀ acc : TraitAcc, tp.key ∈ acc.foundKeys → ms.foldl (traitStep tp) acc = acc := by
  induction ms with
  | nil => intro acc _; rfl
  | cons m ms ih =>
    intro acc h
    rw [List.foldl_cons, traitStep_found tp acc m h]
    exact ih acc h

theorem traitStep_key_mem (tp : TraitPattern) (acc : TraitAcc) (m : Match) :
    tp.key ∈ (traitStep tp acc m).foundKeys := by
  unfold traitStep
  split
  · rename_i h; simpa using h
  · exact List.mem_cons_self _ _

/-- The `while` loop of one pattern does what its first match does. -/
theorem foldl_execAll (tp : TraitPattern) (s : Str) (acc : TraitAcc) :
    (tp.pattern.execAll s).foldl (traitStep tp) acc =
      match tp.pattern.exec s with
      | none => acc
      | some m => traitStep tp acc m := by
  obtain ⟨h1, h2⟩ := Re.execAll_eq tp.pattern s
  cases h : tp.pattern.exec s with
  | none => rw [h1 h]; rfl
  | some m =>
    obtain ⟨ms, hms⟩ := h2 m h
    rw [hms, List.foldl_cons]
    exact foldl_traitStep_found tp ms _ (traitStep_key_mem tp acc m)

theorem collectTraits_cons (s : Str) (tp : TraitPattern) (table : List TraitPattern)
    (acc : TraitAcc) :
    collectTraits s (tp :: table) acc =
      collectTraits s table
        (match tp.pattern.exec s with
         | none => acc
         | some m => traitStep tp acc m) := by
  unfold collectTraits
  rw [List.foldl_cons, foldl_execAll]

theorem collectTraits_filter (s k : Str) (table : List TraitPattern) :
    ∀ acc : TraitAcc, (∀ t ∈ acc.traits, t.key ∈ acc.foundKeys) →
      (k ∈ acc.foundKeys →
        (collectTraits s table acc).traits.filter (fun t => t.key == k) =
          acc.traits.filter (fun t => t.key == k)) ∧
      (k ∉ acc.foundKeys → ∀ tp m,
        table.find? (fun tp => tp.key == k && (tp.pattern.exec s).isSome) = some tp →
        tp.pattern.exec s = some m →
        (collectTraits s table acc).traits.filter (fun t => t.key == k) =
          [traitOfMatch tp m]) := by
  induction table with
  | nil =>
    intro acc _
    refine ⟨fun _ => rfl, ?_⟩
    intro _ tp m hf
    simp at hf
  | cons tp0 table ih =>
    intro acc hinv
    rw [collectTraits_cons]
    have hnil : k ∉ acc.foundKeys → acc.traits.filter (fun t => t.key == k) = [] := by
      intro hk
      rw [List.filter_eq_nil_iff]
      intro t ht
      simp only [beq_iff_eq]
      intro e
      exact hk (e ▸ hinv t ht)
    cases hex : tp0.pattern.exec s with
    | none =>
      simp only
      obtain ⟨ih1, ih2⟩ := ih acc hinv
      refine ⟨ih1, ?_⟩
      intro hk tp m hf hm
      rw [List.find?_cons] at hf
      simp only [hex, Option.isSome_none, Bool.and_false] at hf
      exact ih2 hk tp m hf hm
    | some m0 =>
      simp only
      by_cases hfound : tp0.key ∈ acc.foundKeys
      · rw [traitStep_found tp0 acc m0 hfound]
        obtain ⟨ih1, ih2⟩ := ih acc hinv
        refine ⟨ih1, ?_⟩
        intro hk tp m hf hm
        have hne : (tp0.key == k) = false := by
          simp only [beq_eq_false_iff_ne]
          intro e
          exact hk (e ▸ hfound)
        rw [List.find?_cons] at hf
        simp only [hne, Bool.false_and] at hf
        exact ih2 hk tp m hf hm
      · have hstep : traitStep tp0 acc m0 =
            { foundKeys := tp0.key :: acc.foundKeys,
              traits := acc.traits ++ [traitOfMatch tp0 m0] } := by
          unfold traitStep
          rw [if_neg (by simpa using hfound)]
        have hinv2 : ∀ t ∈ (traitStep tp0 acc m0).traits,
            t.key ∈ (traitStep tp0 acc m0).foundKeys := by
          rw [hstep]
          intro t ht
          simp only [List.mem_append, List.mem_singleton] at ht
          rcases ht with ht | rfl
          · exact List.mem_cons_of_mem _ (hinv t ht)
          · exact List.mem_cons_self _ _
        obtain ⟨ih1, ih2⟩ := ih _ hinv2
        constructor
        · intro hk
          have hne : tp0.key ≠ k := fun e => hfound (e ▸ hk)
          rw [ih1 (by rw [hstep]; exact List.mem_cons_of_mem _ hk), hstep]
          simp [List.filter_append, traitOfMatch, hne]
        · intro hk tp m hf hm
          by_cases hkey : tp0.key = k
          · rw [List.find?_cons] at hf
            simp only [hkey, beq_self_eq_true, hex, Option.isSome_some, Bool.and_self] at hf
            cases hf
            rw [hex] at hm
            cases hm
            rw [ih1 (by rw [hstep, hkey]; exact List.mem_cons_self _ _), hstep]
            simp [List.filter_append, hnil hk, traitOfMatch, hkey]
          · have hne : (tp0.key == k) = false := by simpa using hkey
            rw [List.find?_cons] at hf
            simp only [hne, Bool.false_and] at hf
            refine ih2 ?_ tp m hf hm
            rw [hstep]
            simp only [List.mem_cons, not_or]
            exact ⟨fun e => hkey e.symm, hk⟩

theorem isWordChar_of_isWhiteSpace (c : Char) (h : isWhiteSpace c = true) :
    isWordChar c = false := by
  unfold isWhiteSpace at h
  unfold isWordChar
  simp only [Bool.or_eq_true, Bool.and_eq_true, decide_eq_true_eq, beq_iff_eq] at h
  simp only [Bool.or_eq_false_iff, Bool.and_eq_false_iff, decide_eq_false_iff_not,
    beq_eq_false_iff_ne]
  omega

theorem trimStart_eq_nil (l : Str) (h : trimStart l = []) : ∀ c ∈ l, isWhiteSpace c = true := by
  induction l with
  | nil => intro c hc; cases hc
  | cons a l ih =>
    simp only [trimStart] at h
    split at h
    · rename_i ha
      intro c hc
      rcases List.mem_cons.mp hc with rfl | hc
      · exact ha
      · exact ih h c hc
    · cases h

theorem blank_all_whiteSpace (s : Str) (h : (trim s).isEmpty = true) :
    ∀ c ∈ s, isWhiteSpace c = true := by
  have h0 : trim s = [] := by simpa using h
  unfold trim trimEnd at h0
  have h1 : trimStart (trimStart s).reverse = [] := by simpa using h0
  have h2 := trimStart_eq_nil _ h1
  have h3 : trimStart s = [] := by
    cases hu : trimStart s with
    | nil => rfl
    | cons d u =>
      have hd := trimStart_head s d u hu
      have := h2 d (by rw [hu]; simp)
      rw [hd] at this
      cases this
  exact trimStart_eq_nil s h3

theorem Re.search_wordB_none (x : Re) (s : Str) (hs : ∀ c ∈ s, isWordChar c = false) :
    ∀ (i : Nat) (prev : Option Char), (∀ c, prev = some c → isWordChar c = false) →
      (Re.seq Re.wordB x).search i prev s = none := by
  induction s with
  | nil =>
    intro i prev hp
    have hb : atWordBoundary prev [] = false := by
      unfold atWordBoundary
      cases prev with
      | none => rfl
      | some c => simp [hp c rfl]
    simp [Re.search, Re.matchHere, Re.run, hb]
  | cons d ds ih =>
    intro i prev hp
    have hd : isWordChar d = false := hs d (List.mem_cons_self _ _)
    have hb : atWordBoundary prev (d :: ds) = false := by
      unfold atWordBoundary
      cases prev with
      | none => simp [hd]
      | some c => simp [hp c rfl, hd]
    have hrec := ih (fun c hc => hs c (List.mem_cons_of_mem _ hc)) (i + 1) (some d)
      (fun c hc => by cases hc; exact hd)
    simp [Re.search, Re.matchHere, Re.run, hb, hrec]

theorem Re.beginsWithWordB_eq (re : Re) (h : re.beginsWithWordB = true) :
    ∃ x, re = Re.seq Re.wordB x := by
  cases re with
  | seq a b =>
    cases a <;> first | exact ⟨b, rfl⟩ | simp [Re.beginsWithWordB] at h
  | _ => simp [Re.beginsWithWordB] at h

theorem traitPatterns_beginWithWordB :
    ∀ tp ∈ traitPatterns, tp.pattern.beginsWithWordB = true := by
  decide

/-- No catalog pattern matches in a blank text. -/
theorem exec_blank (s : Str) (h : (trim s).isEmpty = true) (tp : TraitPattern)
    (htp : tp ∈ traitPatterns) : tp.pattern.exec s = none := by
  obtain ⟨x, hx⟩ := Re.beginsWithWordB_eq _ (traitPatterns_beginWithWordB tp htp)
  rw [hx]
  unfold Re.exec
  apply Re.search_wordB_none
  · intro c hc
    exact isWordChar_of_isWhiteSpace c (blank_all_whiteSpace s h c hc)
  · intro c hc
    cases hc

/-- C7 (as amended): when a catalog pattern of key `k` matches in the trait
text, `parseTraits` yields exactly one entry for `k`, and that entry is the
trait of the leftmost match of the first pattern of `k`, in catalog order,
that matches anywhere in the text. -/
theorem parseTraits_first_pattern_wins (s k : Str) (tp : TraitPattern) (m : Match)
    (htp : traitPatterns.find? (fun tp => tp.key == k && (tp.pattern.exec s).isSome) = some tp)
    (hm : tp.pattern.exec s = some m) :
    (parseTraits s).filter (fun t => t.key == k) = [traitOfMatch tp m] := by
  have hmem : tp ∈ traitPatterns := List.mem_of_find?_eq_some htp
  unfold parseTraits
  split
  · rename_i hblank
    rw [exec_blank s hblank tp hmem] at hm
    cases hm
  · exact (collectTraits_filter s k traitPatterns { foundKeys := [], traits := [] }
      (fun t ht => by cases ht)).2 (by simp) tp m htp hm

theorem parseTraits_first_pattern_wins_witness :
    traitPatterns.find?
        (fun tp => tp.key == "shield".toList && (tp.pattern.exec shieldTwice).isSome) =
        some ⟨ratedTrait "Shield", "shield".toList, true⟩ ∧
      (ratedTrait "Shield").exec shieldTwice =
        some { index := 8, cap := some "2".toList, prev := some ')', after := [] } ∧
      (parseTraits shieldTwice).filter (fun t => t.key == "shield".toList) =
        [{ key := "shield".toList, value := some "2".toList }] :=
  ⟨rfl, by decide,
    parseTraits_first_pattern_wins shieldTwice "shield".toList
      ⟨ratedTrait "Shield", "shield".toList, true⟩
      { index := 8, cap := some "2".toList, prev := some ')', after := [] } rfl (by decide)⟩

/-- C7 (counterexample): in `Shield, Shield (2)` the keyword Shield occurs
twice; its leftmost occurrence, at position 0, carries no value, yet the one
entry `parseTraits` yields for the key carries the value 2 of the second
occurrence. -/
theorem parseTraits_not_leftmost_occurrence :
    (keywordOccurrences shieldTwice "shield".toList).map (fun o => o.1) = [8, 0, 8] ∧
      leftmostOccurrence (keywordOccurrences shieldTwice "shield".toList) =
        some (0, { key := "shield".toList, value := none }) ∧
      parseTraits shieldTwice = [{ key := "shield".toList, value := some "2".toList }] := by
  decide

/-! ## Greedy repetition and search on runs of digits -/

theorem lastOr_cons (prev : Option Char) (d : Char) (ds : Str) :
    lastOr prev (d :: ds) = lastOr (some d) ds := rfl

/-- Greedy repetition over a run of the class followed by a text outside it:
when the rest of the pattern fails at every character of the class, the run
is read whole. -/
theorem manyRun_run {α : Type} (p : Char → Bool) (k : Option Char → Str → Option α)
    (r : Str) (hr : ∀ c t, r = c :: t → p c = false)
    (hk : ∀ q c t, p c = true → k q (c :: t) = none) :
    ∀ (ds : Str), (∀ c ∈ ds, p c = true) → ∀ (min : Nat) (prev : Option Char),
      min ≤ ds.length → manyRun p k min prev (ds ++ r) = k (lastOr prev ds) r := by
  intro ds
  induction ds with
  | nil =>
    intro _ min prev hmin
    have h0 : min = 0 := by simpa using hmin
    subst h0
    cases r with
    | nil => simp [manyRun, lastOr]
    | cons c t => simp [manyRun, lastOr, hr c t rfl]
  | cons d ds ih =>
    intro hds min prev hmin
    have hd : p d = true := hds d (List.mem_cons_self _ _)
    have hrec := ih (fun c hc => hds c (List.mem_cons_of_mem _ hc)) (min - 1) (some d)
      (by simp only [List.length_cons] at hmin; omega)
    show manyRun p k min prev (d :: (ds ++ r)) = _
    rw [manyRun, if_pos hd, hrec, lastOr_cons]
    cases hres : k (lastOr (some d) ds) r with
    | some x => rfl
    | none =>
      simp only
      split
      · exact hk prev d _ hd
      · rfl

/-- Greedy repetition: when the rest of the pattern succeeds after the whole
run, that is the result. -/
theorem manyRun_greedy {α : Type} (p : Char → Bool) (k : Option Char → Str → Option α)
    (r : Str) (hr : ∀ c t, r = c :: t → p c = false) (x : α) :
    ∀ (ds : Str), (∀ c ∈ ds, p c = true) → ∀ (min : Nat) (prev : Option Char),
      min ≤ ds.length → k (lastOr prev ds) r = some x →
      manyRun p k min prev (ds ++ r) = some x := by
  intro ds
  induction ds with
  | nil =>
    intro _ min prev hmin hx
    have h0 : min = 0 := by simpa using hmin
    subst h0
    cases r with
    | nil => simpa [manyRun, lastOr] using hx
    | cons c t => simpa [manyRun, lastOr, hr c t rfl] using hx
  | cons d ds ih =>
    intro hds min prev hmin hx
    have hd : p d = true := hds d (List.mem_cons_self _ _)
    rw [lastOr_cons] at hx
    have hrec := ih (fun c hc => hds c (List.mem_cons_of_mem _ hc)) (min - 1) (some d)
      (by simp only [List.length_cons] at hmin; omega) hx
    show manyRun p k min prev (d :: (ds ++ r)) = _
    rw [manyRun, if_pos hd, hrec]

/-- An expression that needs a first character of a class matches nowhere in
a text without such a character. -/
theorem Re.search_needsFirst (re : Re) (p : Char → Bool) (h : re.NeedsFirst p) (s : Str) :
    (∀ c ∈ s, p c = false) → ∀ (i : Nat) (prev : Option Char), re.search i prev s = none := by
  induction s with
  | nil =>
    intro _ i prev
    simp only [Re.search, Re.matchHere]
    exact (h Match _ none prev).1
  | cons d ds ih =>
    intro hs i prev
    simp only [Re.search, Re.matchHere]
    rw [(h Match _ none prev).2 d ds (hs d (List.mem_cons_self _ _))]
    exact ih (fun c hc => hs c (List.mem_cons_of_mem _ hc)) (i + 1) (some d)

/-- Positions at which the expression does not match are skipped by the
search. -/
theorem Re.search_skip (re : Re) (rest : Str) :
    ∀ (pre : Str), (∀ (t : Str), t ≠ [] → t <:+ pre → ∀ i prev,
        re.matchHere i prev (t ++ rest) = none) →
      ∀ (i : Nat) (prev : Option Char),
        re.search i prev (pre ++ rest) = re.search (i + pre.length) (lastOr prev pre) rest := by
  intro pre
  induction pre with
  | nil => intro _ i prev; rfl
  | cons d ds ih =>
    intro hfail i prev
    have h0 := hfail (d :: ds) (by simp) (List.suffix_refl _) i prev
    simp only [List.cons_append] at h0
    show re.search i prev (d :: (ds ++ rest)) = _
    rw [Re.search, h0]
    simp only
    rw [ih (fun t ht hs i prev => hfail t ht (hs.trans (List.suffix_cons d ds)) i prev),
      lastOr_cons]
    simp only [List.length_cons]
    congr 1
    omega

theorem isDigit_not_ws (c : Char) (h : isDigit c = true) : isWhiteSpace c = false := by
  unfold isDigit at h
  unfold isWhiteSpace
  simp only [Bool.and_eq_true, decide_eq_true_eq] at h
  simp only [Bool.or_eq_false_iff, Bool.and_eq_false_iff, decide_eq_false_iff_not,
    beq_eq_false_iff_ne]
  omega

theorem isDigit_lowerAscii (c : Char) (h : isDigit c = true) : lowerAscii c = c := by
  unfold isDigit at h
  simp only [Bool.and_eq_true, decide_eq_true_eq] at h
  unfold lowerAscii
  rw [if_neg]
  omega

theorem isDigit_ne (c d : Char) (h : isDigit c = true) (hd : isDigit d = false) : c ≠ d := by
  intro e
  rw [e, hd] at h
  cases h

/-! ## The patterns of `parseDamage` -/

theorem digitsGroup_run {α : Type} (x : Re) (k : Option Str → Option Char → Str → Option α)
    (ds r : Str) (hds : ∀ c ∈ ds, isDigit c = true) (hne : ds ≠ [])
    (hr : ∀ c t, r = c :: t → isDigit c = false)
    (hx : ∀ cap q c t, isDigit c = true → x.run k cap q (c :: t) = none)
    (cap : Option Str) (prev : Option Char) :
    (Re.seq Re.digitsGroup x).run k cap prev (ds ++ r) = x.run k (some ds) (lastOr prev ds) r := by
  have hlen : 1 ≤ ds.length := by
    cases ds with
    | nil => exact absurd rfl hne
    | cons d ds => simp
  simp only [Re.run, Re.digitsGroup]
  rw [manyRun_run isDigit
    (fun p1 r1 => x.run k (some (List.take (List.length (ds ++ r) - List.length r1) (ds ++ r)))
      p1 r1) r hr (fun q c t hc => hx _ q c t hc) ds hds 1 prev hlen]
  simp

theorem digitsGroup_run_some {α : Type} (x : Re)
    (k : Option Str → Option Char → Str → Option α)
    (ds r : Str) (hds : ∀ c ∈ ds, isDigit c = true) (hne : ds ≠ [])
    (hr : ∀ c t, r = c :: t → isDigit c = false) (cap : Option Str) (prev : Option Char)
    (y : α) (hy : x.run k (some ds) (lastOr prev ds) r = some y) :
    (Re.seq Re.digitsGroup x).run k cap prev (ds ++ r) = some y := by
  have hlen : 1 ≤ ds.length := by
    cases ds with
    | nil => exact absurd rfl hne
    | cons d ds => simp
  simp only [Re.run, Re.digitsGroup]
  apply manyRun_greedy isDigit _ r hr y ds hds 1 prev hlen
  simpa using hy

theorem digitsGroup_needsFirst (x : Re) : (Re.seq Re.digitsGroup x).NeedsFirst isDigit := by
  intro α k cap prev
  constructor
  · simp [Re.run, Re.digitsGroup, manyRun]
  · intro c t hc
    simp [Re.run, Re.digitsGroup, manyRun, hc]

theorem plus_run_digit {α : Type} (x : Re) (k : Option Str → Option Char → Str → Option α)
    (cap : Option Str) (q : Option Char) (c : Char) (t : Str) (hc : isDigit c = true) :
    (Re.seq (Re.char '+') x).run k cap q (c :: t) = none := by
  have hne : c ≠ '+' := isDigit_ne c '+' hc (by decide)
  simp [Re.run, Re.char, hne]

/-- A pattern `(\d+)\+…` on digits followed by a text without digits, when the
part after the digits does not match that text: no match. -/
theorem forward_search_none (x : Re) (ds r : Str) (hds : ∀ c ∈ ds, isDigit c = true)
    (hr : ∀ c ∈ r, isDigit c = false)
    (hfail : ∀ (i : Nat) (cap : Option Str) (q : Option Char),
      (Re.seq (Re.char '+') x).run (fun cap p r => some (Match.mk i cap p r)) cap q r = none)
    (i : Nat) (prev : Option Char) :
    (Re.seq Re.digitsGroup (Re.seq (Re.char '+') x)).search i prev (ds ++ r) = none := by
  have hr1 : ∀ c t, r = c :: t → isDigit c = false := by
    intro c t e
    exact hr c (by rw [e]; exact List.mem_cons_self _ _)
  rw [Re.search_skip]
  · exact Re.search_needsFirst _ isDigit (digitsGroup_needsFirst _) r hr _ _
  · intro t ht hs i prev
    unfold Re.matchHere
    rw [digitsGroup_run _ _ t r (fun c hc => hds c (hs.subset hc)) ht hr1
      (fun cap q c t hc => plus_run_digit x _ cap q c t hc)]
    exact hfail i _ _

/-- A pattern `(\d+)\+…` on digits followed by a text that the part after the
digits matches: the match starts at the first digit and captures them all. -/
theorem forward_exec_some (x : Re) (ds r : Str) (hds : ∀ c ∈ ds, isDigit c = true)
    (hne : ds ≠ []) (hr : ∀ c t, r = c :: t → isDigit c = false) (m : Match)
    (hm : (Re.seq (Re.char '+') x).run (fun cap p r => some (Match.mk 0 cap p r)) (some ds)
      (lastOr none ds) r = some m) :
    (Re.seq Re.digitsGroup (Re.seq (Re.char '+') x)).exec (ds ++ r) = some m := by
  have h := digitsGroup_run_some (Re.seq (Re.char '+') x)
    (fun cap p r => some (Match.mk 0 cap p r)) ds r hds hne hr none none m hm
  unfold Re.exec
  cases hd : ds ++ r with
  | nil =>
    rw [hd] at h
    simpa [Re.search, Re.matchHere] using h
  | cons c t =>
    rw [hd] at h
    simp only [Re.search, Re.matchHere, h]

theorem damageForward_eq (w : String) :
    damageForward w = Re.seq Re.digitsGroup (Re.seq (Re.char '+') (Re.word w)) := rfl


theorem digitChar_spec :
    ∀ m < 10, isDigit (Nat.digitChar m) = true ∧ (Nat.digitChar m).toNat - 48 = m := by
  decide

theorem digitsValue_append (pre : Str) (d : Char) :
    digitsValue (pre ++ [d]) = 10 * digitsValue pre + (d.toNat - 48) := by
  unfold digitsValue
  rw [List.foldl_append]
  rfl

theorem toDigitsCore_spec :
    ∀ (fuel n : Nat) (acc : Str), n < fuel →
      ∃ pre : Str, Nat.toDigitsCore 10 fuel n acc = pre ++ acc ∧ pre ≠ [] ∧
        (∀ c ∈ pre, isDigit c = true) ∧ digitsValue pre = n := by
  intro fuel
  induction fuel with
  | zero => intro n acc h; omega
  | succ f ih =>
    intro n acc h
    have hmod := digitChar_spec (n % 10) (Nat.mod_lt _ (by decide))
    simp only [Nat.toDigitsCore]
    split
    · rename_i hz
      refine ⟨[Nat.digitChar (n % 10)], rfl, by simp, ?_, ?_⟩
      · intro c hc
        rw [List.mem_singleton.mp hc]
        exact hmod.1
      · have : digitsValue [Nat.digitChar (n % 10)] = (Nat.digitChar (n % 10)).toNat - 48 := by
          simp [digitsValue]
        rw [this, hmod.2]
        omega
    · rename_i hz
      obtain ⟨pre, hpre, hne, hall, hval⟩ := ih (n / 10) (Nat.digitChar (n % 10) :: acc)
        (by omega)
      refine ⟨pre ++ [Nat.digitChar (n % 10)], by rw [hpre]; simp, by simp, ?_, ?_⟩
      · intro c hc
        rcases List.mem_append.mp hc with hc | hc
        · exact hall c hc
        · rw [List.mem_singleton.mp hc]
          exact hmod.1
      · rw [digitsValue_append, hval, hmod.2]
        omega

/-- The decimal notation of `n`: a non-empty run of digits that denotes `n`. -/
theorem toDigits_spec (n : Nat) :
    Nat.toDigits 10 n ≠ [] ∧ (∀ c ∈ Nat.toDigits 10 n, isDigit c = true) ∧
      digitsValue (Nat.toDigits 10 n) = n := by
  obtain ⟨pre, hpre, hne, hall, hval⟩ := toDigitsCore_spec (n + 1) n [] (by omega)
  have : Nat.toDigits 10 n = pre := by
    unfold Nat.toDigits
    rw [hpre]
    simp
  rw [this]
  exact ⟨hne, hall, hval⟩

theorem takeDigits_all (ds : Str) (h : ∀ c ∈ ds, isDigit c = true) : takeDigits ds = ds := by
  induction ds with
  | nil => rfl
  | cons d ds ih =>
    simp only [takeDigits, h d (List.mem_cons_self _ _), if_true]
    rw [ih (fun c hc => h c (List.mem_cons_of_mem _ hc))]

theorem parseInt_digits (ds : Str) (hne : ds ≠ []) (h : ∀ c ∈ ds, isDigit c = true) :
    parseInt ds = some (toNumber (digitsValue ds)) := by
  cases ds with
  | nil => exact absurd rfl hne
  | cons d ds =>
    have hd : isDigit d = true := h d (List.mem_cons_self _ _)
    have ht : trimStart (d :: ds) = d :: ds := trimStart_of_head d ds (isDigit_not_ws d hd)
    have h1 : d ≠ '-' := isDigit_ne d '-' hd (by decide)
    have h2 : d ≠ '+' := isDigit_ne d '+' hd (by decide)
    have hall := takeDigits_all (d :: ds) h
    unfold parseInt
    rw [ht]
    split
    · rename_i r e
      cases e
      exact absurd rfl h1
    · rename_i r e
      cases e
      exact absurd rfl h2
    · rw [hall]
      rfl

theorem capturedInt_digits (i : Nat) (p : Option Char) (r ds : Str) (hne : ds ≠ [])
    (h : ∀ c ∈ ds, isDigit c = true) :
    capturedInt (Match.mk i (some ds) p r) = toNumber (digitsValue ds) := by
  unfold capturedInt
  simp only [Option.getD_some]
  rw [parseInt_digits ds hne h]

theorem toNumber_small (n : Nat) (h : n < 2 ^ 53) : toNumber n = Num.fin n := by
  unfold toNumber
  rw [if_pos h]

/-- Removing white space and lower-casing a text whose ASCII lower-case form
`w` has only ASCII characters other than white space gives `w`. -/
theorem clean_eq (x : Str) :
    ∀ w : Str, x.map lowerAscii = w →
      (∀ c ∈ w, c.toNat < 128 ∧ isWhiteSpace c = false) →
      toLowerCase (x.filter (fun c => !isWhiteSpace c)) = w := by
  induction x with
  | nil => intro w h _; simpa [toLowerCase] using h
  | cons a x ih =>
    intro w h hw
    cases w with
    | nil => simp at h
    | cons b w =>
      simp only [List.map_cons, List.cons.injEq] at h
      obtain ⟨hb1, hb2⟩ := hw b (List.mem_cons_self _ _)
      have ha : isWhiteSpace a = false := by
        cases hws : isWhiteSpace a with
        | false => rfl
        | true =>
          have hcap : lowerAscii a = a := by
            unfold isWhiteSpace at hws
            simp only [Bool.or_eq_true, Bool.and_eq_true, decide_eq_true_eq, beq_iff_eq] at hws
            unfold lowerAscii
            rw [if_neg]
            omega
          rw [hcap] at h
          rw [h.1, hb2] at hws
          cases hws
      simp only [List.filter_cons, ha, Bool.not_false, if_true, toLowerCase]
      rw [lowerChar_of_ascii a b h.1 hb1,
        ih w h.2 (fun c hc => hw c (List.mem_cons_of_mem _ hc))]
      rfl

theorem isDigit_ascii (c : Char) (h : isDigit c = true) : c.toNat < 128 := by
  unfold isDigit at h
  simp only [Bool.and_eq_true, decide_eq_true_eq] at h
  omega

theorem map_lowerAscii_digits (ds : Str) (h : ∀ c ∈ ds, isDigit c = true) :
    ds.map lowerAscii = ds := by
  induction ds with
  | nil => rfl
  | cons d ds ih =>
    simp only [List.map_cons]
    rw [isDigit_lowerAscii d (h d (List.mem_cons_self _ _)),
      ih (fun c hc => h c (List.mem_cons_of_mem _ hc))]

theorem damageScan_forward_miss (u : String) (tag : Str) (rest : List (Re × Str)) (ds r : Str)
    (hds : ∀ c ∈ ds, isDigit c = true) (hr : ∀ c ∈ r, isDigit c = false)
    (hfail : ∀ (i : Nat) (cap : Option Str) (q : Option Char),
      (Re.seq (Re.char '+') (Re.word u)).run (fun cap p r => some (Match.mk i cap p r)) cap q r =
        none) :
    damageScan (ds ++ r) ((damageForward u, tag) :: rest) = damageScan (ds ++ r) rest := by
  have h := forward_search_none (Re.word u) ds r hds hr hfail 0 none
  simp only [damageScan, damageForward_eq, Re.exec, h]

theorem damageScan_forward_hit (u : String) (tag : Str) (rest : List (Re × Str)) (ds r : Str)
    (hds : ∀ c ∈ ds, isDigit c = true) (hne : ds ≠ [])
    (hr : ∀ c t, r = c :: t → isDigit c = false) (m : Match)
    (hm : (Re.seq (Re.char '+') (Re.word u)).run (fun cap p r => some (Match.mk 0 cap p r))
      (some ds) (lastOr none ds) r = some m)
    (hcap : m.cap = some ds) :
    damageScan (ds ++ r) ((damageForward u, tag) :: rest) = (toNumber (digitsValue ds), tag) := by
  have h := forward_exec_some (Re.word u) ds r hds hne hr m hm
  simp only [damageScan, damageForward_eq, h]
  obtain ⟨i, cap, p, after⟩ := m
  simp only at hcap
  subst hcap
  rw [capturedInt_digits i p after ds hne hds]

/-- The scan of the pattern table on `<digits>+<tag>`. -/
theorem damageScan_forward (ds : Str) (hne : ds ≠ []) (hds : ∀ c ∈ ds, isDigit c = true)
    (c : Str) (hc : c ∈ characteristicTags) :
    damageScan (ds ++ '+' :: c) damagePatterns = (toNumber (digitsValue ds), c) := by
  simp only [characteristicTags, List.mem_cons, List.mem_singleton, List.not_mem_nil,
    or_false] at hc
  rcases hc with rfl | rfl | rfl | rfl | rfl | rfl | rfl
  · unfold damagePatterns
    exact damageScan_forward_hit "str" _ _ ds _ hds hne (by intro c t e; cases e; decide) _
      (by simp [Re.run, Re.char, Re.word, Re.cat, Re.ci]; rfl) rfl
  · unfold damagePatterns
    rw [damageScan_forward_miss "str" _ _ ds _ hds (by decide)
      (by intro i cap q; simp [Re.run, Re.char, Re.word, Re.cat, Re.ci, lowerAscii])]
    exact damageScan_forward_hit "ag" _ _ ds _ hds hne (by intro c t e; cases e; decide) _
      (by simp [Re.run, Re.char, Re.word, Re.cat, Re.ci]; rfl) rfl
  · unfold damagePatterns
    rw [damageScan_forward_miss "str" _ _ ds _ hds (by decide)
      (by intro i cap q; simp [Re.run, Re.char, Re.word, Re.cat, Re.ci, lowerAscii])]
    rw [damageScan_forward_miss "ag" _ _ ds _ hds (by decide)
      (by intro i cap q; simp [Re.run, Re.char, Re.word, Re.cat, Re.ci, lowerAscii])]
    exact damageScan_forward_hit "int" _ _ ds _ hds hne (by intro c t e; cases e; decide) _
      (by simp [Re.run, Re.char, Re.word, Re.cat, Re.ci]; rfl) rfl
  · unfold damagePatterns
    rw [damageScan_forward_miss "str" _ _ ds _ hds (by decide)
      (by intro i cap q; simp [Re.run, Re.char, Re.word, Re.cat, Re.ci, lowerAscii])]
    rw [damageScan_forward_miss "ag" _ _ ds _ hds (by decide)
      (by intro i cap q; simp [Re.run, Re.char, Re.word, Re.cat, Re.ci, lowerAscii])]
    rw [damageScan_forward_miss "int" _ _ ds _ hds (by decide)
      (by intro i cap q; simp [Re.run, Re.char, Re.word, Re.cat, Re.ci, lowerAscii])]
    exact damageScan_forward_hit "wil" _ _ ds _ hds hne (by intro c t e; cases e; decide) _
      (by simp [Re.run, Re.char, Re.word, Re.cat, Re.ci]; rfl) rfl
  · unfold damagePatterns
    rw [damageScan_forward_miss "str" _ _ ds _ hds (by decide)
      (by intro i cap q; simp [Re.run, Re.char, Re.word, Re.cat, Re.ci, lowerAscii])]
    rw [damageScan_forward_miss "ag" _ _ ds _ hds (by decide)
      (by intro i cap q; simp [Re.run, Re.char, Re.word, Re.cat, Re.ci, lowerAscii])]
    rw [damageScan_forward_miss "int" _ _ ds _ hds (by decide)
      (by intro i cap q; simp [Re.run, Re.char, Re.word, Re.cat, Re.ci, lowerAscii])]
    rw [damageScan_forward_miss "wil" _ _ ds _ hds (by decide)
      (by intro i cap q; simp [Re.run, Re.char, Re.word, Re.cat, Re.ci, lowerAscii])]
    exact damageScan_forward_hit "fel" _ _ ds _ hds hne (by intro c t e; cases e; decide) _
      (by simp [Re.run, Re.char, Re.word, Re.cat, Re.ci]; rfl) rfl
  · unfold damagePatterns
    rw [damageScan_forward_miss "str" _ _ ds _ hds (by decide)
      (by intro i cap q; simp [Re.run, Re.char, Re.word, Re.cat, Re.ci, lowerAscii])]
    rw [damageScan_forward_miss "ag" _ _ ds _ hds (by decide)
      (by intro i cap q; simp [Re.run, Re.char, Re.word, Re.cat, Re.ci, lowerAscii])]
    rw [damageScan_forward_miss "int" _ _ ds _ hds (by decide)
      (by intro i cap q; simp [Re.run, Re.char, Re.word, Re.cat, Re.ci, lowerAscii])]
    rw [damageScan_forward_miss "wil" _ _ ds _ hds (by decide)
      (by intro i cap q; simp [Re.run, Re.char, Re.word, Re.cat, Re.ci, lowerAscii])]
    rw [damageScan_forward_miss "fel" _ _ ds _ hds (by decide)
      (by intro i cap q; simp [Re.run, Re.char, Re.word, Re.cat, Re.ci, lowerAscii])]
    exact damageScan_forward_hit "per" _ _ ds _ hds hne (by intro c t e; cases e; decide) _
      (by simp [Re.run, Re.char, Re.word, Re.cat, Re.ci]; rfl) rfl
  · unfold damagePatterns
    rw [damageScan_forward_miss "str" _ _ ds _ hds (by decide)
      (by intro i cap q; simp [Re.run, Re.char, Re.word, Re.cat, Re.ci, lowerAscii])]
    rw [damageScan_forward_miss "ag" _ _ ds _ hds (by decide)
      (by intro i cap q; simp [Re.run, Re.char, Re.word, Re.cat, Re.ci, lowerAscii])]
    rw [damageScan_forward_miss "int" _ _ ds _ hds (by decide)
      (by intro i cap q; simp [Re.run, Re.char, Re.word, Re.cat, Re.ci, lowerAscii])]
    rw [damageScan_forward_miss "wil" _ _ ds _ hds (by decide)
      (by intro i cap q; simp [Re.run, Re.char, Re.word, Re.cat, Re.ci, lowerAscii])]
    rw [damageScan_forward_miss "fel" _ _ ds _ hds (by decide)
      (by intro i cap q; simp [Re.run, Re.char, Re.word, Re.cat, Re.ci, lowerAscii])]
    rw [damageScan_forward_miss "per" _ _ ds _ hds (by decide)
      (by intro i cap q; simp [Re.run, Re.char, Re.word, Re.cat, Re.ci, lowerAscii])]
    exact damageScan_forward_hit "t" _ _ ds _ hds hne (by intro c t e; cases e; decide) _
      (by simp [Re.run, Re.char, Re.word, Re.cat, Re.ci]; rfl) rfl

theorem characteristicTags_chars :
    ∀ w ∈ characteristicTags, w ≠ [] ∧
      ∀ c ∈ w, c.toNat < 128 ∧ isWhiteSpace c = false ∧ isDigit c = false := by
  decide

/-- The function `parseDamage` on `<digits>+<abbreviation>`, the abbreviation
in any letter case. -/
theorem parseDamage_forward_digits (ds : Str) (hne : ds ≠ [])
    (hds : ∀ c ∈ ds, isDigit c = true) (c v : Str) (hc : c ∈ characteristicTags)
    (hv : v.map lowerAscii = c) :
    parseDamage (ds ++ '+' :: v) =
      { base := toNumber (digitsValue ds), characteristic := c } := by
  obtain ⟨hcne, hchars⟩ := characteristicTags_chars c hc
  have hclean : toLowerCase ((ds ++ '+' :: v).filter (fun c => !isWhiteSpace c)) =
      ds ++ '+' :: c := by
    apply clean_eq
    · rw [List.map_append, map_lowerAscii_digits ds hds, List.map_cons, hv]
      rfl
    · intro x hx
      rcases List.mem_append.mp hx with hx | hx
      · exact ⟨isDigit_ascii x (hds x hx), isDigit_not_ws x (hds x hx)⟩
      · rcases List.mem_cons.mp hx with rfl | hx
        · decide
        · exact ⟨(hchars x hx).1, (hchars x hx).2.1⟩
  have hempty : (ds ++ '+' :: v).isEmpty = false := by
    cases ds with
    | nil => rfl
    | cons d ds => rfl
  unfold parseDamage
  rw [hempty]
  simp only [Bool.false_eq_true, if_false, hclean, damageScan_forward ds hne hds c hc]
  have : c.isEmpty = false := by
    cases c with
    | nil => exact absurd rfl hcne
    | cons a c => rfl
  rw [this]
  simp

/-- C8 (as amended): for every natural number `n` written in decimal and
every characteristic abbreviation `c` among str, ag, int, wil, fel, per, tgh
written in any letter case, `parseDamage` of `<n>+<c>` returns the lower-case
tag `c` and as base the double nearest to `n`, which is `n` itself for every
`n` below `2^53`. -/
theorem parseDamage_forward (n : Nat) (c v : Str) (hc : c ∈ characteristicTags)
    (hv : v.map lowerAscii = c) :
    parseDamage (Nat.toDigits 10 n ++ '+' :: v) =
        { base := toNumber n, characteristic := c } ∧
      (n < 2 ^ 53 → toNumber n = Num.fin n) := by
  obtain ⟨hne, hds, hval⟩ := toDigits_spec n
  refine ⟨?_, toNumber_small n⟩
  rw [parseDamage_forward_digits _ hne hds c v hc hv, hval]

theorem parseDamage_forward_witness :
    "tgh".toList ∈ characteristicTags ∧ "TgH".toList.map lowerAscii = "tgh".toList ∧
      parseDamage "12+TgH".toList = { base := Num.fin 12, characteristic := "tgh".toList } :=
  ⟨by decide, by decide,
    (parseDamage_forward 12 "tgh".toList "TgH".toList (by decide) (by decide)).1.trans
      (by decide)⟩

/-- C8 (counterexample): `9007199254740993+str`, the decimal notation of
`2^53 + 1`, gets the base `9007199254740992`. -/
theorem parseDamage_forward_rounds :
    parseDamage (Nat.toDigits 10 9007199254740993 ++ '+' :: "str".toList) =
        { base := Num.fin 9007199254740992, characteristic := "str".toList } ∧
      Nat.toDigits 10 9007199254740993 ++ '+' :: "str".toList =
        "9007199254740993+str".toList ∧
      Num.fin 9007199254740992 ≠ Num.fin 9007199254740993 := by
  decide

theorem digitsGroup_final (i : Nat) (cap : Option Str) (prev : Option Char) (ds : Str)
    (hne : ds ≠ []) (hds : ∀ c ∈ ds, isDigit c = true) :
    Re.digitsGroup.run (fun cap p r => some (Match.mk i cap p r)) cap prev ds =
      some (Match.mk i (some ds) (lastOr prev ds) []) := by
  have hlen : 1 ≤ ds.length := by
    cases ds with
    | nil => exact absurd rfl hne
    | cons d ds => simp
  have h := manyRun_greedy isDigit
    (fun p1 r1 => some (Match.mk i (some (List.take (List.length ds - List.length r1) ds)) p1 r1))
    [] (by intro c t e; cases e) (Match.mk i (some ds) (lastOr prev ds) []) ds hds 1 prev hlen
    (by simp)
  rw [List.append_nil] at h
  simp only [Re.run, Re.digitsGroup]
  exact h

theorem bol_search_some (x : Re) (s : Str) :
    ∀ (i : Nat) (c : Char), (Re.seq Re.bol x).search i (some c) s = none := by
  induction s with
  | nil => intro i c; simp [Re.search, Re.matchHere, Re.run]
  | cons d ds ih =>
    intro i c
    have h : (Re.seq Re.bol x).matchHere i (some c) (d :: ds) = none := by
      simp [Re.matchHere, Re.run]
    simp only [Re.search, h]
    exact ih (i + 1) d

/-- The expression `^(\d+)` on a text of digits. -/
theorem flat_exec_digits (ds : Str) (hne : ds ≠ []) (hds : ∀ c ∈ ds, isDigit c = true) :
    (Re.cat [Re.bol, Re.digitsGroup]).exec ds = some (Match.mk 0 (some ds) (lastOr none ds) []) := by
  have hm : (Re.seq Re.bol Re.digitsGroup).matchHere 0 none ds =
      some (Match.mk 0 (some ds) (lastOr none ds) []) := by
    simp only [Re.matchHere, Re.run, Option.isNone_none, if_true]
    exact digitsGroup_final 0 none none ds hne hds
  show (Re.seq Re.bol Re.digitsGroup).search 0 none ds = _
  cases ds with
  | nil => exact absurd rfl hne
  | cons d ds => simp only [Re.search, hm]

/-- The expression `^(\d+)` on a text that does not begin with a digit. -/
theorem flat_exec_none (c : Char) (t : Str) (hc : isDigit c = false) :
    (Re.cat [Re.bol, Re.digitsGroup]).exec (c :: t) = none := by
  have hm : (Re.seq Re.bol Re.digitsGroup).matchHere 0 none (c :: t) = none := by
    simp [Re.matchHere, Re.run, Re.digitsGroup, manyRun, hc]
  show (Re.seq Re.bol Re.digitsGroup).search 0 none (c :: t) = _
  simp only [Re.search, hm]
  exact bol_search_some _ t 1 c

theorem damageReversed_eq (w : String) :
    damageReversed w = Re.seq (Re.word w) (Re.seq (Re.char '+') Re.digitsGroup) := rfl

theorem reversed_str_needsFirst :
    (damageReversed "str").NeedsFirst (fun c => lowerAscii c == 's') := by
  intro α k cap prev
  constructor
  · simp [damageReversed_eq, Re.word, Re.cat, Re.run, Re.ci]
  · intro c t hc
    have : ¬ lowerAscii c = 's' := by simpa using hc
    have e : lowerAscii 's' = 's' := by decide
    simp [damageReversed_eq, Re.word, Re.cat, Re.run, Re.ci, e, this]

theorem reversed_ag_needsFirst :
    (damageReversed "ag").NeedsFirst (fun c => lowerAscii c == 'a') := by
  intro α k cap prev
  constructor
  · simp [damageReversed_eq, Re.word, Re.cat, Re.run, Re.ci]
  · intro c t hc
    have : ¬ lowerAscii c = 'a' := by simpa using hc
    have e : lowerAscii 'a' = 'a' := by decide
    simp [damageReversed_eq, Re.word, Re.cat, Re.run, Re.ci, e, this]

theorem isDigit_not_letter (c : Char) (h : isDigit c = true) :
    (lowerAscii c == 's') = false ∧ (lowerAscii c == 'a') = false := by
  rw [isDigit_lowerAscii c h]
  constructor
  · simpa using isDigit_ne c 's' h (by decide)
  · simpa using isDigit_ne c 'a' h (by decide)

/-- No pattern of the table matches in a text of digits. -/
theorem damageScan_digits (ds : Str) (hds : ∀ c ∈ ds, isDigit c = true) :
    damageScan ds damagePatterns = (Num.fin 0, []) := by
  have hfwd : ∀ (u : String) (tag : Str) (rest : List (Re × Str)),
      damageScan ds ((damageForward u, tag) :: rest) = damageScan ds rest := by
    intro u tag rest
    have h := damageScan_forward_miss u tag rest ds [] hds (by intro c hc; cases hc)
      (by intro i cap q; simp [Re.run, Re.char])
    rw [List.append_nil] at h
    exact h
  have hstr : (damageReversed "str").exec ds = none :=
    Re.search_needsFirst _ _ reversed_str_needsFirst ds
      (fun c hc => (isDigit_not_letter c (hds c hc)).1) 0 none
  have hag : (damageReversed "ag").exec ds = none :=
    Re.search_needsFirst _ _ reversed_ag_needsFirst ds
      (fun c hc => (isDigit_not_letter c (hds c hc)).2) 0 none
  unfold damagePatterns
  rw [hfwd, hfwd, hfwd, hfwd, hfwd, hfwd, hfwd]
  simp only [damageScan, hstr, hag]

/-- C9 (as amended): for every non-empty string of decimal digits,
`parseDamage` returns no characteristic and as base the double nearest to the
integer the string denotes, which is that integer itself when it is below
`2^53`. -/
theorem parseDamage_digits (s : Str) (hne : s ≠ []) (hds : ∀ c ∈ s, isDigit c = true) :
    parseDamage s = { base := toNumber (digitsValue s), characteristic := [] } ∧
      (digitsValue s < 2 ^ 53 → toNumber (digitsValue s) = Num.fin (digitsValue s)) := by
  refine ⟨?_, toNumber_small _⟩
  have hclean : toLowerCase (s.filter (fun c => !isWhiteSpace c)) = s :=
    clean_eq s s (map_lowerAscii_digits s hds)
      (fun c hc => ⟨isDigit_ascii c (hds c hc), isDigit_not_ws c (hds c hc)⟩)
  have hempty : s.isEmpty = false := by
    cases s with
    | nil => exact absurd rfl hne
    | cons d s => rfl
  unfold parseDamage
  rw [hempty]
  simp only [Bool.false_eq_true, if_false, hclean, damageScan_digits s hds,
    flat_exec_digits s hne hds, List.isEmpty_nil, if_true]
  rw [capturedInt_digits 0 _ [] s hne hds]

theorem parseDamage_digits_witness :
    "7".toList ≠ [] ∧ (∀ c ∈ "7".toList, isDigit c = true) ∧
      parseDamage "7".toList = { base := Num.fin 7, characteristic := [] } :=
  ⟨by decide, by decide,
    (parseDamage_digits "7".toList (by decide) (by decide)).1.trans (by decide)⟩

/-- C9 (counterexample): the digit string `9007199254740993` gets the base
`9007199254740992`, not the integer it denotes. -/
theorem parseDamage_digits_rounds :
    "9007199254740993".toList ≠ [] ∧ (∀ c ∈ "9007199254740993".toList, isDigit c = true) ∧
      digitsValue "9007199254740993".toList = 9007199254740993 ∧
      parseDamage "9007199254740993".toList =
        { base := Num.fin 9007199254740992, characteristic := [] } ∧
      Num.fin 9007199254740992 ≠ Num.fin 9007199254740993 := by
  decide

theorem damageScan_forward_miss_pre (u : String) (tag : Str) (rest : List (Re × Str))
    (pre ds : Str) (hpre : ∀ c ∈ pre, isDigit c = false) (hds : ∀ c ∈ ds, isDigit c = true) :
    damageScan (pre ++ ds) ((damageForward u, tag) :: rest) = damageScan (pre ++ ds) rest := by
  have hskip := Re.search_skip (damageForward u) ds pre
    (by
      intro t ht hs i prev
      cases t with
      | nil => exact absurd rfl ht
      | cons c t =>
        have hc : isDigit c = false := hpre c (hs.subset (List.mem_cons_self _ _))
        rw [damageForward_eq]
        exact ((digitsGroup_needsFirst _) Match _ none prev).2 c (t ++ ds) hc)
    0 none
  have hnone := forward_search_none (Re.word u) ds [] hds (by intro c hc; cases hc)
    (by intro i cap q; simp [Re.run, Re.char]) (0 + pre.length) (lastOr none pre)
  rw [List.append_nil, ← damageForward_eq] at hnone
  have hexec : (damageForward u).exec (pre ++ ds) = none := by
    unfold Re.exec
    rw [hskip, hnone]
  simp only [damageScan, hexec]

theorem reversed_str_hit (ds : Str) (hne : ds ≠ []) (hds : ∀ c ∈ ds, isDigit c = true) :
    (damageReversed "str").exec ("str".toList ++ '+' :: ds) =
      some (Match.mk 0 (some ds) (lastOr (some '+') ds) []) := by
  have hm : (damageReversed "str").matchHere 0 none ('s' :: 't' :: 'r' :: '+' :: ds) =
      Re.digitsGroup.run (fun cap p r => some (Match.mk 0 cap p r)) none (some '+') ds := rfl
  rw [digitsGroup_final 0 none (some '+') ds hne hds] at hm
  show (damageReversed "str").search 0 none ('s' :: 't' :: 'r' :: '+' :: ds) = _
  simp only [Re.search, hm]

theorem reversed_ag_hit (ds : Str) (hne : ds ≠ []) (hds : ∀ c ∈ ds, isDigit c = true) :
    (damageReversed "ag").exec ("ag".toList ++ '+' :: ds) =
      some (Match.mk 0 (some ds) (lastOr (some '+') ds) []) := by
  have hm : (damageReversed "ag").matchHere 0 none ('a' :: 'g' :: '+' :: ds) =
      Re.digitsGroup.run (fun cap p r => some (Match.mk 0 cap p r)) none (some '+') ds := rfl
  rw [digitsGroup_final 0 none (some '+') ds hne hds] at hm
  show (damageReversed "ag").search 0 none ('a' :: 'g' :: '+' :: ds) = _
  simp only [Re.search, hm]

theorem tags_no_digit :
    ∀ c ∈ characteristicTags, ∀ x ∈ c ++ ['+'], isDigit x = false := by
  decide

theorem tags_lower :
    ∀ c ∈ characteristicTags, (c ++ ['+']).map lowerAscii = c ++ ['+'] ∧
      ∀ x ∈ c ++ ['+'], x.toNat < 128 ∧ isWhiteSpace x = false := by
  decide

theorem tags_without_s :
    ∀ c ∈ "ag".toList :: forwardOnlyTags, ∀ x ∈ c ++ ['+'], (lowerAscii x == 's') = false := by
  decide

theorem tags_without_a :
    ∀ c ∈ forwardOnlyTags, ∀ x ∈ c ++ ['+'], (lowerAscii x == 'a') = false := by
  decide

/-- The seven forward patterns do not match in `<tag>+<digits>`. -/
theorem damageScan_reversed_text (pre ds : Str) (hpre : ∀ c ∈ pre, isDigit c = false)
    (hds : ∀ c ∈ ds, isDigit c = true) :
    damageScan (pre ++ ds) damagePatterns =
      damageScan (pre ++ ds)
        [(damageReversed "str", "str".toList), (damageReversed "ag", "ag".toList)] := by
  unfold damagePatterns
  rw [damageScan_forward_miss_pre _ _ _ pre ds hpre hds,
    damageScan_forward_miss_pre _ _ _ pre ds hpre hds,
    damageScan_forward_miss_pre _ _ _ pre ds hpre hds,
    damageScan_forward_miss_pre _ _ _ pre ds hpre hds,
    damageScan_forward_miss_pre _ _ _ pre ds hpre hds,
    damageScan_forward_miss_pre _ _ _ pre ds hpre hds,
    damageScan_forward_miss_pre _ _ _ pre ds hpre hds]

theorem clean_reversed (c ds : Str) (hc : c ∈ characteristicTags)
    (hds : ∀ x ∈ ds, isDigit x = true) :
    toLowerCase (((c ++ ['+']) ++ ds).filter (fun x => !isWhiteSpace x)) = (c ++ ['+']) ++ ds := by
  obtain ⟨h1, h2⟩ := tags_lower c hc
  apply clean_eq
  · rw [List.map_append, h1, map_lowerAscii_digits ds hds]
  · intro x hx
    rcases List.mem_append.mp hx with hx | hx
    · exact h2 x hx
    · exact ⟨isDigit_ascii x (hds x hx), isDigit_not_ws x (hds x hx)⟩

theorem parseDamage_reversed_hit (ds : Str) (hne : ds ≠ []) (hds : ∀ c ∈ ds, isDigit c = true)
    (c : Str) (hc : c ∈ reversedTags) :
    parseDamage (c ++ '+' :: ds) = { base := toNumber (digitsValue ds), characteristic := c } := by
  have hmem : c ∈ characteristicTags := by
    revert c
    decide
  have hsplit : c ++ '+' :: ds = (c ++ ['+']) ++ ds := by simp
  have hclean := clean_reversed c ds hmem hds
  have hscan0 := damageScan_reversed_text (c ++ ['+']) ds (tags_no_digit c hmem) hds
  have hempty : ((c ++ ['+']) ++ ds).isEmpty = false := by
    cases c <;> rfl
  have hscan : damageScan ((c ++ ['+']) ++ ds) damagePatterns =
      (toNumber (digitsValue ds), c) := by
    rw [hscan0]
    simp only [reversedTags, List.mem_cons, List.mem_singleton, List.not_mem_nil,
      or_false] at hc
    rcases hc with rfl | rfl
    · have hx := reversed_str_hit ds hne hds
      rw [show "str".toList ++ '+' :: ds = ("str".toList ++ ['+']) ++ ds by simp] at hx
      simp only [damageScan, hx]
      rw [capturedInt_digits 0 _ [] ds hne hds]
    · have hs : (damageReversed "str").exec (("ag".toList ++ ['+']) ++ ds) = none := by
        apply Re.search_needsFirst _ _ reversed_str_needsFirst
        intro x hx
        rcases List.mem_append.mp hx with hx | hx
        · exact tags_without_s "ag".toList (by decide) x hx
        · exact (isDigit_not_letter x (hds x hx)).1
      have hx := reversed_ag_hit ds hne hds
      rw [show "ag".toList ++ '+' :: ds = ("ag".toList ++ ['+']) ++ ds by simp] at hx
      simp only [damageScan, hs, hx]
      rw [capturedInt_digits 0 _ [] ds hne hds]
  have htag : c.isEmpty = false := by
    cases c with
    | nil => exact absurd hc (by decide)
    | cons a c => rfl
  rw [hsplit]
  unfold parseDamage
  rw [hempty]
  simp only [Bool.false_eq_true, if_false, hclean, hscan, htag]

theorem parseDamage_reversed_miss (ds : Str) (hds : ∀ c ∈ ds, isDigit c = true)
    (c : Str) (hc : c ∈ forwardOnlyTags) :
    parseDamage (c ++ '+' :: ds) = { base := Num.fin 0, characteristic := [] } := by
  have hmem : c ∈ characteristicTags := by
    revert c
    decide
  have hsplit : c ++ '+' :: ds = (c ++ ['+']) ++ ds := by simp
  have hclean := clean_reversed c ds hmem hds
  have hscan0 := damageScan_reversed_text (c ++ ['+']) ds (tags_no_digit c hmem) hds
  have hempty : ((c ++ ['+']) ++ ds).isEmpty = false := by
    cases c <;> rfl
  have hs : (damageReversed "str").exec ((c ++ ['+']) ++ ds) = none := by
    apply Re.search_needsFirst _ _ reversed_str_needsFirst
    intro x hx
    rcases List.mem_append.mp hx with hx | hx
    · exact tags_without_s c (List.mem_cons_of_mem _ hc) x hx
    · exact (isDigit_not_letter x (hds x hx)).1
  have ha : (damageReversed "ag").exec ((c ++ ['+']) ++ ds) = none := by
    apply Re.search_needsFirst _ _ reversed_ag_needsFirst
    intro x hx
    rcases List.mem_append.mp hx with hx | hx
    · exact tags_without_a c hc x hx
    · exact (isDigit_not_letter x (hds x hx)).2
  have hscan : damageScan ((c ++ ['+']) ++ ds) damagePatterns = (Num.fin 0, []) := by
    rw [hscan0]
    simp only [damageScan, hs, ha]
  have hflat : (Re.cat [Re.bol, Re.digitsGroup]).exec ((c ++ ['+']) ++ ds) = none := by
    cases c with
    | nil => exact absurd hc (by decide)
    | cons a c =>
      exact flat_exec_none a _ (tags_no_digit (a :: c) hmem a (by simp))
  rw [hsplit]
  unfold parseDamage
  rw [hempty]
  simp only [Bool.false_eq_true, if_false, hclean, hscan, hflat, List.isEmpty_nil, if_true]

/-- C10 (as amended): of the reversed forms `<c>+<n>` only those of str and ag
are recognized; for them `parseDamage` returns the tag `c` and as base the
double nearest to `n` (`n` itself below `2^53`); for int, wil, fel, per and
tgh the reversed form gives base 0 and no characteristic. -/
theorem parseDamage_reversed (n : Nat) :
    (∀ c ∈ reversedTags, parseDamage (c ++ '+' :: Nat.toDigits 10 n) =
      { base := toNumber n, characteristic := c }) ∧
    (∀ c ∈ forwardOnlyTags, parseDamage (c ++ '+' :: Nat.toDigits 10 n) =
      { base := Num.fin 0, characteristic := [] }) ∧
    (n < 2 ^ 53 → toNumber n = Num.fin n) := by
  obtain ⟨hne, hds, hval⟩ := toDigits_spec n
  refine ⟨?_, ?_, toNumber_small n⟩
  · intro c hc
    rw [parseDamage_reversed_hit _ hne hds c hc, hval]
  · intro c hc
    exact parseDamage_reversed_miss _ hds c hc

theorem parseDamage_reversed_witness :
    "ag".toList ∈ reversedTags ∧ "wil".toList ∈ forwardOnlyTags ∧
      parseDamage "ag+5".toList = { base := Num.fin 5, characteristic := "ag".toList } ∧
      parseDamage "wil+5".toList = { base := Num.fin 0, characteristic := [] } :=
  ⟨by decide, by decide,
    ((parseDamage_reversed 5).1 "ag".toList (by decide)).trans (by decide),
    (parseDamage_reversed 5).2.1 "wil".toList (by decide)⟩

/-- C10 (counterexample): the reversed form `int+5` is not recognized:
`parseDamage` returns base 0 and no characteristic instead of base 5 and the
tag `int`. -/
theorem parseDamage_reversed_int :
    parseDamage ("int".toList ++ '+' :: Nat.toDigits 10 5) =
        { base := Num.fin 0, characteristic := [] } ∧
      "int".toList ++ '+' :: Nat.toDigits 10 5 = "int+5".toList ∧
      ({ base := Num.fin 0, characteristic := [] } : DamageSpec) ≠
        { base := Num.fin 5, characteristic := "int".toList } := by
  decide

/-! ## The fallback of `parseDamage` -/

theorem lowerAscii_not_digit (c : Char) (h : isDigit c = false) :
    isDigit (lowerAscii c) = false := by
  unfold lowerAscii
  split
  · rename_i hcap
    have hc : Char.ofNat c.toNat = c := Char.ofNat_toNat c
    obtain ⟨h1, h2⟩ := hcap
    generalize c.toNat = n at h1 h2 hc
    interval_cases n <;> decide
  · exact h

theorem lowerChar_not_digit (c : Char) (h : isDigit c = false) :
    ∀ x ∈ lowerChar c, isDigit x = false := by
  unfold lowerChar
  split
  · decide
  · split
    · decide
    · intro x hx
      rw [List.mem_singleton.mp hx]
      exact lowerAscii_not_digit c h

theorem lowerChar_ne_nil (c : Char) : lowerChar c ≠ [] := by
  unfold lowerChar
  split
  · simp
  · split <;> simp

theorem beginsWithDigit_toLowerCase (x : Str) (h : beginsWithDigit x = false) :
    beginsWithDigit (toLowerCase x) = false := by
  cases x with
  | nil => rfl
  | cons c t =>
    have hc : isDigit c = false := h
    simp only [toLowerCase]
    cases hl : lowerChar c with
    | nil => exact absurd hl (lowerChar_ne_nil c)
    | cons a l =>
      show isDigit a = false
      exact lowerChar_not_digit c hc a (by rw [hl]; exact List.mem_cons_self _ _)

theorem flat_exec_no_digit (t : Str) (h : beginsWithDigit t = false) :
    (Re.cat [Re.bol, Re.digitsGroup]).exec t = none := by
  cases t with
  | nil => decide
  | cons c t => exact flat_exec_none c t h

theorem damageScan_none (cleaned : Str) (table : List (Re × Str))
    (h : ∀ p ∈ table, p.1.exec cleaned = none) :
    damageScan cleaned table = (Num.fin 0, []) := by
  induction table with
  | nil => rfl
  | cons p ps ih =>
    obtain ⟨re, tag⟩ := p
    have h1 : re.exec cleaned = none := h (re, tag) (List.mem_cons_self _ _)
    simp only [damageScan, h1]
    exact ih (fun q hq => h q (List.mem_cons_of_mem _ hq))

/-- C11 (as amended): for every non-empty damage string in which no
characteristic pattern matches and which does not begin with a decimal digit
after white space removal, `parseDamage` returns base 0 with no characteristic;
the empty string is answered by the guard at the head of the function: base
0 with the characteristic `str`. -/
theorem parseDamage_fallback :
    (∀ s : Str, s ≠ [] →
      (∀ p ∈ damagePatterns, p.1.exec (cleanedDamage s) = none) →
      beginsWithDigit (s.filter (fun c => !isWhiteSpace c)) = false →
      parseDamage s = { base := Num.fin 0, characteristic := [] }) ∧
    parseDamage [] = { base := Num.fin 0, characteristic := "str".toList } := by
  refine ⟨?_, rfl⟩
  intro s hne hpat hdig
  have hempty : s.isEmpty = false := by
    cases s with
    | nil => exact absurd rfl hne
    | cons c t => rfl
  have hscan := damageScan_none _ damagePatterns hpat
  have hflat := flat_exec_no_digit _ (beginsWithDigit_toLowerCase _ hdig)
  unfold cleanedDamage at hscan
  unfold parseDamage
  rw [hempty]
  simp only [Bool.false_eq_true, if_false, hscan, hflat, List.isEmpty_nil, if_true]

theorem parseDamage_fallback_witness :
    "d10 + x".toList ≠ [] ∧
      (∀ p ∈ damagePatterns, p.1.exec (cleanedDamage "d10 + x".toList) = none) ∧
      beginsWithDigit ("d10 + x".toList.filter (fun c => !isWhiteSpace c)) = false ∧
      parseDamage "d10 + x".toList = { base := Num.fin 0, characteristic := [] } :=
  ⟨by decide, by decide, by decide,
    parseDamage_fallback.1 "d10 + x".toList (by decide) (by decide) (by decide)⟩

/-- C11 (counterexample): in the empty string no characteristic pattern
matches and there is no leading digit, yet `parseDamage` returns the
characteristic `str`. -/
theorem parseDamage_empty_str :
    (∀ p ∈ damagePatterns, p.1.exec (cleanedDamage []) = none) ∧
      beginsWithDigit (([] : Str).filter (fun c => !isWhiteSpace c)) = false ∧
      parseDamage [] = { base := Num.fin 0, characteristic := "str".toList } ∧
      parseDamage [] ≠ { base := Num.fin 0, characteristic := [] } := by
  decide

/-! ## `parseNumber` and `parseMagazine` -/

theorem trimStart_of_no_ws (t : Str) (h : ∀ c ∈ t, isWhiteSpace c = false) : trimStart t = t := by
  cases t with
  | nil => rfl
  | cons c t => exact trimStart_of_head c t (h c (List.mem_cons_self _ _))

theorem cleanNumber_no_ws (s : Str) :
    ∀ c ∈ (s.filter (fun c => !(c == ',' || isWhiteSpace c))).map
      (fun c => if c == Char.ofNat 0x2212 then '-' else c), isWhiteSpace c = false := by
  intro c hc
  rw [List.mem_map] at hc
  obtain ⟨a, ha, hac⟩ := hc
  rw [List.mem_filter] at ha
  have hws : isWhiteSpace a = false := by
    have := ha.2
    simp only [Bool.not_eq_true', Bool.or_eq_false_iff] at this
    exact this.2
  split at hac
  · rw [← hac]
    decide
  · rw [← hac]
    exact hws

theorem Num.ofInt_neg_natCast (v : Nat) : Num.ofInt (-(v : Int)) = (toNumber v).neg := by
  unfold Num.ofInt
  by_cases hv : v = 0
  · subst hv
    decide
  · have hlt : (-(v : Int)) < 0 := by omega
    rw [if_pos hlt]
    congr 2
    omega

theorem Num.ofInt_natCast (v : Nat) : Num.ofInt (v : Int) = toNumber v := by
  unfold Num.ofInt
  rw [if_neg (by omega)]
  rfl

theorem Num.ofInt_exact (z : Int) (h : z.natAbs < 2 ^ 53) : Num.ofInt z = Num.fin z := by
  unfold Num.ofInt
  rw [toNumber_small _ h]
  split
  · simp only [Num.neg]
    congr 1
    omega
  · congr 1
    omega

theorem parseInt_signedInteger (t : Str) (hws : ∀ c ∈ t, isWhiteSpace c = false) :
    ∀ o : Option Num, parseInt t = o →
      (match o with
        | none => Num.fin 0
        | some num => num) = Num.ofInt (signedInteger t) := by
  have h0 : Num.ofInt 0 = Num.fin 0 := by decide
  intro o ho
  unfold parseInt at ho
  rw [trimStart_of_no_ws t hws] at ho
  split at ho
  · rename_i r
    simp only [signedInteger]
    by_cases h : (takeDigits r).isEmpty = true
    · simp only [h, if_true] at ho ⊢
      subst ho
      exact h0.symm
    · simp only [h, if_false, Bool.false_eq_true] at ho ⊢
      subst ho
      exact (Num.ofInt_neg_natCast _).symm
  · rename_i r
    simp only [signedInteger]
    by_cases h : (takeDigits r).isEmpty = true
    · simp only [h, if_true] at ho ⊢
      subst ho
      exact h0.symm
    · simp only [h, if_false, Bool.false_eq_true] at ho ⊢
      subst ho
      exact (Num.ofInt_natCast _).symm
  · rename_i r h1 h2
    have hs : signedInteger t =
        if (takeDigits t).isEmpty then 0 else (digitsValue (takeDigits t) : Int) := by
      rw [signedInteger.eq_3 t h1 h2]
    rw [hs]
    by_cases h : (takeDigits t).isEmpty = true
    · simp only [h, if_true] at ho ⊢
      subst ho
      exact h0.symm
    · simp only [h, if_false, Bool.false_eq_true] at ho ⊢
      subst ho
      exact (Num.ofInt_natCast _).symm

theorem parseNumber_eq_ref (s : Str) : parseNumber s = Num.ofInt (parseNumberRef s) := by
  by_cases hs : s = []
  · subst hs
    decide
  · have hempty : s.isEmpty = false := by
      cases s with
      | nil => exact absurd rfl hs
      | cons c t => rfl
    unfold parseNumber parseNumberRef
    rw [hempty]
    simp only [Bool.false_eq_true, if_false]
    exact parseInt_signedInteger _ (cleanNumber_no_ws s) _ rfl

/-- C13 (as amended): `parseNumber` is total and equals the JavaScript number
nearest to the reference integer (commas and white space deleted, U+2212
replaced by `-`, then an optional sign and the longest run of digits, 0 when
there is none); it is the reference integer itself whenever that is below
`2^53` in magnitude.  In particular `1,250` gives 1250, `−3` gives -3 and `-`
gives 0. -/
theorem parseNumber_reference :
    (∀ s : Str, parseNumber s = Num.ofInt (parseNumberRef s)) ∧
    (∀ s : Str, (parseNumberRef s).natAbs < 2 ^ 53 →
      parseNumber s = Num.fin (parseNumberRef s)) ∧
    parseNumber "1,250".toList = Num.fin 1250 ∧
    parseNumber [Char.ofNat 0x2212, '3'] = Num.fin (-3) ∧
    parseNumber "-".toList = Num.fin 0 := by
  refine ⟨parseNumber_eq_ref, ?_, by decide, by decide, by decide⟩
  intro s h
  rw [parseNumber_eq_ref, Num.ofInt_exact _ h]

theorem parseNumber_reference_witness :
    (parseNumberRef " 1,250 ".toList).natAbs < 2 ^ 53 ∧
      parseNumberRef " 1,250 ".toList = 1250 ∧
      parseNumber " 1,250 ".toList = Num.fin 1250 :=
  ⟨by decide, by decide,
    (parseNumber_reference.2.1 " 1,250 ".toList (by decide)).trans (by decide)⟩

/-- C13 (counterexample): for `9007199254740993` the reference integer is
`2^53 + 1`, but `parseNumber` returns `9007199254740992`. -/
theorem parseNumber_rounds :
    parseNumberRef "9007199254740993".toList = 9007199254740993 ∧
      parseNumber "9007199254740993".toList = Num.fin 9007199254740992 ∧
      Num.fin 9007199254740992 ≠ Num.fin 9007199254740993 := by
  decide

theorem toNumber_not_negative (n : Nat) : (toNumber n).isNegative = false := by
  unfold toNumber
  simp only
  split_ifs <;>
    first
    | rfl
    | (simp only [Num.isNegative, decide_eq_false_iff_not, not_lt]; positivity)

theorem filter_isDigit_all (s : Str) : ∀ c ∈ s.filter isDigit, isDigit c = true := by
  intro c hc
  exact (List.mem_filter.mp hc).2

theorem parseMagazine_eq (s : Str) :
    parseMagazine s =
      (toNumber (digitsValue (s.filter isDigit)), toNumber (digitsValue (s.filter isDigit))) := by
  unfold parseMagazine
  split
  · rename_i hs
    have : s = [] := by simpa using hs
    subst this
    decide
  · simp only
    cases hf : s.filter isDigit with
    | nil => decide
    | cons d ds =>
      have hall : ∀ c ∈ d :: ds, isDigit c = true := by
        rw [← hf]
        exact filter_isDigit_all s
      rw [parseInt_digits (d :: ds) (by simp) hall]
      simp only [toNumber_not_negative, Bool.false_eq_true, if_false]

/-- C16 (as amended): `parseMagazine` returns current load = capacity, where
the capacity is the JavaScript number nearest to the non-negative integer
whose decimal digits are the digit characters of the text in order, every
other character deleted: the integer itself when it is below `2^53`, and 0
when the text has no digit. -/
theorem parseMagazine_digits :
    (∀ s : Str, parseMagazine s =
      (toNumber (digitsValue (s.filter isDigit)),
        toNumber (digitsValue (s.filter isDigit)))) ∧
    (∀ s : Str, digitsValue (s.filter isDigit) < 2 ^ 53 →
      parseMagazine s =
        (Num.fin (digitsValue (s.filter isDigit)), Num.fin (digitsValue (s.filter isDigit)))) ∧
    (∀ s : Str, s.filter isDigit = [] → parseMagazine s = (Num.fin 0, Num.fin 0)) := by
  refine ⟨parseMagazine_eq, ?_, ?_⟩
  · intro s h
    rw [parseMagazine_eq, toNumber_small _ h]
  · intro s h
    rw [parseMagazine_eq, h]
    decide

theorem parseMagazine_digits_witness :
    digitsValue ("30 rds".toList.filter isDigit) < 2 ^ 53 ∧
      parseMagazine "30 rds".toList = (Num.fin 30, Num.fin 30) ∧
      "-".toList.filter isDigit = [] ∧ parseMagazine "-".toList = (Num.fin 0, Num.fin 0) :=
  ⟨by decide, (parseMagazine_digits.2.1 "30 rds".toList (by decide)).trans (by decide),
    by decide, parseMagazine_digits.2.2 "-".toList (by decide)⟩

/-- C16 (counterexample): the digits of `9007199254740993` denote `2^53 + 1`,
but the capacity returned is `9007199254740992`. -/
theorem parseMagazine_rounds :
    digitsValue ("9007199254740993".toList.filter isDigit) = 9007199254740993 ∧
      parseMagazine "9007199254740993".toList =
        (Num.fin 9007199254740992, Num.fin 9007199254740992) ∧
      Num.fin 9007199254740992 ≠ Num.fin 9007199254740993 := by
  decide

/-- C17 (the code at the failing input): the magazine text `-5` denotes a
negative number, but the minus sign is deleted with the other non-digits
before `parseInt`, so the capacity and the current load are 5, not 0. -/
theorem parseMagazine_minus_five :
    parseMagazine "-5".toList = (Num.fin 5, Num.fin 5) ∧
      parseMagazine "-5".toList ≠ (Num.fin 0, Num.fin 0) := by
  decide

/-! ## `parseAvailability`, `parseSpec` and `parseLocations` -/

theorem parseAvailability_mem (s : Str) : parseAvailability s ∈ availabilityTiers := by
  unfold parseAvailability
  simp only
  split_ifs <;> decide

/-- C14: each of the seven tier names is returned unchanged by
`parseAvailability`; consequently `parseAvailability` is idempotent. -/
theorem parseAvailability_idempotent :
    (∀ x ∈ availabilityTiers, parseAvailability x = x) ∧
    (∀ s : Str, parseAvailability (parseAvailability s) = parseAvailability s) := by
  have h : ∀ x ∈ availabilityTiers, parseAvailability x = x := by decide
  exact ⟨h, fun s => h _ (parseAvailability_mem s)⟩

theorem parseAvailability_idempotent_witness :
    "rare".toList ∈ availabilityTiers ∧ parseAvailability "rare".toList = "rare".toList ∧
      parseAvailability (parseAvailability "Very Rare!".toList) =
        parseAvailability "Very Rare!".toList :=
  ⟨by decide, parseAvailability_idempotent.1 "rare".toList (by decide),
    parseAvailability_idempotent.2 "Very Rare!".toList⟩

theorem startsWith_iff (s p : Str) : startsWith s p = true ↔ p <+: s := by
  induction p generalizing s with
  | nil => simp [startsWith]
  | cons a p ih =>
    cases s with
    | nil => simp [startsWith]
    | cons c s =>
      simp only [startsWith, Bool.and_eq_true, beq_iff_eq, ih]
      rw [List.cons_prefix_cons]
      constructor
      · rintro ⟨h1, h2⟩; exact ⟨h1.symm, h2⟩
      · rintro ⟨h1, h2⟩; exact ⟨h1.symm, h2⟩

theorem includes_iff (s sub : Str) : includes s sub = true ↔ sub <:+: s := by
  induction s with
  | nil =>
    simp only [includes, startsWith_iff]
    constructor
    · intro h; exact h.isInfix
    · intro h
      have : sub = [] := List.eq_nil_of_infix_nil h
      rw [this]
  | cons c s ih =>
    simp only [includes, Bool.or_eq_true, startsWith_iff, ih]
    rw [List.infix_cons_iff]

theorem includes_trimStart (l kw : Str) (k : Char) (ks : Str) (hk : kw = k :: ks)
    (hws : isWhiteSpace k = false) : includes (trimStart l) kw = includes l kw := by
  induction l with
  | nil => rfl
  | cons c cs ih =>
    simp only [trimStart]
    split
    · rename_i hc
      rw [ih]
      have hne : (c == k) = false := by
        simp only [beq_eq_false_iff_ne]
        intro e
        rw [e, hws] at hc
        cases hc
      subst hk
      simp [includes, startsWith, hne]
    · rfl

theorem includes_reverse (l kw : Str) : includes l.reverse kw.reverse = includes l kw := by
  rw [Bool.eq_iff_iff, includes_iff, includes_iff, List.reverse_infix]

/-- Trimming a text does not change whether it contains a keyword that begins
and ends with a character other than white space. -/
theorem includes_trim (l kw : Str) (k : Char) (ks : Str) (hk : kw = k :: ks)
    (hws : isWhiteSpace k = false) (e : Char) (es : Str) (he : kw.reverse = e :: es)
    (hwe : isWhiteSpace e = false) : includes (trim l) kw = includes l kw := by
  unfold trim trimEnd
  rw [← includes_reverse, List.reverse_reverse, includes_trimStart _ _ e es he hwe,
    includes_reverse, includes_trimStart _ _ k ks hk hws]

theorem specKeywords_ends :
    ∀ kw ∈ specKeywords, ∃ k ks e es, kw = k :: ks ∧ isWhiteSpace k = false ∧
      kw.reverse = e :: es ∧ isWhiteSpace e = false := by
  intro kw h
  simp only [specKeywords, List.mem_cons, List.mem_singleton, List.not_mem_nil, or_false] at h
  rcases h with rfl | rfl | rfl | rfl | rfl | rfl | rfl | rfl | rfl | rfl | rfl <;>
    exact ⟨_, _, _, _, rfl, by decide, rfl, by decide⟩

theorem includes_trim_keyword (l kw : Str) (h : kw ∈ specKeywords) :
    includes (trim l) kw = includes l kw := by
  obtain ⟨k, ks, e, es, hk, hws, he, hwe⟩ := specKeywords_ends kw h
  exact includes_trim l kw k ks hk hws e es he hwe

/-- The function `parseSpec` with the keyword tests made on the lower-cased
text itself (trimming does not change them). -/
theorem parseSpec_eq (s type : Str) :
    parseSpec s type =
      if s.isEmpty then specDefault type
      else if includes (toLowerCase s) "one-handed".toList ||
          includes (toLowerCase s) "one handed".toList then "oneHanded".toList
      else if includes (toLowerCase s) "two-handed".toList ||
          includes (toLowerCase s) "two handed".toList then "twoHanded".toList
      else if includes (toLowerCase s) "brawling".toList then "brawling".toList
      else if includes (toLowerCase s) "pistol".toList then "pistol".toList
      else if includes (toLowerCase s) "long gun".toList ||
          includes (toLowerCase s) "longgun".toList then "longGun".toList
      else if includes (toLowerCase s) "ordnance".toList then "ordnance".toList
      else if includes (toLowerCase s) "engineering".toList then "engineering".toList
      else if includes (toLowerCase s) "thrown".toList then "thrown".toList
      else specDefault type := by
  unfold parseSpec specDefault
  simp only
  rw [includes_trim_keyword _ "one-handed".toList (by decide),
    includes_trim_keyword _ "one handed".toList (by decide),
    includes_trim_keyword _ "two-handed".toList (by decide),
    includes_trim_keyword _ "two handed".toList (by decide),
    includes_trim_keyword _ "brawling".toList (by decide),
    includes_trim_keyword _ "pistol".toList (by decide),
    includes_trim_keyword _ "long gun".toList (by decide),
    includes_trim_keyword _ "longgun".toList (by decide),
    includes_trim_keyword _ "ordnance".toList (by decide),
    includes_trim_keyword _ "engineering".toList (by decide),
    includes_trim_keyword _ "thrown".toList (by decide)]

theorem specDefault_mem (type : Str) :
    specDefault type ∈ meleeSpecs ++ rangedSpecs ∧
      specDefault "melee".toList ∈ meleeSpecs ∧ specDefault "ranged".toList ∈ rangedSpecs := by
  refine ⟨?_, by decide, by decide⟩
  unfold specDefault
  split <;> decide

/-- C15 (as amended): in either context `parseSpec` returns one of the eight
spec values; it returns the default of the context (oneHanded for melee,
pistol for ranged) when none of its eleven keywords is a substring of the
lower-cased text; in melee context the result is a melee spec when the text
has no ranged keyword, and in ranged context a ranged spec when the text has
no melee keyword. -/
theorem parseSpec_values :
    (∀ s type : Str, parseSpec s type ∈ meleeSpecs ++ rangedSpecs) ∧
    (∀ s type : Str, (∀ kw ∈ specKeywords, includes (toLowerCase s) kw = false) →
      parseSpec s type = specDefault type) ∧
    (∀ s : Str, (∀ kw ∈ rangedSpecKeywords, includes (toLowerCase s) kw = false) →
      parseSpec s "melee".toList ∈ meleeSpecs) ∧
    (∀ s : Str, (∀ kw ∈ meleeSpecKeywords, includes (toLowerCase s) kw = false) →
      parseSpec s "ranged".toList ∈ rangedSpecs) := by
  refine ⟨?_, ?_, ?_, ?_⟩
  · intro s type
    rw [parseSpec_eq]
    have hd := (specDefault_mem type).1
    split_ifs <;> first | exact hd | decide
  · intro s type h
    rw [parseSpec_eq]
    simp only [specKeywords, List.mem_cons, List.mem_singleton, List.not_mem_nil, or_false,
      forall_eq_or_imp, forall_eq] at h
    obtain ⟨h1, h2, h3, h4, h5, h6, h7, h8, h9, h10, h11⟩ := h
    simp only [h1, h2, h3, h4, h5, h6, h7, h8, h9, h10, h11, Bool.or_self, Bool.false_eq_true,
      if_false, ite_self]
  · intro s h
    rw [parseSpec_eq]
    simp only [rangedSpecKeywords, List.mem_cons, List.mem_singleton, List.not_mem_nil,
      or_false, forall_eq_or_imp, forall_eq] at h
    obtain ⟨h1, h2, h3, h4, h5, h6⟩ := h
    simp only [h1, h2, h3, h4, h5, h6, Bool.or_self, Bool.false_eq_true, if_false]
    have hd := (specDefault_mem []).2.1
    split_ifs <;> first | exact hd | decide
  · intro s h
    rw [parseSpec_eq]
    simp only [meleeSpecKeywords, List.mem_cons, List.mem_singleton, List.not_mem_nil,
      or_false, forall_eq_or_imp, forall_eq] at h
    obtain ⟨h1, h2, h3, h4, h5⟩ := h
    simp only [h1, h2, h3, h4, h5, Bool.or_self, Bool.false_eq_true, if_false]
    have hd := (specDefault_mem []).2.2
    split_ifs <;> first | exact hd | decide

theorem parseSpec_values_witness :
    (∀ kw ∈ specKeywords, includes (toLowerCase "Lance".toList) kw = false) ∧
      parseSpec "Lance".toList "melee".toList = "oneHanded".toList ∧
      parseSpec "Lance".toList "ranged".toList = "pistol".toList ∧
      (∀ kw ∈ rangedSpecKeywords, includes (toLowerCase "Two Handed".toList) kw = false) ∧
      parseSpec "Two Handed".toList "melee".toList ∈ meleeSpecs :=
  ⟨by decide, parseSpec_values.2.1 "Lance".toList "melee".toList (by decide),
    parseSpec_values.2.1 "Lance".toList "ranged".toList (by decide), by decide,
    parseSpec_values.2.2.1 "Two Handed".toList (by decide)⟩

/-- C15 (counterexample): in melee context the text `Pistol`, which has no
melee keyword, gives `pistol`, neither a melee spec nor `oneHanded`; in ranged
context the text `One-Handed`, which has no ranged keyword, gives `oneHanded`,
neither a ranged spec nor `pistol`. -/
theorem parseSpec_crosses_contexts :
    (∀ kw ∈ meleeKeywords, includes (toLowerCase "Pistol".toList) kw = false) ∧
      parseSpec "Pistol".toList "melee".toList = "pistol".toList ∧
      "pistol".toList ∉ meleeSpecs ∧
      (∀ kw ∈ rangedKeywords, includes (toLowerCase "One-Handed".toList) kw = false) ∧
      parseSpec "One-Handed".toList "ranged".toList = "oneHanded".toList ∧
      "oneHanded".toList ∉ rangedSpecs := by
  decide

/-- C18: the location list of `parseLocations` is the full list when the
lower-cased text contains `all` or none of head, body, torso, arm, leg, and
otherwise exactly, in this order, head, body (for body or torso), the two
arms and the two legs, each if its word occurs. -/
theorem parseLocations_list (s : Str) :
    (parseLocations s).list = locationsRef (toLowerCase s) := by
  unfold parseLocations locationsRef
  by_cases hs : s = []
  · subst hs
    decide
  · have hempty : s.isEmpty = false := by
      cases s with
      | nil => exact absurd rfl hs
      | cons c t => rfl
    rw [hempty]
    simp only [Bool.false_eq_true, if_false]
    generalize toLowerCase s = l
    cases includes l "all".toList <;> cases includes l "head".toList <;>
      cases includes l "body".toList <;> cases includes l "torso".toList <;>
      cases includes l "arm".toList <;> cases includes l "leg".toList <;> rfl

/-! ## Custom-trait notes, armour and shields -/

/-- C12 (the code at the failing input): with the dictionary whose only key is
`foo`, the trait text `Constructor` has the base name `constructor`, which is
neither a key of the dictionary nor a system trait key; the read
`customTraitDefs[baseName]` falls through to `Object.prototype.constructor`,
and a note with the description `undefined` is returned. -/
theorem parseTraitsWithCustom_constructor :
    baseNameOf (trim "Constructor".toList) = "constructor".toList ∧
      fooDefs.find? (fun e => e.1 == "constructor".toList) = none ∧
      SYSTEM_TRAIT_KEYS.contains "constructor".toList = false ∧
      (parseTraitsWithCustom "Constructor".toList fooDefs).2 =
        "<p><strong>Constructor:</strong> undefined</p>".toList ∧
      (parseTraitsWithCustom "Foo (2), Subtle, Bar".toList fooDefs).2 =
        "<p><strong>Foo (2):</strong> Does foo.</p>".toList := by
  decide

theorem field_of_short (parts : List Str) (i : Nat) (h : parts.length ≤ i) :
    field parts i = [] := by
  unfold field
  rw [List.getD_eq_getElem?_getD, List.getElem?_eq_none h]
  rfl

theorem parseLine_protection (host : Host) (line category : Str) (defs : CustomTraitDefs)
    (hlen : 2 ≤ (tokenize line).length) :
    parseLine host line "protection".toList category defs =
      parseArmour host (tokenize line) defs := by
  unfold parseLine
  simp only
  rw [if_neg (by omega), if_neg (by decide)]
  exact if_pos trivial

theorem parseLine_shield_eq (host : Host) (line category : Str) (defs : CustomTraitDefs)
    (hlen : 2 ≤ (tokenize line).length) :
    parseLine host line "shield".toList category defs =
      parseShield host (tokenize line) defs := by
  unfold parseLine
  simp only
  rw [if_neg (by omega), if_neg (by decide), if_neg (by decide)]
  exact if_pos trivial

/-- C19: a line with at least 6 fields is parsed, as protection, into an
armour record: category, armour, encumbrance, cost and availability parsed from
the 2nd to 6th fields, traits from the fields after the 7th; when the line
has no 7th field, or its 7th field is empty, the locations are labelled `All`
with the full list of six locations. -/
theorem parseLine_armour :
    (∀ (host : Host) (line category : Str) (defs : CustomTraitDefs),
      6 ≤ (tokenize line).length →
      parseLine host line "protection".toList category defs = some
        { name := field (tokenize line) 0
          type := "protection".toList
          img := host.setting "armourIcon".toList
          system := ItemSystem.protection
            { category := parseArmourCategory (field (tokenize line) 1)
              armour := parseNumber (field (tokenize line) 2)
              encumbrance := parseNumber (field (tokenize line) 3)
              cost := parseNumber (field (tokenize line) 4)
              availability := parseAvailability (field (tokenize line) 5)
              locations :=
                if (field (tokenize line) 6).isEmpty then allLocationsLabelled
                else parseLocations (field (tokenize line) 6)
              traits := parseTraits (join [' '] ((tokenize line).drop 7))
              notesPlayer :=
                (parseTraitsWithCustom (join [' '] ((tokenize line).drop 7)) defs).2
              notesGm := [] }
          importedAt := host.now }) ∧
    (∀ (line : Str), (tokenize line).length < 7 ∨ field (tokenize line) 6 = [] →
      (if (field (tokenize line) 6).isEmpty then allLocationsLabelled
        else parseLocations (field (tokenize line) 6)) = allLocationsLabelled) ∧
    allLocationsLabelled.label = "All".toList ∧
    allLocationsLabelled.list =
      ["head".toList, "body".toList, "leftArm".toList, "rightArm".toList, "leftLeg".toList,
        "rightLeg".toList] := by
  refine ⟨?_, ?_, rfl, rfl⟩
  · intro host line category defs hlen
    rw [parseLine_protection host line category defs (by omega)]
    generalize tokenize line = parts at hlen ⊢
    unfold parseArmour
    rw [if_neg (by omega)]
    simp only [parseTraitsWithCustom_fst]
    rfl
  · intro line h
    have h6 : field (tokenize line) 6 = [] := by
      rcases h with h | h
      · exact field_of_short _ 6 (by omega)
      · exact h
    rw [h6]
    rfl

theorem parseLine_armour_witness :
    6 ≤ (tokenize "Flak Vest | Flak | 3 | 2 | 150 | Scarce".toList).length ∧
      ((tokenize "Flak Vest | Flak | 3 | 2 | 150 | Scarce".toList).length < 7 ∨
        field (tokenize "Flak Vest | Flak | 3 | 2 | 150 | Scarce".toList) 6 = []) ∧
      parseLine defaultHost "Flak Vest | Flak | 3 | 2 | 150 | Scarce".toList
          "protection".toList [] [] = some
        { name := "Flak Vest".toList
          type := "protection".toList
          img := "modules/impmal-core/assets/icons/protection/armour.webp".toList
          system := ItemSystem.protection
            { category := "flak".toList
              armour := Num.fin 3
              encumbrance := Num.fin 2
              cost := Num.fin 150
              availability := "scarce".toList
              locations := allLocationsLabelled
              traits := []
              notesPlayer := []
              notesGm := [] }
          importedAt := 0 } :=
  ⟨by decide, by decide,
    (parseLine_armour.1 defaultHost "Flak Vest | Flak | 3 | 2 | 150 | Scarce".toList [] []
      (by decide)).trans (by decide)⟩

theorem parseShield_cons (host : Host) (defs : CustomTraitDefs) (a b c : Str)
    (rest : List Str) :
    parseShield host (a :: b :: c :: rest) defs =
      if rest.length < 3 then none
      else some
        { name := a
          type := "protection".toList
          img := host.setting "shieldIcon".toList
          system := ItemSystem.protection
            { category := "shield".toList
              armour := Num.fin 0
              encumbrance := parseNumber (field rest 0)
              cost := parseNumber (field rest 1)
              availability := parseAvailability (field rest 2)
              locations := { label := [], list := [] }
              traits := parseTraits (join [' '] (rest.drop 3))
              notesPlayer := (parseTraitsWithCustom (join [' '] (rest.drop 3)) defs).2
              notesGm := [] }
          importedAt := host.now } := by
  unfold parseShield
  simp only [List.length_cons, parseTraitsWithCustom_fst]
  by_cases h : rest.length < 3
  · rw [if_pos (by omega), if_pos h]
  · rw [if_neg (by omega), if_neg h]
    rfl

/-- C20: a line with at least 6 fields is parsed, as a shield, into a record
with category `shield`, armour 0, an empty location list, encumbrance, cost
and availability parsed from the 4th, 5th and 6th fields and traits from the
fields after the 6th; two lines that differ only in their 2nd and 3rd fields
yield records equal in every field other than the import timestamp. -/
theorem parseLine_shield :
    (∀ (host : Host) (line category : Str) (defs : CustomTraitDefs),
      6 ≤ (tokenize line).length →
      parseLine host line "shield".toList category defs = some
        { name := field (tokenize line) 0
          type := "protection".toList
          img := host.setting "shieldIcon".toList
          system := ItemSystem.protection
            { category := "shield".toList
              armour := Num.fin 0
              encumbrance := parseNumber (field (tokenize line) 3)
              cost := parseNumber (field (tokenize line) 4)
              availability := parseAvailability (field (tokenize line) 5)
              locations := { label := [], list := [] }
              traits := parseTraits (join [' '] ((tokenize line).drop 6))
              notesPlayer :=
                (parseTraitsWithCustom (join [' '] ((tokenize line).drop 6)) defs).2
              notesGm := [] }
          importedAt := host.now }) ∧
    (∀ (host1 host2 : Host) (line1 line2 category1 category2 : Str) (defs : CustomTraitDefs)
      (a b1 c1 b2 c2 : Str) (rest : List Str),
      host1.setting = host2.setting →
      tokenize line1 = a :: b1 :: c1 :: rest → tokenize line2 = a :: b2 :: c2 :: rest →
      (parseLine host1 line1 "shield".toList category1 defs).map Item.withoutTimestamp =
        (parseLine host2 line2 "shield".toList category2 defs).map Item.withoutTimestamp) := by
  constructor
  · intro host line category defs hlen
    rw [parseLine_shield_eq host line category defs (by omega)]
    generalize tokenize line = parts at hlen ⊢
    unfold parseShield
    rw [if_neg (by omega)]
    simp only [parseTraitsWithCustom_fst]
  · intro host1 host2 line1 line2 category1 category2 defs a b1 c1 b2 c2 rest hset h1 h2
    rw [parseLine_shield_eq host1 line1 category1 defs (by rw [h1]; simp),
      parseLine_shield_eq host2 line2 category2 defs (by rw [h2]; simp), h1, h2,
      parseShield_cons, parseShield_cons, hset]
    split <;> rfl

theorem parseLine_shield_witness :
    6 ≤ (tokenize "Buckler | Special | - | 1 | 30 | Common | Shield (2)".toList).length ∧
      tokenize "Buckler | Special | - | 1 | 30 | Common | Shield (2)".toList =
        "Buckler".toList :: "Special".toList :: "-".toList ::
          ["1".toList, "30".toList, "Common".toList, "Shield (2)".toList] ∧
      tokenize "Buckler | One-Handed | 3+STR | 1 | 30 | Common | Shield (2)".toList =
        "Buckler".toList :: "One-Handed".toList :: "3+STR".toList ::
          ["1".toList, "30".toList, "Common".toList, "Shield (2)".toList] ∧
      (parseLine defaultHost "Buckler | Special | - | 1 | 30 | Common | Shield (2)".toList
          "shield".toList [] []).map Item.withoutTimestamp =
        (parseLine { setting := defaultHost.setting, now := 77 }
          "Buckler | One-Handed | 3+STR | 1 | 30 | Common | Shield (2)".toList
          "shield".toList [] []).map Item.withoutTimestamp ∧
      (parseLine defaultHost "Buckler | Special | - | 1 | 30 | Common | Shield (2)".toList
          "shield".toList [] []).map Item.traits =
        some [{ key := "shield".toList, value := some "2".toList }] :=
  ⟨by decide, by decide, by decide,
    parseLine_shield.2 defaultHost { setting := defaultHost.setting, now := 77 }
      "Buckler | Special | - | 1 | 30 | Common | Shield (2)".toList
      "Buckler | One-Handed | 3+STR | 1 | 30 | Common | Shield (2)".toList [] [] []
      "Buckler".toList "Special".toList "-".toList "One-Handed".toList "3+STR".toList
      ["1".toList, "30".toList, "Common".toList, "Shield (2)".toList] rfl (by decide)
      (by decide),
    (congrArg (Option.map Item.traits)
      (parseLine_shield.1 defaultHost
        "Buckler | Special | - | 1 | 30 | Common | Shield (2)".toList [] [] (by decide))).trans
      (by decide)⟩

/-! ## Format paste and text normalization at concrete inputs -/

/-- C22 (the code at failing inputs): a line with a tab, a space and a tab
between two words comes out as `A | | B`, with an adjacent-pipe artifact: the
single pass of `replace(/\|\s*\|/g, "|")` joins the first two of three pipes
and resumes after the second, so the third stays adjacent; likewise `a|||b`
comes out as `a||b`, and `|||a` comes out as `|a`, which begins with a
pipe. -/
theorem formatPastedText_leaves_artifacts :
    formatPastedText ['A', '\t', ' ', '\t', 'B'] = "A | | B".toList ∧
      hasAdjacentPipes "A | | B".toList = true ∧
      formatPastedText "a|||b".toList = "a||b".toList ∧
      hasAdjacentPipes "a||b".toList = true ∧
      formatPastedText "|||a".toList = "|a".toList ∧
      hasEdgePipe "|a".toList = true := by
  decide

/-- C23 (the code at the failing input): the two quote classes of
`normalizeText` hold the straight quote characters, so the four curly quote
characters stay in the output. -/
theorem normalizeText_keeps_curly_quotes :
    normalizeText curlyText = curlyText ∧
      Char.ofNat 0x201C ∈ normalizeText curlyText ∧
      Char.ofNat 0x201D ∈ normalizeText curlyText ∧
      Char.ofNat 0x2018 ∈ normalizeText curlyText ∧
      Char.ofNat 0x2019 ∈ normalizeText curlyText := by
  decide

/-! ## The characters consumed by a match -/

theorem manyRun_consumed {α : Type} (P : Char → Prop) (p : Char → Bool)
    (hp : ∀ c, p c = true → P c) (k : Option Char → Str → Option α) (x : α) :
    ∀ (rest : Str) (min : Nat) (prev : Option Char), manyRun p k min prev rest = some x →
      ∃ p1 cons r1, rest = cons ++ r1 ∧ (∀ c ∈ cons, P c) ∧ k p1 r1 = some x := by
  intro rest
  induction rest with
  | nil =>
    intro min prev h
    simp only [manyRun] at h
    split at h
    · exact ⟨prev, [], [], rfl, by simp, h⟩
    · cases h
  | cons c cs ih =>
    intro min prev h
    simp only [manyRun] at h
    split at h
    · rename_i hc
      split at h
      · rename_i r hr
        cases h
        obtain ⟨p1, cons, r1, hs, hall, hk⟩ := ih _ _ hr
        refine ⟨p1, c :: cons, r1, by rw [hs]; rfl, ?_, hk⟩
        intro d hd
        rcases List.mem_cons.mp hd with rfl | hd
        · exact hp _ hc
        · exact hall d hd
      · split at h
        · exact ⟨prev, [], c :: cs, rfl, by simp, h⟩
        · cases h
    · split at h
      · exact ⟨prev, [], c :: cs, rfl, by simp, h⟩
      · cases h

theorem Re.run_consumed {α : Type} (P : Char → Prop) (re : Re) :
    Re.Within P re →
    ∀ (k : Option Str → Option Char → Str → Option α) (cap : Option Str) (prev : Option Char)
      (rest : Str) (x : α), re.run k cap prev rest = some x →
      ∃ cap1 p1 cons r1, rest = cons ++ r1 ∧ (∀ c ∈ cons, P c) ∧ k cap1 p1 r1 = some x := by
  induction re with
  | chr p =>
    intro hw k cap prev rest x h
    cases rest with
    | nil => simp [Re.run] at h
    | cons c cs =>
      simp only [Re.run] at h
      split at h
      · rename_i hc
        refine ⟨cap, some c, [c], cs, rfl, ?_, h⟩
        intro d hd
        rw [List.mem_singleton.mp hd]
        exact hw c hc
      · cases h
  | many p min =>
    intro hw k cap prev rest x h
    simp only [Re.run] at h
    obtain ⟨p1, cons, r1, hs, hall, hk⟩ := manyRun_consumed P p hw (k cap) x rest min prev h
    exact ⟨cap, p1, cons, r1, hs, hall, hk⟩
  | opt p =>
    intro hw k cap prev rest x h
    cases rest with
    | nil => exact ⟨cap, prev, [], [], rfl, by simp, by simpa [Re.run] using h⟩
    | cons c cs =>
      simp only [Re.run] at h
      split at h
      · rename_i hc
        split at h
        · rename_i r hr
          cases h
          refine ⟨cap, some c, [c], cs, rfl, ?_, hr⟩
          intro d hd
          rw [List.mem_singleton.mp hd]
          exact hw c hc
        · exact ⟨cap, prev, [], c :: cs, rfl, by simp, h⟩
      · exact ⟨cap, prev, [], c :: cs, rfl, by simp, h⟩
  | wordB =>
    intro _ k cap prev rest x h
    simp only [Re.run] at h
    split at h
    · exact ⟨cap, prev, [], rest, rfl, by simp, h⟩
    · cases h
  | bol =>
    intro _ k cap prev rest x h
    simp only [Re.run] at h
    split at h
    · exact ⟨cap, prev, [], rest, rfl, by simp, h⟩
    · cases h
  | eol =>
    intro _ k cap prev rest x h
    simp only [Re.run] at h
    split at h
    · exact ⟨cap, prev, [], rest, rfl, by simp, h⟩
    · cases h
  | eps =>
    intro _ k cap prev rest x h
    exact ⟨cap, prev, [], rest, rfl, by simp, by simpa [Re.run] using h⟩
  | seq a b iha ihb =>
    intro hw k cap prev rest x h
    simp only [Re.run] at h
    obtain ⟨cap1, p1, c1, r1, hs1, hall1, h1⟩ := iha hw.1 _ cap prev rest x h
    obtain ⟨cap2, p2, c2, r2, hs2, hall2, h2⟩ := ihb hw.2 k cap1 p1 r1 x h1
    refine ⟨cap2, p2, c1 ++ c2, r2, by rw [hs1, hs2, List.append_assoc], ?_, h2⟩
    intro d hd
    rcases List.mem_append.mp hd with hd | hd
    · exact hall1 d hd
    · exact hall2 d hd
  | alt a b iha ihb =>
    intro hw k cap prev rest x h
    simp only [Re.run] at h
    split at h
    · rename_i r hr
      cases h
      exact iha hw.1 k cap prev rest _ hr
    · exact ihb hw.2 k cap prev rest x h
  | group a iha =>
    intro hw k cap prev rest x h
    simp only [Re.run] at h
    obtain ⟨_, p1, c1, r1, hs1, hall1, h1⟩ := iha hw _ cap prev rest x h
    exact ⟨_, p1, c1, r1, hs1, hall1, h1⟩

theorem Re.matchHere_consumed (P : Char → Prop) (re : Re) (hw : Re.Within P re) (i : Nat)
    (prev : Option Char) (rest : Str) (m : Match) (h : re.matchHere i prev rest = some m) :
    ∃ cons, rest = cons ++ m.after ∧ (∀ c ∈ cons, P c) ∧ m.index = i := by
  obtain ⟨cap1, p1, cons, r1, hs, hall, hk⟩ := Re.run_consumed P re hw _ none prev rest m h
  cases hk
  exact ⟨cons, hs, hall, rfl⟩

theorem Re.search_consumed (P : Char → Prop) (re : Re) (hw : Re.Within P re) :
    ∀ (rest : Str) (i : Nat) (prev : Option Char) (m : Match), re.search i prev rest = some m →
      ∃ cons, rest = rest.take (m.index - i) ++ cons ++ m.after ∧ (∀ c ∈ cons, P c) := by
  intro rest
  induction rest with
  | nil =>
    intro i prev m h
    simp only [Re.search] at h
    obtain ⟨cons, hs, hall, hi⟩ := Re.matchHere_consumed P re hw i prev [] m h
    exact ⟨cons, by simpa using hs, hall⟩
  | cons c cs ih =>
    intro i prev m h
    simp only [Re.search] at h
    split at h
    · rename_i m1 hm1
      cases h
      obtain ⟨cons, hs, hall, hi⟩ := Re.matchHere_consumed P re hw i prev (c :: cs) _ hm1
      refine ⟨cons, ?_, hall⟩
      rw [hi, Nat.sub_self]
      simpa using hs
    · obtain ⟨cons, hs, hall⟩ := ih _ _ _ h
      obtain ⟨_, hge, _⟩ := Re.search_after re cs (i + 1) (some c) m h
      refine ⟨cons, ?_, hall⟩
      have hidx : m.index - i = (m.index - (i + 1)) + 1 := by omega
      rw [hidx, List.take_succ_cons]
      simp only [List.cons_append]
      congr 1

/-- Replacing the matches of an expression that consumes no `x` by a text
without `x` leaves the number of `x` unchanged. -/
theorem Re.replaceLoop_count (re : Re) (repl : Str) (x : Char)
    (hw : Re.Within (fun c => c ≠ x) re) (hx : x ∉ repl) :
    ∀ (fuel : Nat) (prev : Option Char) (rest : Str),
      (re.replaceLoop repl fuel prev rest).count x = rest.count x := by
  intro fuel
  induction fuel with
  | zero => intro prev rest; rfl
  | succ n ih =>
    intro prev rest
    simp only [Re.replaceLoop]
    split
    · rfl
    · rename_i m hm
      obtain ⟨cons, hs, hall⟩ := Re.search_consumed _ re hw rest 0 prev m hm
      have hcons : cons.count x = 0 := by
        rw [List.count_eq_zero]
        intro hmem
        exact hall x hmem rfl
      have hrepl : repl.count x = 0 := List.count_eq_zero.mpr hx
      have hrest : rest.count x = (rest.take m.index).count x + m.after.count x := by
        conv_lhs => rw [hs]
        simp only [Nat.sub_zero, List.count_append, hcons, Nat.add_zero]
      rw [hrest]
      split
      · simp only [List.count_append, hrepl, ih, Nat.add_zero]
      · simp only [List.count_append, hrepl, Nat.add_zero]

theorem Re.replaceAll_count (re : Re) (repl : Str) (x : Char) (s : Str)
    (hw : Re.Within (fun c => c ≠ x) re) (hx : x ∉ repl) :
    (re.replaceAll repl s).count x = s.count x :=
  Re.replaceLoop_count re repl x hw hx _ _ _

theorem trimStart_count (x : Char) (hx : isWhiteSpace x = false) (s : Str) :
    (trimStart s).count x = s.count x := by
  induction s with
  | nil => rfl
  | cons c cs ih =>
    simp only [trimStart]
    split
    · rename_i hc
      have hne : c ≠ x := by
        intro e
        rw [e, hx] at hc
        cases hc
      rw [ih, List.count_cons_of_ne (Ne.symm hne)]
    · rfl

theorem trim_count (x : Char) (hx : isWhiteSpace x = false) (s : Str) :
    (trim s).count x = s.count x := by
  unfold trim trimEnd
  rw [List.count_reverse, trimStart_count x hx, List.count_reverse, trimStart_count x hx]

theorem splitOn_length (sep : Char) (s : Str) :
    (splitOn sep s).length = s.count sep + 1 := by
  induction s with
  | nil => rfl
  | cons c cs ih =>
    simp only [splitOn]
    cases hsp : splitOn sep cs with
    | nil => rw [hsp] at ih; simp at ih
    | cons p ps =>
      rw [hsp] at ih
      simp only
      by_cases hc : c = sep
      · subst hc
        simp only [if_true, List.length_cons, List.count_cons_self]
        simp only [List.length_cons] at ih
        omega
      · simp only [hc, if_false, List.length_cons]
        rw [List.count_cons_of_ne (Ne.symm hc)]
        simpa using ih

theorem normalizeText_count_pipe (t : Str) : (normalizeText t).count '|' = t.count '|' := by
  unfold normalizeText
  simp only
  rw [trim_count '|' (by decide)]
  rw [Re.replaceAll_count _ _ '|' _ (by simp [Re.Within, Re.cat]) (by decide)]
  rw [Re.replaceAll_count _ _ '|' _ (by simp [Re.Within, Re.char]) (by decide)]
  rw [Re.replaceAll_count _ _ '|' _ (by simp [Re.Within]) (by decide)]
  rw [Re.replaceAll_count _ _ '|' _ (by simp [Re.Within]) (by decide)]
  rw [Re.replaceAll_count _ _ '|' _ (by simp [Re.Within, Re.char]) (by decide)]
  rw [Re.replaceAll_count _ _ '|' _ (by simp [Re.Within, Re.cat, Re.char]) (by decide)]

/-- The number of fields of a line is one more than its number of `|`. -/
theorem tokenize_length (line : Str) : (tokenize line).length = line.count '|' + 1 := by
  unfold tokenize
  rw [List.length_map, splitOn_length, normalizeText_count_pipe]

/-! ## Exactly when `parseLine` returns a record -/

theorem hasRangedFormat_length (parts : List Str) (h : hasRangedFormat parts = true) :
    8 ≤ parts.length := by
  unfold hasRangedFormat at h
  rw [Bool.and_eq_true] at h
  exact of_decide_eq_true h.1

theorem parseMelee_isSome (host : Host) (name : Str) (parts : List Str) (category : Str)
    (defs : CustomTraitDefs) :
    (parseMelee host name parts category defs).isSome = decide (6 ≤ parts.length) := by
  unfold parseMelee
  by_cases h : parts.length < 6
  · rw [if_pos h]
    simp only [Option.isSome_none]
    exact (decide_eq_false (by omega)).symm
  · rw [if_neg h]
    simp only [Option.isSome_some]
    exact (decide_eq_true (by omega)).symm

theorem parseGrenadeSimple_isSome (host : Host) (name : Str) (parts : List Str)
    (defs : CustomTraitDefs) :
    (parseGrenadeSimple host name parts defs).isSome = decide (6 ≤ parts.length) := by
  unfold parseGrenadeSimple
  by_cases h : parts.length < 6
  · rw [if_pos h]
    simp only [Option.isSome_none]
    exact (decide_eq_false (by omega)).symm
  · rw [if_neg h]
    simp only [Option.isSome_some]
    exact (decide_eq_true (by omega)).symm

theorem parseRanged_isSome (host : Host) (name : Str) (parts : List Str) (category : Str)
    (defs : CustomTraitDefs) :
    (parseRanged host name parts category defs).isSome = decide (8 ≤ parts.length) := by
  unfold parseRanged
  by_cases h : parts.length < 8
  · rw [if_pos h]
    simp only [Option.isSome_none]
    exact (decide_eq_false (by omega)).symm
  · rw [if_neg h]
    simp only [Option.isSome_some]
    exact (decide_eq_true (by omega)).symm

theorem parseGrenade_isSome (host : Host) (name : Str) (parts : List Str)
    (defs : CustomTraitDefs) :
    (parseGrenade host name parts defs).isSome = decide (8 ≤ parts.length) := by
  unfold parseGrenade
  by_cases h : parts.length < 8
  · rw [if_pos h]
    simp only [Option.isSome_none]
    exact (decide_eq_false (by omega)).symm
  · rw [if_neg h]
    simp only [Option.isSome_some]
    exact (decide_eq_true (by omega)).symm

theorem parseArmour_isSome (host : Host) (parts : List Str) (defs : CustomTraitDefs) :
    (parseArmour host parts defs).isSome = decide (6 ≤ parts.length) := by
  unfold parseArmour
  by_cases h : parts.length < 6
  · rw [if_pos h]
    simp only [Option.isSome_none]
    exact (decide_eq_false (by omega)).symm
  · rw [if_neg h]
    simp only [Option.isSome_some]
    exact (decide_eq_true (by omega)).symm

theorem parseShield_isSome (host : Host) (parts : List Str) (defs : CustomTraitDefs) :
    (parseShield host parts defs).isSome = decide (6 ≤ parts.length) := by
  unfold parseShield
  by_cases h : parts.length < 6
  · rw [if_pos h]
    simp only [Option.isSome_none]
    exact (decide_eq_false (by omega)).symm
  · rw [if_neg h]
    simp only [Option.isSome_some]
    exact (decide_eq_true (by omega)).symm

theorem parseForceField_isSome (host : Host) (parts : List Str) :
    (parseForceField host parts).isSome = decide (6 ≤ parts.length) := by
  unfold parseForceField
  by_cases h : parts.length < 6
  · rw [if_pos h]
    simp only [Option.isSome_none]
    exact (decide_eq_false (by omega)).symm
  · rw [if_neg h]
    simp only [Option.isSome_some]
    exact (decide_eq_true (by omega)).symm

theorem parseWeapon_isSome (host : Host) (parts : List Str) (category : Str)
    (defs : CustomTraitDefs) :
    (parseWeapon host parts category defs).isSome = decide (6 ≤ parts.length) := by
  unfold parseWeapon
  simp only
  split
  · exact parseMelee_isSome _ _ _ _ _
  · split
    · rename_i h
      rw [Bool.and_eq_true] at h
      have := hasRangedFormat_length parts h.1
      rw [parseGrenade_isSome, decide_eq_true this, decide_eq_true (by omega)]
    · split
      · rename_i h
        have := hasRangedFormat_length parts h
        rw [parseRanged_isSome, decide_eq_true this, decide_eq_true (by omega)]
      · split
        · exact parseGrenadeSimple_isSome _ _ _ _
        · exact parseMelee_isSome _ _ _ _ _

theorem parseLine_isSome_of_parts (host : Host) (line itemType weaponCategory : Str)
    (defs : CustomTraitDefs) :
    (parseLine host line itemType weaponCategory defs).isSome = true ↔
      itemType ∈ ["weapon".toList, "protection".toList, "shield".toList,
        "forceField".toList] ∧ 6 ≤ (tokenize line).length := by
  unfold parseLine
  simp only
  generalize tokenize line = parts
  by_cases h2 : parts.length < 2
  · rw [if_pos h2]
    constructor
    · intro h; cases h
    · intro h; omega
  · rw [if_neg h2]
    by_cases hw : itemType = "weapon".toList
    · rw [if_pos hw, parseWeapon_isSome, decide_eq_true_iff]
      exact ⟨fun h => ⟨by rw [hw]; exact List.mem_cons_self _ _, h⟩, fun h => h.2⟩
    · rw [if_neg hw]
      by_cases hp : itemType = "protection".toList
      · rw [if_pos hp, parseArmour_isSome, decide_eq_true_iff]
        exact ⟨fun h => ⟨by rw [hp]; decide, h⟩, fun h => h.2⟩
      · rw [if_neg hp]
        by_cases hs : itemType = "shield".toList
        · rw [if_pos hs, parseShield_isSome, decide_eq_true_iff]
          exact ⟨fun h => ⟨by rw [hs]; decide, h⟩, fun h => h.2⟩
        · rw [if_neg hs]
          by_cases hf : itemType = "forceField".toList
          · rw [if_pos hf, parseForceField_isSome, decide_eq_true_iff]
            exact ⟨fun h => ⟨by rw [hf]; decide, h⟩, fun h => h.2⟩
          · rw [if_neg hf]
            constructor
            · intro h; cases h
            · intro h
              have hm := h.1
              simp only [List.mem_cons, List.mem_singleton, List.not_mem_nil, or_false] at hm
              rcases hm with e | e | e | e
              · exact absurd e hw
              · exact absurd e hp
              · exact absurd e hs
              · exact absurd e hf

theorem parseWeapon_short (host : Host) (parts : List Str) (category : Str)
    (defs : CustomTraitDefs) (h : parts.length < 8) :
    parseWeapon host parts category defs =
      if isMelee parts then parseMelee host (field parts 0) parts category defs
      else if isGrenade parts then parseGrenadeSimple host (field parts 0) parts defs
      else parseMelee host (field parts 0) parts category defs := by
  have hr : hasRangedFormat parts = false := by
    cases hrf : hasRangedFormat parts with
    | false => rfl
    | true =>
      have := hasRangedFormat_length parts hrf
      omega
  unfold parseWeapon
  simp only [hr, Bool.false_and, Bool.false_eq_true, if_false]

/-- C26: `parseLine` returns a record exactly when the item type is one of
`weapon`, `protection`, `shield`, `forceField` and the line has at least 6
fields, the number of fields being one more than the number of `|` of the
line; the dispatch of `parseWeapon` reaches the ranged and range-table grenade
grammars only with at least 8 fields, so that their rejection of shorter lines
never fires; and a weapon line of 6 or 7 fields is parsed, into a record, by
the melee grammar or, when its 2nd field has `thrown` and no melee keyword, by
the simple grenade grammar. -/
theorem parseLine_some_iff (host : Host) (line itemType weaponCategory : Str)
    (customTraitDefs : CustomTraitDefs) :
    ((parseLine host line itemType weaponCategory customTraitDefs).isSome = true ↔
      itemType ∈ ["weapon".toList, "protection".toList, "shield".toList,
        "forceField".toList] ∧ 6 ≤ (tokenize line).length) ∧
    (tokenize line).length = line.count '|' + 1 ∧
    (isMelee (tokenize line) = false → hasRangedFormat (tokenize line) = true →
      8 ≤ (tokenize line).length ∧
      parseGrenade host (field (tokenize line) 0) (tokenize line) customTraitDefs ≠ none ∧
      parseRanged host (field (tokenize line) 0) (tokenize line) weaponCategory
        customTraitDefs ≠ none) ∧
    (6 ≤ (tokenize line).length → (tokenize line).length < 8 →
      parseLine host line "weapon".toList weaponCategory customTraitDefs =
        (if isMelee (tokenize line) then
          parseMelee host (field (tokenize line) 0) (tokenize line) weaponCategory
            customTraitDefs
        else if isGrenade (tokenize line) then
          parseGrenadeSimple host (field (tokenize line) 0) (tokenize line) customTraitDefs
        else
          parseMelee host (field (tokenize line) 0) (tokenize line) weaponCategory
            customTraitDefs) ∧
      (parseLine host line "weapon".toList weaponCategory customTraitDefs).isSome = true) := by
  refine ⟨parseLine_isSome_of_parts host line itemType weaponCategory customTraitDefs,
    tokenize_length line, ?_, ?_⟩
  · intro _ hr
    have h8 := hasRangedFormat_length _ hr
    refine ⟨h8, ?_, ?_⟩
    · intro e
      have := parseGrenade_isSome host (field (tokenize line) 0) (tokenize line) customTraitDefs
      rw [e, decide_eq_true h8] at this
      cases this
    · intro e
      have := parseRanged_isSome host (field (tokenize line) 0) (tokenize line) weaponCategory
        customTraitDefs
      rw [e, decide_eq_true h8] at this
      cases this
  · intro h6 h8
    constructor
    · rw [← parseWeapon_short host (tokenize line) weaponCategory customTraitDefs h8]
      unfold parseLine
      simp only
      rw [if_neg (by omega)]
      exact if_pos trivial
    · exact (parseLine_isSome_of_parts host line "weapon".toList weaponCategory
        customTraitDefs).mpr ⟨List.mem_cons_self _ _, h6⟩

theorem parseLine_some_iff_witness :
    (isMelee (tokenize autogunLine) = false ∧ hasRangedFormat (tokenize autogunLine) = true ∧
      8 ≤ (tokenize autogunLine).length) ∧
    (6 ≤ (tokenize combatKnifeLine).length ∧ (tokenize combatKnifeLine).length < 8 ∧
      (parseLine defaultHost combatKnifeLine "weapon".toList "mundane".toList []).isSome
        = true) :=
  ⟨⟨by decide, by decide,
    ((parseLine_some_iff defaultHost autogunLine "weapon".toList "mundane".toList []).2.2.1
      (by decide) (by decide)).1⟩,
   ⟨by decide, by decide,
    ((parseLine_some_iff defaultHost combatKnifeLine "weapon".toList "mundane".toList []).2.2.2
      (by decide) (by decide)).2⟩⟩

/-! ## The import handler at a sample -/

set_option maxRecDepth 100000 in
theorem onImport_rejected_middle :
    (onImport (rejecting "Autogun".toList)
        { itemType := "weapon".toList, weaponCategory := "mundane".toList, folder := [],
          rawInput := sampleInput }).notifications =
      [Notification.error "Failed to create \"Autogun\": Validation failed".toList,
       Notification.info "Successfully imported 2 item(s).".toList] := by
  decide

/-! ## The import handler -/

theorem createAll_spec (env : ImportEnv) (folderId : Option Str) :
    ∀ (parsed : List Item) (log : ImportLog),
      (createAll env folderId parsed log).submitted =
        log.submitted ++ parsed.map (fun it => { item := it, folder := folderId }) ∧
      (createAll env folderId parsed log).created.length +
          ((createAll env folderId parsed log).notifications.filter
            Notification.isError).length =
        log.created.length + (log.notifications.filter Notification.isError).length +
          parsed.length := by
  intro parsed
  induction parsed with
  | nil =>
    intro log
    simp only [createAll, List.map_nil, List.append_nil, List.length_nil, Nat.add_zero,
      and_self]
  | cons it rest ih =>
    intro log
    simp only [createAll]
    split
    · obtain ⟨h1, h2⟩ := ih
        { submitted := log.submitted ++ [{ item := it, folder := folderId }]
          created := log.created ++ [{ item := it, folder := folderId }]
          notifications := log.notifications }
      rw [h1, h2]
      simp only [List.append_assoc, List.singleton_append, List.map_cons, List.length_append,
        List.length_cons, List.length_nil, true_and]
      omega
    · rename_i message _
      obtain ⟨h1, h2⟩ := ih
        { submitted := log.submitted ++ [{ item := it, folder := folderId }]
          created := log.created
          notifications := log.notifications ++
            [Notification.error ("Failed to create \"".toList ++ it.name ++
              "\": ".toList ++ message)] }
      rw [h1, h2]
      simp only [List.append_assoc, List.singleton_append, List.map_cons, List.length_append,
        List.length_cons, List.length_nil, true_and, List.filter_append, List.filter_cons,
        List.filter_nil, Notification.isError, if_true]
      omega

/-- C25: in import mode, whatever the external create operation does, the
records submitted to it are exactly the successfully parsed records, each
once and in input-line order, each with the chosen folder; and the number of
created records plus the number of reported creation failures is the number
of parsed records. -/
theorem onImport_submits_every_record (env : ImportEnv) (data : FormData) :
    (onImport env data).submitted =
        (parsedRecords env data).map
          (fun it => { item := it,
                       folder := if data.folder.isEmpty then none else some data.folder }) ∧
      (onImport env data).created.length +
          ((onImport env data).notifications.filter Notification.isError).length =
        (parsedRecords env data).length := by
  unfold onImport
  simp only
  generalize (if data.folder.isEmpty then none else some data.folder) = folderId
  by_cases hraw : (trim data.rawInput).isEmpty = true
  · rw [if_pos hraw]
    have hnil : parsedRecords env data = [] := by
      unfold parsedRecords
      simp only
      rw [List.isEmpty_iff.mp hraw]
      rfl
    rw [hnil]
    exact ⟨rfl, rfl⟩
  · rw [if_neg hraw]
    by_cases hp : (parsedRecords env data).isEmpty = true
    · rw [if_pos hp, List.isEmpty_iff.mp hp]
      exact ⟨rfl, rfl⟩
    · rw [if_neg hp]
      obtain ⟨h1, h2⟩ := createAll_spec env folderId (parsedRecords env data)
        { submitted := [], created := [], notifications := [] }
      simp only [List.nil_append, List.length_nil, List.filter_nil, Nat.zero_add] at h1 h2
      by_cases hc : (createAll env folderId (parsedRecords env data)
          { submitted := [], created := [], notifications := [] }).created.length = 0
      · rw [if_pos hc]
        exact ⟨h1, h2⟩
      · rw [if_neg hc]
        refine ⟨h1, ?_⟩
        simp only [List.filter_append, List.filter_cons, List.filter_nil, Notification.isError,
          List.length_append, List.length_nil, Nat.add_zero, Bool.false_eq_true, if_false]
        exact h2

/-! ## Custom-trait configuration -/

/-- C24: when the persisted custom-traits value is not valid JSON, so that
`JSON.parse` throws on it, `getCustomTraitDefinitions` returns the empty
dictionary: no own key and the default prototype.  (`JSON.parse` accepts the
text `[]`, which stands in for an empty persisted value.) -/
theorem getCustomTraitDefinitions_malformed (jsonParse : Str → Option (List RawTrait))
    (host : Host) (harray : jsonParse "[]".toList = some [])
    (hbad : jsonParse (host.setting "customTraits".toList) = none) :
    getCustomTraitDefinitions jsonParse host = [] ∧
      ownKeys (getCustomTraitDefinitions jsonParse host) = [] := by
  have h : getCustomTraitDefinitions jsonParse host = [] := by
    unfold getCustomTraitDefinitions
    simp only
    by_cases he : (host.setting "customTraits".toList).isEmpty = true
    · rw [if_pos he, harray]
      rfl
    · rw [if_neg he, hbad]
  rw [h]
  exact ⟨rfl, rfl⟩

theorem getCustomTraitDefinitions_malformed_witness :
    jsonParseOnly [] [] "[]".toList = some [] ∧
      jsonParseOnly [] [] ((hostWithTraits "\x7bnot json".toList).setting "customTraits".toList)
        = none ∧
      getCustomTraitDefinitions (jsonParseOnly [] [])
        (hostWithTraits "\x7bnot json".toList) = [] :=
  ⟨by decide, by decide,
   (getCustomTraitDefinitions_malformed (jsonParseOnly [] [])
      (hostWithTraits "\x7bnot json".toList) (by decide) (by decide)).1⟩

/-- C27 (the code at the failing input): when the only persisted definition
is named `__proto__`, the assignment `defs[baseName] = ...` replaces the
prototype of the dictionary and adds no own key, so that
`parseTraitsWithCustom` on the trait text `__proto__` finds
`Object.keys(customTraitDefs)` empty and returns empty notes, not the note of
the definition; with another definition beside it the note is returned. -/
theorem parseTraitsWithCustom_proto_only :
    baseNameOf (trim "__proto__".toList) = "__proto__".toList ∧
      SYSTEM_TRAIT_KEYS.contains "__proto__".toList = false ∧
      ownKeys (getCustomTraitDefinitions (jsonParseOnly protoJson protoTraits)
        (hostWithTraits protoJson)) = [] ∧
      (parseTraitsWithCustom "__proto__".toList
        (getCustomTraitDefinitions (jsonParseOnly protoJson protoTraits)
          (hostWithTraits protoJson))).2 = [] ∧
      (parseTraitsWithCustom "__proto__".toList
        (getCustomTraitDefinitions (jsonParseOnly fooProtoJson fooProtoTraits)
          (hostWithTraits fooProtoJson))).2 = "<p><strong>__proto__:</strong> D</p>".toList ∧
      (parseTraitsWithCustom "FOO (2)".toList
        (getCustomTraitDefinitions (jsonParseOnly fooProtoJson fooProtoTraits)
          (hostWithTraits fooProtoJson))).2 = "<p><strong>FOO (2):</strong> Does foo.</p>".toList := by
  decide

/-! ## Format paste on formatted text -/

theorem Re.replaceAll_of_no_match (re : Re) (repl s : Str) (h : re.search 0 none s = none) :
    re.replaceAll repl s = s := by
  unfold Re.replaceAll
  simp only [Re.replaceLoop, h]

theorem tabRun_needsFirst : tabRun.NeedsFirst (fun c => c == '\t') := by
  intro α k cap prev
  constructor
  · simp [tabRun, Re.run, manyRun]
  · intro c t hc
    simp only [tabRun, Re.run, manyRun, hc]
    simp

theorem tabRun_search (s : Str) (h : s.contains '\t' = false) :
    tabRun.search 0 none s = none := by
  apply Re.search_needsFirst tabRun _ tabRun_needsFirst
  intro c hc
  cases hct : c == '\t' with
  | false => rfl
  | true =>
    rw [beq_iff_eq] at hct
    subst hct
    have : s.contains '\t' = true := List.elem_eq_true_of_mem hc
    rw [h] at this
    cases this

theorem spaceRun_matchHere (s : Str) (h : hasSpaceRun s = false) (i : Nat)
    (prev : Option Char) : spaceRun.matchHere i prev s = none := by
  unfold Re.matchHere spaceRun
  simp only [Re.run]
  cases s with
  | nil => simp [manyRun]
  | cons c cs =>
    simp only [hasSpaceRun, Bool.or_eq_false_iff, Bool.and_eq_false_iff] at h
    by_cases hc : isWhiteSpace c = true
    · cases cs with
      | nil => simp [manyRun, hc]
      | cons d t =>
        have hd : isWhiteSpace d = false := by
          rcases h.1 with h1 | h1
          · rw [hc] at h1; cases h1
          · exact h1
        simp [manyRun, hc, hd]
    · simp [manyRun, hc]

theorem hasSpaceRun_tail (c : Char) (cs : Str) (h : hasSpaceRun (c :: cs) = false) :
    hasSpaceRun cs = false := by
  simp only [hasSpaceRun, Bool.or_eq_false_iff] at h
  exact h.2

theorem spaceRun_search (s : Str) :
    hasSpaceRun s = false → ∀ (i : Nat) (prev : Option Char), spaceRun.search i prev s = none := by
  induction s with
  | nil =>
    intro h i prev
    simp only [Re.search]
    exact spaceRun_matchHere [] h i prev
  | cons c cs ih =>
    intro h i prev
    simp only [Re.search]
    rw [spaceRun_matchHere (c :: cs) h i prev]
    exact ih (hasSpaceRun_tail c cs h) _ _

theorem trimStart_append_of_ws (cons r : Str) (hall : ∀ c ∈ cons, isWhiteSpace c = true) :
    trimStart (cons ++ r) = trimStart r := by
  induction cons with
  | nil => rfl
  | cons c cs ih =>
    have hc := hall c (List.mem_cons_self _ _)
    show trimStart (c :: (cs ++ r)) = _
    rw [trimStart, if_pos hc]
    exact ih (fun d hd => hall d (List.mem_cons_of_mem _ hd))

theorem pipePair_matchHere (s : Str) (h : hasAdjacentPipes s = false) (i : Nat)
    (prev : Option Char) : pipePair.matchHere i prev s = none := by
  unfold Re.matchHere pipePair
  simp only [Re.cat, Re.run, Re.char, Re.spaces]
  cases s with
  | nil => rfl
  | cons c t =>
    simp only
    split
    · rename_i hc
      simp only [hasAdjacentPipes, Bool.or_eq_false_iff, Bool.and_eq_false_iff] at h
      have hst : startsWith (trimStart t) ['|'] = false := by
        rcases h.1 with h1 | h1
        · rw [hc] at h1; cases h1
        · exact h1
      cases hm : manyRun isWhiteSpace
          (fun p1 r1 => (Re.chr (fun x => x == '|')).run
            (fun cap p r => some (Match.mk i cap p r)) none p1 r1) 0 (some c) t with
      | none => 
        simp only [Re.run] at hm
        exact hm
      | some x =>
        exfalso
        obtain ⟨p1, cons, r1, hs, hall, hk⟩ :=
          manyRun_consumed (fun c => isWhiteSpace c = true) isWhiteSpace (fun _ hc => hc) _ x
            t 0 (some c) hm
        cases r1 with
        | nil => simp [Re.run] at hk
        | cons d r2 =>
          simp only [Re.run] at hk
          split at hk
          · rename_i hd
            rw [beq_iff_eq] at hd
            subst hd
            rw [hs, trimStart_append_of_ws cons _ hall,
              trimStart_of_head '|' r2 (by decide)] at hst
            simp [startsWith] at hst
          · cases hk
    · rfl

theorem hasAdjacentPipes_tail (c : Char) (cs : Str) (h : hasAdjacentPipes (c :: cs) = false) :
    hasAdjacentPipes cs = false := by
  simp only [hasAdjacentPipes, Bool.or_eq_false_iff] at h
  exact h.2

theorem pipePair_search (s : Str) :
    hasAdjacentPipes s = false →
      ∀ (i : Nat) (prev : Option Char), pipePair.search i prev s = none := by
  induction s with
  | nil =>
    intro h i prev
    simp only [Re.search]
    exact pipePair_matchHere [] h i prev
  | cons c cs ih =>
    intro h i prev
    simp only [Re.search]
    rw [pipePair_matchHere (c :: cs) h i prev]
    exact ih (hasAdjacentPipes_tail c cs h) _ _

theorem edgePipe_search (s : Str) :
    ∀ (i : Nat) (prev : Option Char), (prev = none → startsWith s ['|'] = false) →
      ¬ ['|'] <:+ s → edgePipe.search i prev s = none := by
  induction s with
  | nil =>
    intro i prev _ _
    simp only [Re.search, Re.matchHere, edgePipe, Re.run, Re.char]
    cases prev <;> rfl
  | cons c cs ih =>
    intro i prev hhead hlast
    have hm : edgePipe.matchHere i prev (c :: cs) = none := by
      simp only [Re.matchHere, edgePipe, Re.run, Re.char]
      have h1 : (if prev.isNone = true then
            (if (c == '|') = true then some (Match.mk i none (some c) cs) else none)
          else none) = none := by
        cases prev with
        | none =>
          have := hhead rfl
          simp only [startsWith, Bool.and_true] at this
          simp only [Option.isNone_none, if_true, this, Bool.false_eq_true, if_false]
        | some p => rfl
      rw [h1]
      simp only
      split
      · rename_i hc
        split
        · rename_i he
          exfalso
          apply hlast
          rw [beq_iff_eq] at hc
          rw [hc, List.isEmpty_iff.mp he]
        · rfl
      · rfl
    simp only [Re.search]
    rw [hm]
    apply ih
    · intro hp; cases hp
    · intro hsuf
      exact hlast (hsuf.trans (List.suffix_cons c cs))

theorem word_run_none {α : Type} (k : Option Str → Option Char → Str → Option α) :
    ∀ (w : Str) (cap : Option Str) (prev : Option Char) (rest : Str),
      startsWith (rest.map lowerAscii) (w.map lowerAscii) = false →
        (Re.cat (w.map Re.ci)).run k cap prev rest = none := by
  intro w
  induction w with
  | nil =>
    intro cap prev rest h
    simp [startsWith] at h
  | cons a w ih =>
    intro cap prev rest h
    cases w with
    | nil =>
      simp only [List.map_cons, List.map_nil, Re.cat, Re.ci, Re.run]
      cases rest with
      | nil => rfl
      | cons c cs =>
        simp only [List.map_cons, List.map_nil, startsWith, Bool.and_true] at h
        simp only [h, Bool.false_eq_true, if_false]
    | cons b w2 =>
      simp only [List.map_cons, Re.cat, Re.ci, Re.run]
      cases rest with
      | nil => rfl
      | cons c cs =>
        simp only
        split
        · rename_i hc
          simp only [List.map_cons, startsWith, hc, Bool.true_and] at h
          have := ih cap (some c) cs (by simpa [List.map_cons] using h)
          simpa [List.map_cons, Re.cat] using this
        · rfl

theorem alternatives_matchHere (a b c d e : Re) (l : Str) (i : Nat)
    (ha : ∀ k : Option Str → Option Char → Str → Option Match, a.run k none none l = none)
    (hb : ∀ k : Option Str → Option Char → Str → Option Match, b.run k none none l = none)
    (hc : ∀ k : Option Str → Option Char → Str → Option Match, c.run k none none l = none)
    (hd : ∀ k : Option Str → Option Char → Str → Option Match, d.run k none none l = none)
    (he : ∀ k : Option Str → Option Char → Str → Option Match, e.run k none none l = none) :
    (Re.seq Re.bol (Re.group (Re.alt a (Re.alt b (Re.alt c (Re.alt d e)))))).matchHere i none l
      = none := by
  simp only [Re.matchHere, Re.run, Option.isNone_none, if_true, ha, hb, hc, hd, he]

theorem headerLine_exec (l : Str) (h : beginsWithHeaderWord l = false) :
    headerLine.exec l = none := by
  simp only [beginsWithHeaderWord, headerWords, List.any_cons, List.any_nil, Bool.or_false,
    Bool.or_eq_false_iff] at h
  obtain ⟨h1, h2, h3, h4, h5⟩ := h
  have hm : ∀ i, headerLine.matchHere i none l = none := fun i =>
    alternatives_matchHere (Re.word "Name") (Re.word "Weapon") (Re.word "Armour")
      (Re.word "Protection") (Re.word "Force Field") l i
      (fun k => word_run_none k _ none none l h1) (fun k => word_run_none k _ none none l h2)
      (fun k => word_run_none k _ none none l h3) (fun k => word_run_none k _ none none l h4)
      (fun k => word_run_none k _ none none l h5)
  unfold Re.exec
  cases l with
  | nil =>
    simp only [Re.search]
    exact hm 0
  | cons c cs =>
    simp only [Re.search]
    rw [hm 0]
    exact bol_search_some _ cs 1 c

theorem beginsWithSpace_false (s : Str) (h : beginsWithSpace s = false) :
    ∀ c t, s = c :: t → isWhiteSpace c = false := by
  intro c t hs
  rw [hs] at h
  exact h

theorem formatLine_of_formatted (l : Str) (h : isFormattedLine l = true) :
    formatLine l = some l := by
  simp only [isFormattedLine, Bool.and_eq_true, Bool.not_eq_true'] at h
  obtain ⟨⟨⟨⟨⟨⟨⟨hne, hhead⟩, hlast⟩, htab⟩, hrun⟩, hpipes⟩, hedge⟩, hheader⟩ := h
  have htrim : trim l = l :=
    trim_of_clean l (beginsWithSpace_false l hhead) (beginsWithSpace_false l.reverse hlast)
  simp only [hasEdgePipe, Bool.or_eq_false_iff] at hedge
  have hsuf : ¬ ['|'] <:+ l := by
    intro hs
    have : ['|'] <+: l.reverse := by
      have := List.reverse_prefix.mpr hs
      simpa using this
    rw [(startsWith_iff _ _).mpr this] at hedge
    exact absurd hedge.2 (by decide)
  unfold formatLine
  simp only [htrim]
  rw [if_neg (by rw [hne]; decide), headerLine_exec l hheader]
  simp only [Option.isSome_none, Bool.false_eq_true, if_false]
  rw [Re.replaceAll_of_no_match tabRun _ l (tabRun_search l htab),
    Re.replaceAll_of_no_match spaceRun _ l (spaceRun_search l hrun 0 none),
    Re.replaceAll_of_no_match pipePair _ l (pipePair_search l hpipes 0 none), htrim,
    Re.replaceAll_of_no_match edgePipe _ l (edgePipe_search l 0 none (fun _ => hedge.1) hsuf),
    htrim]

theorem filterMap_of_fixed {α : Type} (f : α → Option α) :
    ∀ (ls : List α), (∀ l ∈ ls, f l = some l) → ls.filterMap f = ls := by
  intro ls
  induction ls with
  | nil => intro _; rfl
  | cons a t ih =>
    intro h
    rw [List.filterMap_cons, h a (List.mem_cons_self _ _)]
    simp only
    rw [ih (fun l hl => h l (List.mem_cons_of_mem _ hl))]

theorem join_cons_head (sep : Str) (c : Char) (p : Str) (ps : List Str) :
    join sep ((c :: p) :: ps) = c :: join sep (p :: ps) := by
  cases ps with
  | nil => rfl
  | cons q qs => rfl

theorem join_splitOn (sep : Char) (s : Str) : join [sep] (splitOn sep s) = s := by
  induction s with
  | nil => rfl
  | cons c cs ih =>
    simp only [splitOn]
    cases hsp : splitOn sep cs with
    | nil =>
      have := splitOn_length sep cs
      rw [hsp] at this
      simp at this
    | cons p ps =>
      rw [hsp] at ih
      simp only
      by_cases hc : c = sep
      · subst hc
        simp only [if_true]
        show [] ++ [c] ++ join [c] (p :: ps) = _
        rw [ih]
        rfl
      · simp only [hc, if_false]
        rw [join_cons_head, ih]

/-- C21: `formatPastedText` is a fixed point on already pipe-delimited,
header-free input: a text each of whose lines is non-empty, has no leading or
trailing whitespace, no tab, no run of two or more whitespace characters, no
two `|` separated only by whitespace, no `|` at either end, and does not begin,
letter case apart, with `Name`, `Weapon`, `Armour`, `Protection` or
`Force Field`, is returned as it is. -/
theorem formatPastedText_fixed_point (text : Str)
    (h : ∀ l ∈ splitOn '\n' text, isFormattedLine l = true) :
    formatPastedText text = text := by
  unfold formatPastedText
  rw [filterMap_of_fixed formatLine _ (fun l hl => formatLine_of_formatted l (h l hl))]
  exact join_splitOn '\n' text

theorem formatPastedText_fixed_point_witness :
    (∀ l ∈ splitOn '\n' formattedSample, isFormattedLine l = true) ∧
      formatPastedText formattedSample = formattedSample :=
  ⟨by decide, formatPastedText_fixed_point formattedSample (by decide)⟩

end ImpMal
